import Mathlib

/-!
Verification development for the seniority_list monthly job-assignment
engine (src/seniority_list/functions.py).

The long-form arrays of the source (orig_job, assigned_job, fur, eg, sg,
index) are modelled as lists of row records; a month slice of the long
form is one such list.  The numpy idiom
`np.put(arr, np.where(pred)[0][:n], v)` becomes "update the first n rows
satisfying pred", with Python slice semantics for negative n.  The
long-form static columns (eg, sg, index) are constant per employee, so
month m+1's slice is month m's slice filtered by next-month membership,
which is exactly what align_next computes.
-/

namespace SenList

/-- Python round-half-even (the semantics of Python's built-in round and
numpy's around) on rationals. -/
def pyRound (q : ℚ) : ℤ :=
  let f : ℤ := ⌊q⌋
  let r : ℚ := q - f
  if r < 1/2 then f
  else if 1/2 < r then f + 1
  else if Even f then f else f + 1

/-- Python round(x, 2): round to two decimal places, half to even. -/
def round2 (q : ℚ) : ℚ := (pyRound (q * 100) : ℚ) / 100

/-- Truncation toward zero, the semantics of float-to-int conversion in
Python and of numpy astype(int). -/
def pyTrunc (q : ℚ) : ℤ := Int.tdiv q.num q.den

/-- Number of elements selected from a list of length len by the Python
slice [:n] where n may be negative (negative n drops the last |n|). -/
def pyTakeCount (n : ℤ) (len : ℕ) : ℕ :=
  if 0 ≤ n then min n.toNat len else len - min len n.natAbs

/-- Number of elements selected by the Python slice [n:] with n negative
or zero: the last min(len, |n|) elements are selected. -/
def pySuffixCount (n : ℤ) (len : ℕ) : ℕ := min len n.natAbs

/-- One row of a month slice of the long-form data: employee index
(empkey surrogate), employee group, special group flag, original (held)
job, assigned job, furlough flag. -/
structure Row where
  idx : ℕ
  eg : ℕ
  sg : ℕ
  orig : ℕ
  assign : ℕ
  fur : ℕ
  deriving Repr, DecidableEq

/-- Apply f to the j-th row satisfying p whenever sel j holds, counting
satisfying rows from j0.  This is the common shape of
np.put(arr, np.where(pred)[0][slice], v): the slice picks positions of
the satisfying subsequence. -/
def updateSel (p : Row → Bool) (sel : ℕ → Bool) (f : Row → Row) :
    List Row → ℕ → List Row
  | [], _ => []
  | r :: rs, j =>
      if p r then
        (if sel j then f r else r) :: updateSel p sel f rs (j + 1)
      else
        r :: updateSel p sel f rs j

/-- np.put(arr, np.where(p)[0][:n], ·) : update the rows selected by the
Python slice [:n] of the satisfying subsequence. -/
def updateFirst (n : ℤ) (p : Row → Bool) (f : Row → Row)
    (rows : List Row) : List Row :=
  updateSel p (fun j => j < pyTakeCount n (rows.countP p)) f rows 0

/-- np.put(arr, np.where(p)[0][n:], ·) with n ≤ 0 : update the rows in
the tail of the satisfying subsequence selected by the slice [n:]. -/
def updateSuffix (n : ℤ) (p : Row → Bool) (f : Row → Row)
    (rows : List Row) : List Row :=
  updateSel p
    (fun j => rows.countP p - pySuffixCount n (rows.countP p) ≤ j)
    f rows 0

/-- Job-number write used throughout the assignment code. -/
def putJob (n : ℤ) (p : Row → Bool) (job : ℕ) (rows : List Row) :
    List Row :=
  updateFirst n p (fun r => { r with assign := job }) rows

/-- Budgeted form of updateFirst: apply f to the first k rows
satisfying p. -/
def updateK : ℕ → (Row → Bool) → (Row → Row) → List Row → List Row
  | _, _, _, [] => []
  | 0, _, _, rows => rows
  | k + 1, p, f, r :: rs =>
      if p r then f r :: updateK k p f rs else r :: updateK (k + 1) p f rs

/-- Skipping form of updateSuffix: apply f to every row satisfying p
except the first k of them. -/
def updateAfterK : ℕ → (Row → Bool) → (Row → Row) → List Row → List Row
  | _, _, _, [] => []
  | 0, p, f, r :: rs =>
      if p r then f r :: updateAfterK 0 p f rs
      else r :: updateAfterK 0 p f rs
  | k + 1, p, f, r :: rs =>
      if p r then r :: updateAfterK k p f rs
      else r :: updateAfterK (k + 1) p f rs

/-- Count of rows currently assigned to a given job level. -/
def cntAssign (rows : List Row) (k : ℕ) : ℕ :=
  rows.countP (fun r => r.assign == k)

/-! ### distribute and distribute_vacancies_by_weights -/

/-- The sequential largest-remainder loop shared by distribute and
distribute_vacancies_by_weights: for each weight w, emit
round(w / remaining_weight * remaining_available) and deplete both the
remaining weight and the remaining available count. -/
def distAux : List ℚ → ℚ → ℚ → List ℤ
  | [], _, _ => []
  | w :: ws, tw, avail =>
      let b : ℤ := pyRound (w / tw * avail)
      b :: distAux ws (tw - w) (avail - (b : ℚ))

/-- functions.distribute: proportionally distribute available according
to weights, rounding each bin while depleting the remainders. -/
def distribute (available : ℚ) (weights : List ℚ) : List ℤ :=
  distAux weights weights.sum available

/-- Place the values of vs at the true positions of the mask, zeros at
the false positions (the numpy fancy assignment
additives[list_loc] = distribute(...)). -/
def placeAt : List Bool → List ℤ → List ℤ
  | [], _ => []
  | true :: ms, v :: vs => v :: placeAt ms vs
  | true :: ms, [] => 0 :: placeAt ms []
  | false :: ms, vs => 0 :: placeAt ms vs

/-- functions.distribute_vacancies_by_weights: zeros when no vacancies;
otherwise bins minus existing counts, with negative additives zeroed and
the vacancies redistributed over the strictly positive slots (weights
truncated to int as numpy astype(int) does). -/
def distributeVacanciesByWeights (available : ℤ) (egCounts : List ℤ)
    (weights : List ℚ) : List ℤ :=
  let vacancies : ℤ := available - egCounts.sum
  if vacancies ≤ 0 then
    List.replicate egCounts.length 0
  else
    let binCounts := distAux weights weights.sum (available : ℚ)
    let additives := List.zipWith (fun b c => b - c) binCounts egCounts
    if additives.any (fun a => a < 0) then
      let mask := additives.map (fun a => decide (0 < a))
      let posWeights :=
        (List.zip weights additives).filterMap
          (fun wa => if 0 < wa.2 then some ((pyTrunc wa.1 : ℚ)) else none)
      placeAt mask (distAux posWeights posWeights.sum (vacancies : ℚ))
    else
      additives

/-! ### job_gain_loss_table (integrated table, standalone=False) -/

/-- One job-change schedule: job level, month range [startM, endM), total
integrated delta, and the per-group deltas used only by the standalone
table. -/
structure JobChange where
  level : ℕ
  startM : ℕ
  endM : ℕ
  delta : ℤ
  peg : List ℤ
  deriving Repr, DecidableEq

/-- The cumulative additive a change contributes to its column in month
m: the month-(m) element of linspace(0, delta, endM-startM+1)[1:]
truncated to int inside [startM, endM), and the full delta from endM on.
Int.tdiv truncates toward zero, matching numpy astype(int). -/
def changeAdditive (c : JobChange) (m : ℕ) : ℤ :=
  if m < c.startM then 0
  else if m < c.endM then
    Int.tdiv (((m - c.startM + 1 : ℕ) : ℤ) * c.delta)
      ((c.endM - c.startM : ℕ) : ℤ)
  else c.delta

/-- Apply one job-change schedule to the whole table. -/
def applyChange (table : List (List ℤ)) (c : JobChange) : List (List ℤ) :=
  table.mapIdx (fun m row =>
    row.mapIdx (fun j x => if j = c.level - 1 then x + changeAdditive c m else x))

/-- functions.job_gain_loss_table with standalone=False: broadcast the
initial counts down every month, then add every schedule's cumulative
ramp; also the monthly totals. -/
def jobGainLossTable (months : ℕ) (init : List ℤ)
    (changes : List JobChange) : List (List ℤ) × List ℤ :=
  let table := changes.foldl applyChange (List.replicate months init)
  (table, table.map (fun row => row.sum))

/-- The schedules for which the source prints its job-reduction-below-
zero diagnostic: the check compares the month-0 count of the level plus
this single schedule's delta against zero, before any ramps are applied. -/
def jobScheduleWarnings (init : List ℤ) (changes : List JobChange) :
    List JobChange :=
  changes.filter (fun c => init.getD (c.level - 1) 0 + c.delta < 0)

/-- Total accessor for a table entry (months by job levels). -/
def tableEntry (t : List (List ℤ)) (m k : ℕ) : ℤ :=
  (((t[m]?).getD [])[k]?).getD 0

/-! ### mark_fur_range, mark_for_furlough, mark_for_recall -/

/-- functions.mark_fur_range: set fur to 1 where assign is 0, then to 0
where assign lies in 1..job_levels. -/
def markFurRange (jobLevels : ℕ) (rows : List Row) : List Row :=
  (rows.map (fun r => if r.assign == 0 then { r with fur := 1 } else r)).map
    (fun r =>
      if 0 < r.assign && r.assign ≤ jobLevels then { r with fur := 0 } else r)

/-- functions.mark_for_furlough: when the month's total job count is
short of the non-furloughed count, furlough the most junior non-
furloughed rows (the suffix selected by non_fur_indexes[excess:]) and
set their held job to the furlough level. -/
def markForFurlough (numJobLevels : ℕ) (jobsAvail : ℤ) (rows : List Row) :
    List Row :=
  let activeCount : ℕ := rows.countP (fun r => r.fur == 0)
  let excess : ℤ := jobsAvail - activeCount
  if 0 ≤ excess then rows
  else
    updateSuffix excess (fun r => r.fur == 0)
      (fun r => { r with fur := 1, orig := numJobLevels + 1 }) rows

/-- Recall-selection method of mark_for_recall. -/
inductive RecallMethod
  | senOrder
  | strideSel
  | randomSel
  deriving Repr, DecidableEq

/-- One recall schedule: total amount, per-group amounts (standalone
only), month range [startM, endM). -/
structure RecallSched where
  amount : ℤ
  peg : List ℤ
  startM : ℕ
  endM : ℕ
  deriving Repr, DecidableEq

/-- The index-selection set of one recall action on the furloughed
subsequence of length cnt: a prefix for sen_order, every stride-th
element for stride, and the front of an external permutation of the
positions for random (np.random.shuffle consumes numpy's global RNG,
modelled by the oracle). -/
def recallSelector (method : RecallMethod) (strideN : ℕ)
    (oracle : List ℕ → List ℕ) (cnt : ℕ) (n : ℤ) : ℕ → Bool :=
  match method with
  | .senOrder => fun j => j < pyTakeCount n cnt
  | .strideSel => fun j =>
      j % strideN == 0 && j / strideN < pyTakeCount n ((cnt + strideN - 1) / strideN)
  | .randomSel => fun j => ((oracle (List.range cnt)).take (pyTakeCount n cnt)).contains j

/-- Body of the mark_for_recall schedule loop: skip schedules whose
range misses the month, otherwise clear the fur flag of the selected
furloughees, set their held job to the furlough level, and deplete the
remaining job surplus; stop once the surplus reaches zero. -/
def recallLoop (numJobLevels : ℕ) (month : ℕ) (standalone : Bool)
    (egIndex : ℕ) (method : RecallMethod) (strideN : ℕ)
    (oracle : List ℕ → List ℕ) :
    List RecallSched → List Row → ℤ → List Row
  | [], rows, _ => rows
  | sched :: rest, rows, excess =>
      if month < sched.startM ∨ sched.endM ≤ month then
        recallLoop numJobLevels month standalone egIndex method strideN
          oracle rest rows excess
      else
        let amt : ℤ :=
          if standalone then sched.peg.getD egIndex 0 else sched.amount
        if standalone ∧ amt = 0 then
          recallLoop numJobLevels month standalone egIndex method strideN
            oracle rest rows excess
        else
          let recalls : ℤ := min amt excess
          let furCnt : ℕ := rows.countP (fun r => r.fur == 1)
          let rows' :=
            updateSel (fun r => r.fur == 1)
              (recallSelector method strideN oracle furCnt recalls)
              (fun r => { r with fur := 0, orig := numJobLevels + 1 }) rows 0
          let excess' := excess - recalls
          if excess' = 0 then rows'
          else
            recallLoop numJobLevels month standalone egIndex method strideN
              oracle rest rows' excess'

/-- functions.mark_for_recall: nothing happens unless the month's total
job count exceeds the non-furloughed count; then walk the recall
schedules. -/
def markForRecall (numJobLevels : ℕ) (month : ℕ)
    (recallSched : List RecallSched) (jobsAvail : ℤ) (standalone : Bool)
    (egIndex : ℕ) (method : RecallMethod) (strideN : ℕ)
    (oracle : List ℕ → List ℕ) (rows : List Row) : List Row :=
  let activeCount : ℕ := rows.countP (fun r => r.fur == 0)
  let excess : ℤ := jobsAvail - activeCount
  if 0 < excess then
    recallLoop numJobLevels month standalone egIndex method strideN oracle
      recallSched rows excess
  else rows

/-! ### set_ratio_cond_dict, assign_cond_ratio, assign_cond_ratio_capped -/

/-- functions.set_ratio_cond_dict: for each listed job, the rounded
share of that job's holders who belong to the reference group. -/
def setRatioCondDict (egNum : ℕ) (jobs : List ℕ) (rows : List Row) :
    List (ℕ × ℚ) :=
  jobs.map (fun j =>
    (j, round2 (((rows.countP (fun r => r.orig == j && r.eg == egNum)) : ℚ) /
                ((rows.countP (fun r => r.orig == j)) : ℚ))))

/-- Python dict lookup over the association list (later entries
override earlier ones, as in dict(zip(...))). -/
def ratioLookup (d : List (ℕ × ℚ)) (j : ℕ) : ℚ :=
  d.foldl (fun acc p => if p.1 = j then p.2 else acc) 0

/-- functions.assign_cond_ratio: the rounded reference-group share of
the month's job count goes to unassigned non-furloughed reference-group
rows, the remainder first to other-group rows entitled by NBNF (held
job at or better than the level) and then to other-group rows by
seniority. -/
def assignCondRatio (job : ℕ) (tjc : ℤ) (egNum : ℕ) (d : List (ℕ × ℚ))
    (rows : List Row) : List Row :=
  let egJobCount : ℤ := pyRound (ratioLookup d job * (tjc : ℚ))
  let notEgJobCount : ℤ := tjc - egJobCount
  let rows1 := putJob egJobCount
    (fun r => r.assign == 0 && r.eg == egNum && r.fur == 0) job rows
  let rows2 := putJob notEgJobCount
    (fun r => r.assign == 0 && !(r.eg == egNum) && r.fur == 0 &&
      decide (r.orig ≤ job)) job rows1
  let used : ℤ := (rows2.countP (fun r => r.assign == job && 1 < r.eg) : ℤ)
  putJob (notEgJobCount - used)
    (fun r => r.assign == 0 && !(r.eg == egNum) && r.fur == 0) job rows2

/-- An entry of the quota dictionary of the capped-ratio condition:
keyed by (job, enhanced_jobs), value (weights, limit, percentage). -/
structure QuotaEntry where
  job : ℕ
  enhanced : Bool
  w1 : ℚ
  w2 : ℚ
  limit : ℚ
  pcnt : ℚ
  deriving Repr, DecidableEq

/-- Lookup in the quota dictionary (later entries override). -/
def quotaLookup (q : List QuotaEntry) (j : ℕ) (enh : Bool) : ℚ × ℚ × ℚ × ℚ :=
  q.foldl (fun acc e =>
    if e.job = j ∧ e.enhanced = enh then (e.w1, e.w2, e.limit, e.pcnt) else acc)
    (0, 0, 0, 0)

/-- The exclude put of assign_cond_ratio_capped: the nonparticipating-
NBNF array is identically zero in the source as it stands (the code
that would populate it is commented out), so the put matches rows whose
nonparticipating value 0 equals the job number. -/
def acrcExclude (job : ℕ) (rows : List Row) : List Row :=
  rows.map (fun r =>
    if (0 : ℕ) == job then { r with assign := job } else r)

/-- exclude_count of assign_cond_ratio_capped. -/
def acrcExcludeCount (job : ℕ) (rows : List Row) : ℤ :=
  (cntAssign (acrcExclude job rows) job : ℤ)

/-- The initial NBNF assignment of assign_cond_ratio_capped to the
affected groups. -/
def acrcNbnf (job : ℕ) (tjc : ℤ) (eg1 eg2 : ℕ) (rows : List Row) :
    List Row :=
  putJob (tjc - acrcExcludeCount job rows)
    (fun r => r.assign == 0 && r.orig == job && r.fur == 0 &&
      (r.eg == eg1 || r.eg == eg2)) job (acrcExclude job rows)

/-- The vacancy-fill branch of assign_cond_ratio_capped, taken when the
assignment list of distribute_vacancies_by_weights is positive. -/
def acrcQuotaFill (job : ℕ) (q1 q2 : ℤ) (eg1 eg2 : ℕ)
    (rows1 : List Row) : List Row :=
  let rows2 := if 0 < q1 then
      putJob q1 (fun r => r.assign == 0 && r.eg == eg1 && r.fur == 0)
        job rows1
    else rows1
  if 0 < q2 then
    putJob q2 (fun r => r.assign == 0 && r.eg == eg2 && r.fur == 0)
      job rows2
  else rows2

/-- The shortfall branch of assign_cond_ratio_capped: when both groups
meet or exceed quota, fill any under-represented group's shortfall up
to the open jobs, group 2 first as in the source. -/
def acrcShortfallFill (job : ℕ) (sf1 sf2 openJobs : ℤ) (eg1 eg2 : ℕ)
    (rows1 : List Row) : List Row :=
  let rows2 := if 0 < sf2 then
      putJob (min sf2 openJobs)
        (fun r => r.assign == 0 && r.eg == eg2 && r.fur == 0) job rows1
    else rows1
  if 0 < sf1 then
    putJob (min sf1 openJobs)
      (fun r => r.assign == 0 && r.eg == eg1 && r.fur == 0) job rows2
  else rows2

/-- functions.assign_cond_ratio_capped with the engine's call-site
arguments eg_1_arr = {1}, eg_2_arr = {2}, assembled from its steps
above exactly as the source: exclude put, NBNF put, per-group counts,
quota from the dictionary, then the vacancy distribution or the
shortfall fill. -/
def assignCondRatioCapped (job : ℕ) (tjc : ℤ) (eg1 eg2 : ℕ)
    (quota : List QuotaEntry) (enh : Bool) (rows : List Row) : List Row :=
  let rows1 := acrcNbnf job tjc eg1 eg2 rows
  let c1 : ℤ := (rows1.countP (fun r => r.assign == job && r.eg == eg1) : ℤ)
  let c2 : ℤ := (rows1.countP (fun r => r.assign == job && r.eg == eg2) : ℤ)
  let wlp := quotaLookup quota job enh
  let limitPcnt : ℚ := wlp.2.2.1 * wlp.2.2.2
  let maxQuota : ℤ := min tjc (pyRound limitPcnt)
  let available : ℤ := maxQuota - acrcExcludeCount job rows
  let assignmentList := distributeVacanciesByWeights available [c1, c2]
    [wlp.1, wlp.2.1]
  if 0 < assignmentList.sum then
    acrcQuotaFill job (assignmentList.getD 0 0) (assignmentList.getD 1 0)
      eg1 eg2 rows1
  else
    let egQuotas := distribute limitPcnt [wlp.1, wlp.2.1]
    acrcShortfallFill job (max 0 (egQuotas.getD 0 0 - c1))
      (max 0 (egQuotas.getD 1 0 - c2))
      (tjc - acrcExcludeCount job rows - c1 - c2) eg1 eg2 rows1

/-! ### The monthly assignment engine (assign_jobs_nbnf_job_changes) -/

/-- A row of cf.sg_rights: (group, job, count, start month, end month). -/
structure SgRight where
  eg : ℕ
  job : ℕ
  count : ℕ
  startM : ℕ
  endM : ℕ
  deriving Repr, DecidableEq

/-- A row of cf.ratio_cond: (group, job, start month, end month). -/
structure RatioRow where
  eg : ℕ
  job : ℕ
  startM : ℕ
  endM : ℕ
  deriving Repr, DecidableEq

/-- A row of cf.count_cond: (group, job, count, start month, end month). -/
structure CountRow where
  eg : ℕ
  job : ℕ
  count : ℕ
  startM : ℕ
  endM : ℕ
  deriving Repr, DecidableEq

/-- The engine's configuration: the precomputed inputs of
assign_jobs_nbnf_job_changes together with the config-file data the
function reads.  roster gives the index (empkey) column of each month's
slice of the long form. -/
structure EngCfg where
  K : ℕ
  startMonth : ℕ
  numMonths : ℕ
  J : List (List ℤ)
  T : List ℤ
  jcm : List ℕ
  reductionMonths : List ℕ
  condPrex : Bool
  condRatio : Bool
  condCount : Bool
  sgRights : List SgRight
  ratioCond : List RatioRow
  countCond : List CountRow
  quota : List QuotaEntry
  enhancedJobs : Bool
  furReturn : Bool
  delayed : Bool
  recalls : List RecallSched
  roster : ℕ → List ℕ

def sgJobs (cfg : EngCfg) : List ℕ := cfg.sgRights.map (fun r => r.job)

/-- sg_dict built by dict(zip(sg_jobs, sg_counts)). -/
def sgLookup (cfg : EngCfg) (j : ℕ) : ℕ :=
  cfg.sgRights.foldl (fun acc r => if r.job = j then r.count else acc) 0

/-- sg_month_range = arange(min start, max end). -/
def inSgRange (cfg : EngCfg) (m : ℕ) : Bool :=
  ((cfg.sgRights.map (fun r => r.startM)).min?.getD 0) ≤ m &&
    m < ((cfg.sgRights.map (fun r => r.endM)).max?.getD 0)

def ratioJobs (cfg : EngCfg) : List ℕ := cfg.ratioCond.map (fun r => r.job)

/-- ratio_cond_month = ratio_cond[0][2], the start month of the first
ratio-condition row. -/
def ratioCondMonth (cfg : EngCfg) : ℕ :=
  ((cfg.ratioCond.head?).map (fun r => r.startM)).getD 0

/-- ratio_month_range = arange(min start, max end). -/
def inRatioRange (cfg : EngCfg) (m : ℕ) : Bool :=
  ((cfg.ratioCond.map (fun r => r.startM)).min?.getD 0) ≤ m &&
    m < ((cfg.ratioCond.map (fun r => r.endM)).max?.getD 0)

def countJobs (cfg : EngCfg) : List ℕ := cfg.countCond.map (fun r => r.job)

/-- count_month_range = arange(min start, max end). -/
def inCountRange (cfg : EngCfg) (m : ℕ) : Bool :=
  ((cfg.countCond.map (fun r => r.startM)).min?.getD 0) ≤ m &&
    m < ((cfg.countCond.map (fun r => r.endM)).max?.getD 0)

def inRecallMonths (cfg : EngCfg) (m : ℕ) : Bool :=
  cfg.recalls.any (fun s => s.startM ≤ m && m < s.endM)

/-- job_change_months after concatenation of the active condition
ranges and the recall months. -/
def inJobChangeMonths (cfg : EngCfg) (m : ℕ) : Bool :=
  cfg.jcm.contains m || (cfg.condPrex && inSgRange cfg m) ||
    (cfg.condRatio && inRatioRange cfg m) ||
    (cfg.condCount && inCountRange cfg m) ||
    (cfg.furReturn && inRecallMonths cfg m)

/-- The pre-existing-rights put of the job loop. -/
def prexStep (cfg : EngCfg) (m job : ℕ) (tjc : ℤ) (rows : List Row) :
    List Row :=
  if cfg.condPrex && inSgRange cfg m && (sgJobs cfg).contains job then
    putJob (min (sgLookup cfg job : ℤ) tjc)
      (fun r => r.assign == 0 && r.sg == 1 && r.fur == 0) job rows
  else rows

/-- Setting the frozen-ratio dictionary when month == ratio_cond_month
and job == ratio_cond_job (hardwired 1 in the source). -/
def ratioStepRd (cfg : EngCfg) (m job : ℕ) (rows : List Row)
    (rd : Option (List (ℕ × ℚ))) : Option (List (ℕ × ℚ)) :=
  if cfg.condRatio && m == ratioCondMonth cfg && job == 1 then
    some (setRatioCondDict 1 (ratioJobs cfg) rows)
  else rd

/-- The frozen-ratio assignment of the job loop. -/
def ratioStep (cfg : EngCfg) (m job : ℕ) (tjc : ℤ)
    (rd : Option (List (ℕ × ℚ))) (rows : List Row) : List Row :=
  if cfg.condRatio && inRatioRange cfg m && (ratioJobs cfg).contains job
  then
    match rd with
    | some d => assignCondRatio job tjc 1 d rows
    | none => rows
  else rows

/-- The capped-ratio (count) assignment of the job loop. -/
def countStep (cfg : EngCfg) (m job : ℕ) (tjc : ℤ) (rows : List Row) :
    List Row :=
  if cfg.condCount && inCountRange cfg m && (countJobs cfg).contains job
  then
    assignCondRatioCapped job tjc 1 2 cfg.quota cfg.enhancedJobs rows
  else rows

/-- The conditional-quota dispatch inside the job loop: pre-existing
rights, then the frozen-ratio condition (setting the ratio dictionary
when month == ratio_cond_month and job == 1), then the capped-ratio
(count) condition. -/
def condStep (cfg : EngCfg) (m job : ℕ) (tjc : ℤ)
    (st : List Row × Option (List (ℕ × ℚ))) :
    List Row × Option (List (ℕ × ℚ)) :=
  let rows := prexStep cfg m job tjc st.1
  let rd := ratioStepRd cfg m job rows st.2
  (countStep cfg m job tjc (ratioStep cfg m job tjc rd rows), rd)

/-- The two unconditional fills of each job iteration: NBNF-entitled
rows first (held job at or better than the level), then any remaining
unassigned non-furloughed rows, both capped by the remaining count. -/
def baselineStep (job : ℕ) (tjc : ℤ) (rows : List Row) : List Row :=
  let rows1 := putJob (tjc - (cntAssign rows job : ℤ))
    (fun r => r.assign == 0 && decide (r.orig ≤ job) && r.fur == 0) job rows
  putJob (tjc - (cntAssign rows1 job : ℤ))
    (fun r => r.assign == 0 && r.fur == 0) job rows1

/-- One iteration of the while loop over job levels. -/
def jobStep (cfg : EngCfg) (m : ℕ)
    (st : List Row × Option (List (ℕ × ℚ))) (job : ℕ) :
    List Row × Option (List (ℕ × ℚ)) :=
  let tjc : ℤ := (cfg.J.getD m []).getD (job - 1) 0
  let st' := if inJobChangeMonths cfg m then condStep cfg m job tjc st else st
  (baselineStep job tjc st'.1, st'.2)

/-- The full job loop of one month, job = 1 .. K. -/
def jobLoop (cfg : EngCfg) (m : ℕ)
    (st : List Row × Option (List (ℕ × ℚ))) :
    List Row × Option (List (ℕ × ℚ)) :=
  (List.range cfg.K).foldl (fun s i => jobStep cfg m s (i + 1)) st

/-- The furlough / recall steps preceding the job loop. -/
def monthPrep (cfg : EngCfg) (oracle : List ℕ → List ℕ) (m : ℕ)
    (rows : List Row) : List Row :=
  let rows :=
    if cfg.reductionMonths.contains m then
      markForFurlough cfg.K (cfg.T.getD m 0) rows
    else rows
  if cfg.furReturn && inRecallMonths cfg m then
    markForRecall cfg.K m cfg.recalls (cfg.T.getD m 0) false 0
      RecallMethod.senOrder 2 oracle rows
  else rows

/-- The record kept of one processed month: the slice after the
furlough/recall steps (prep), the ratio-dictionary state entering the
month, and the slice after the job loop and mark_fur_range (post). -/
structure MonthRec where
  month : ℕ
  prep : List Row
  rdIn : Option (List (ℕ × ℚ))
  post : List Row
  deriving Repr, DecidableEq

/-- align_next carry-forward: keep the rows whose index appears in the
next month's slice, moving this month's assignment into next month's
held job; the next month's segment of the assignment column is fresh
zeros. -/
def carryNext (idxs : List ℕ) (rows : List Row) : List Row :=
  (rows.filter (fun r => idxs.contains r.idx)).map
    (fun r => { r with orig := r.assign, assign := 0 })

/-- The monthly loop.  For the final month the source's lower_next /
upper_next arrays repeat the last slice bounds, so the align_next
write-back lands on the final month's own orig segment; finalizeOut
below accounts for that. -/
def runAux (cfg : EngCfg) (oracle : List ℕ → List ℕ) :
    ℕ → ℕ → List Row → Option (List (ℕ × ℚ)) → List MonthRec
  | _, 0, _, _ => []
  | m, n + 1, rows, rd =>
      let pr := monthPrep cfg oracle m rows
      let st := jobLoop cfg m (pr, rd)
      let post := markFurRange cfg.K st.1
      let r0 : MonthRec := ⟨m, pr, rd, post⟩
      match n with
      | 0 => [r0]
      | n' + 1 =>
          r0 :: runAux cfg oracle (m + 1) (n' + 1)
            (carryNext (cfg.roster (m + 1)) post) st.2

/-- All processed months of one engine run.  When
cf.delayed_implementation is set, the source prefills the long
assignment column up to the start month's upper bound from the orig
column, so the start month's slice enters the loop with assign = orig;
otherwise the slice starts all zero. -/
def engineRecs (cfg : EngCfg) (oracle : List ℕ → List ℕ)
    (initRows : List Row) : List MonthRec :=
  runAux cfg oracle cfg.startMonth (cfg.numMonths - cfg.startMonth)
    (initRows.map (fun r =>
      { r with assign := if cfg.delayed then r.orig else 0 })) none

/-- The stored month slices: every month's post state, except that the
final month's orig segment was overwritten by its own assignment via
the repeated slice bound. -/
def finalizeOut : List MonthRec → List (List Row)
  | [] => []
  | [r0] => [r0.post.map (fun r => { r with orig := r.assign })]
  | r0 :: r1 :: rest => r0.post :: finalizeOut (r1 :: rest)

/-- The closing relabels of the engine: zero assignments become the
furlough level K+1 in the assignment column, and furlough-level entries
of the orig column become 0. -/
def relabelRow (K : ℕ) (r : Row) : Row :=
  { r with assign := if r.assign = 0 then K + 1 else r.assign,
           orig := if r.orig = K + 1 then 0 else r.orig }

/-- The engine's output columns per processed month. -/
def engineOut (cfg : EngCfg) (oracle : List ℕ → List ℕ)
    (initRows : List Row) : List (List Row) :=
  (finalizeOut (engineRecs cfg oracle initRows)).map
    (fun ms => ms.map (relabelRow cfg.K))

/-! ### Concrete instances -/

/-- A one-month, one-level, one-employee configuration with no
conditions. -/
def cfgW : EngCfg :=
  ⟨1, 0, 1, [[1]], [1], [], [], false, false, false, [], [], [], [],
    false, false, false, [], fun _ => [0]⟩

def rowsW : List Row := [⟨0, 1, 0, 1, 0, 0⟩]

/-- One month, one job level with two slots, pre-existing special-group
rights for two special-group members plus an overlapping ratio
condition on the same level. -/
def cfgC1 : EngCfg :=
  ⟨1, 0, 1, [[2]], [2], [], [], true, true, false, [⟨1, 1, 2, 0, 1⟩],
    [⟨1, 1, 0, 1⟩], [], [], false, false, false, [],
    fun _ => [0, 1, 2, 3]⟩

def rowsC1 : List Row :=
  [⟨0, 1, 0, 1, 0, 0⟩, ⟨1, 1, 0, 1, 0, 0⟩,
   ⟨2, 1, 1, 1, 0, 0⟩, ⟨3, 1, 1, 1, 0, 0⟩]

/-- Two months, two job levels, no conditions: level 1 shrinks from two
slots to one while level 2 opens one slot. -/
def cfgC2 : EngCfg :=
  ⟨2, 0, 2, [[2, 0], [1, 1]], [2, 2], [], [], false, false, false, [],
    [], [], [], false, false, false, [], fun _ => [0, 1]⟩

def rowsC2 : List Row :=
  [⟨0, 1, 0, 1, 0, 0⟩, ⟨1, 1, 0, 1, 0, 0⟩]

/-- Two months, one level, constant non-negative job counts, no
conditions. -/
def cfgW2 : EngCfg :=
  ⟨1, 0, 2, [[1], [1]], [1, 1], [], [], false, false, false, [], [],
    [], [], false, false, false, [], fun _ => [0]⟩

/-- Three months, two levels, constant job counts [1, 1], no
conditions, no furloughs; the level-1 holder retires after month 0 (the
roster loses index 0). -/
def cfgC9 : EngCfg :=
  ⟨2, 0, 3, [[1, 1], [1, 1], [1, 1]], [2, 2, 2], [], [], false, false,
    false, [], [], [], [], false, false, false, [],
    fun m => if m == 0 then [0, 1] else [1]⟩

/-- One month, one level, delayed implementation: the start month's
assignment column is prefilled from orig, so a furloughed row enters
(and leaves) the month holding the furlough level K + 1 = 2. -/
def cfgC3 : EngCfg :=
  ⟨1, 0, 1, [[1]], [1], [], [], false, false, false, [], [], [], [],
    false, false, true, [], fun _ => [0]⟩

def rowsC3 : List Row := [⟨0, 1, 0, 2, 0, 1⟩]

def rowsC9 : List Row :=
  [⟨0, 1, 0, 1, 0, 0⟩, ⟨1, 1, 0, 2, 0, 0⟩]

/-! ### Lemmas about the update combinators -/

theorem updateSel_false (p : Row → Bool) (sel : ℕ → Bool) (f : Row → Row) :
    ∀ (rows : List Row) (j0 : ℕ), (∀ j, j0 ≤ j → sel j = false) →
      updateSel p sel f rows j0 = rows
  | [], _, _ => rfl
  | r :: rs, j0, h => by
      unfold updateSel
      by_cases hp : p r = true
      · simp [hp, h j0 le_rfl,
          updateSel_false p sel f rs (j0 + 1) (fun j hj => h j (by omega))]
      · simp [hp, updateSel_false p sel f rs j0 h]

theorem updateK_zero (p : Row → Bool) (f : Row → Row) (rows : List Row) :
    updateK 0 p f rows = rows := by
  cases rows <;> rfl

theorem updateSel_lt_eq_updateK (p : Row → Bool) (f : Row → Row) (K : ℕ) :
    ∀ (rows : List Row) (j0 : ℕ),
      updateSel p (fun j => j < K) f rows j0 = updateK (K - j0) p f rows
  | [], _ => by cases h : K - _ <;> rfl
  | r :: rs, j0 => by
      unfold updateSel
      by_cases hp : p r = true
      · by_cases hj : j0 < K
        · have hk : K - j0 = (K - (j0 + 1)) + 1 := by omega
          rw [updateSel_lt_eq_updateK p f K rs (j0 + 1)]
          simp [hp, hj, hk, updateK]
        · have hk : K - j0 = 0 := by omega
          rw [hk, updateK_zero]
          have hrs := updateSel_false p (fun j => decide (j < K)) f rs (j0 + 1)
            (fun j hjj => by simp; omega)
          simp [hp, hj, hrs]
      · rw [updateSel_lt_eq_updateK p f K rs j0]
        cases hk : K - j0 with
        | zero => simp [hp, updateK_zero]
        | succ k => simp [hp, updateK]

theorem updateSel_ge_eq_updateAfterK (p : Row → Bool) (f : Row → Row)
    (K : ℕ) :
    ∀ (rows : List Row) (j0 : ℕ),
      updateSel p (fun j => K ≤ j) f rows j0 = updateAfterK (K - j0) p f rows
  | [], _ => by cases h : K - _ <;> rfl
  | r :: rs, j0 => by
      unfold updateSel
      by_cases hp : p r = true
      · by_cases hj : K ≤ j0
        · have hk : K - j0 = 0 := by omega
          have hk2 : K - (j0 + 1) = 0 := by omega
          rw [updateSel_ge_eq_updateAfterK p f K rs (j0 + 1), hk, hk2]
          simp [hp, hj, updateAfterK]
        · have hk : K - j0 = (K - (j0 + 1)) + 1 := by omega
          rw [updateSel_ge_eq_updateAfterK p f K rs (j0 + 1), hk]
          simp [hp, hj, updateAfterK]
      · rw [updateSel_ge_eq_updateAfterK p f K rs j0]
        cases hk : K - j0 with
        | zero => simp [hp, updateAfterK]
        | succ k => simp [hp, updateAfterK]

theorem updateFirst_eq_updateK (n : ℤ) (p : Row → Bool) (f : Row → Row)
    (rows : List Row) :
    updateFirst n p f rows =
      updateK (pyTakeCount n (rows.countP p)) p f rows := by
  unfold updateFirst
  rw [updateSel_lt_eq_updateK, Nat.sub_zero]

theorem updateSuffix_eq_updateAfterK (n : ℤ) (p : Row → Bool)
    (f : Row → Row) (rows : List Row) :
    updateSuffix n p f rows =
      updateAfterK (rows.countP p - pySuffixCount n (rows.countP p)) p f
        rows := by
  unfold updateSuffix
  rw [updateSel_ge_eq_updateAfterK, Nat.sub_zero]

theorem putJob_eq_updateK (n : ℤ) (p : Row → Bool) (job : ℕ)
    (rows : List Row) :
    putJob n p job rows =
      updateK (pyTakeCount n (rows.countP p)) p
        (fun r => { r with assign := job }) rows := by
  unfold putJob
  rw [updateFirst_eq_updateK]

theorem updateK_nil (k : ℕ) (p : Row → Bool) (f : Row → Row) :
    updateK k p f [] = [] := by
  cases k <;> rfl

theorem updateAfterK_nil (k : ℕ) (p : Row → Bool) (f : Row → Row) :
    updateAfterK k p f [] = [] := by
  cases k <;> rfl

theorem updateK_length (p : Row → Bool) (f : Row → Row) :
    ∀ (rows : List Row) (k : ℕ),
      (updateK k p f rows).length = rows.length := by
  intro rows
  induction rows with
  | nil => intro k; rw [updateK_nil]
  | cons r rs ih =>
      intro k
      cases k with
      | zero => rw [updateK_zero]
      | succ k => by_cases hp : p r = true <;> simp [updateK, hp, ih]

theorem updateAfterK_length (p : Row → Bool) (f : Row → Row) :
    ∀ (rows : List Row) (k : ℕ),
      (updateAfterK k p f rows).length = rows.length := by
  intro rows
  induction rows with
  | nil => intro k; rw [updateAfterK_nil]
  | cons r rs ih =>
      intro k
      cases k with
      | zero => by_cases hp : p r = true <;> simp [updateAfterK, hp, ih]
      | succ k => by_cases hp : p r = true <;> simp [updateAfterK, hp, ih]

theorem updateK_cons_pos {p : Row → Bool} {r : Row} (hp : p r = true)
    (k : ℕ) (f : Row → Row) (rs : List Row) :
    updateK (k + 1) p f (r :: rs) = f r :: updateK k p f rs := by
  simp [updateK, hp]

theorem updateK_cons_neg {p : Row → Bool} {r : Row} (hp : p r = false)
    (k : ℕ) (f : Row → Row) (rs : List Row) :
    updateK (k + 1) p f (r :: rs) = r :: updateK (k + 1) p f rs := by
  simp [updateK, hp]

theorem updateAfterK_cons_zero_pos {p : Row → Bool} {r : Row}
    (hp : p r = true) (f : Row → Row) (rs : List Row) :
    updateAfterK 0 p f (r :: rs) = f r :: updateAfterK 0 p f rs := by
  simp [updateAfterK, hp]

theorem updateAfterK_cons_zero_neg {p : Row → Bool} {r : Row}
    (hp : p r = false) (f : Row → Row) (rs : List Row) :
    updateAfterK 0 p f (r :: rs) = r :: updateAfterK 0 p f rs := by
  simp [updateAfterK, hp]

theorem updateAfterK_cons_succ_pos {p : Row → Bool} {r : Row}
    (hp : p r = true) (k : ℕ) (f : Row → Row) (rs : List Row) :
    updateAfterK (k + 1) p f (r :: rs) = r :: updateAfterK k p f rs := by
  simp [updateAfterK, hp]

theorem updateAfterK_cons_succ_neg {p : Row → Bool} {r : Row}
    (hp : p r = false) (k : ℕ) (f : Row → Row) (rs : List Row) :
    updateAfterK (k + 1) p f (r :: rs) = r :: updateAfterK (k + 1) p f rs := by
  simp [updateAfterK, hp]

theorem updateK_countP_indiff (q p : Row → Bool) (f : Row → Row)
    (hq : ∀ r, p r = true → q (f r) = q r) :
    ∀ (rows : List Row) (k : ℕ),
      (updateK k p f rows).countP q = rows.countP q := by
  intro rows
  induction rows with
  | nil => intro k; rw [updateK_nil]
  | cons r rs ih =>
      intro k
      cases k with
      | zero => rw [updateK_zero]
      | succ k =>
          by_cases hp : p r = true
          · rw [updateK_cons_pos hp, List.countP_cons, List.countP_cons,
              hq r hp, ih]
          · rw [updateK_cons_neg (by simpa using hp), List.countP_cons,
              List.countP_cons, ih]

theorem updateK_countP_flip (q p : Row → Bool) (f : Row → Row)
    (hf : ∀ r, p r = true → q (f r) = true ∧ q r = false) :
    ∀ (rows : List Row) (k : ℕ),
      (updateK k p f rows).countP q =
        rows.countP q + min k (rows.countP p) := by
  intro rows
  induction rows with
  | nil => intro k; rw [updateK_nil]; simp
  | cons r rs ih =>
      intro k
      cases k with
      | zero => rw [updateK_zero]; simp
      | succ k =>
          by_cases hp : p r = true
          · rw [updateK_cons_pos hp, List.countP_cons, List.countP_cons,
              List.countP_cons, ih]
            simp [(hf r hp).1, (hf r hp).2, hp]
            omega
          · rw [updateK_cons_neg (by simpa using hp), List.countP_cons,
              List.countP_cons, List.countP_cons, ih]
            simp [hp]
            omega

theorem updateK_countP_unflip (p : Row → Bool) (f : Row → Row)
    (hf : ∀ r, p r = true → p (f r) = false) :
    ∀ (rows : List Row) (k : ℕ),
      (updateK k p f rows).countP p =
        rows.countP p - min k (rows.countP p) := by
  intro rows
  induction rows with
  | nil => intro k; rw [updateK_nil]; simp
  | cons r rs ih =>
      intro k
      cases k with
      | zero => rw [updateK_zero]; simp
      | succ k =>
          by_cases hp : p r = true
          · rw [updateK_cons_pos hp, List.countP_cons, List.countP_cons,
              ih]
            simp [hf r hp, hp]
            omega
          · rw [updateK_cons_neg (by simpa using hp), List.countP_cons,
              List.countP_cons, ih]
            simp [hp]

theorem map_ite_of_all_false (p : Row → Bool) (f : Row → Row) :
    ∀ rows : List Row, (∀ r ∈ rows, p r = false) →
      rows.map (fun r => if p r then f r else r) = rows
  | [], _ => rfl
  | r :: rs, h => by
      have hp := h r (by simp)
      simp only [List.map_cons, hp, Bool.false_eq_true, if_false]
      rw [map_ite_of_all_false p f rs (fun a ha => h a (by simp [ha]))]

theorem map_ite_of_countP_zero (p : Row → Bool) (f : Row → Row)
    (rows : List Row) (h : rows.countP p = 0) :
    rows.map (fun r => if p r then f r else r) = rows := by
  refine map_ite_of_all_false p f rows (fun r hr => ?_)
  have hnot := List.countP_eq_zero.mp h r hr
  simpa using hnot

theorem updateK_all (p : Row → Bool) (f : Row → Row) :
    ∀ (rows : List Row) (k : ℕ), rows.countP p ≤ k →
      updateK k p f rows = rows.map (fun r => if p r then f r else r) := by
  intro rows
  induction rows with
  | nil => intro k _; rw [updateK_nil]; rfl
  | cons r rs ih =>
      intro k h
      cases k with
      | zero =>
          rw [updateK_zero, map_ite_of_countP_zero p f _ (by omega)]
      | succ k =>
          by_cases hp : p r = true
          · have hcount : (r :: rs).countP p = rs.countP p + 1 := by
              simp [List.countP_cons, hp]
            rw [updateK_cons_pos hp, ih k (by omega)]
            simp [hp]
          · have hcount : (r :: rs).countP p = rs.countP p := by
              simp [List.countP_cons, hp]
            rw [updateK_cons_neg (by simpa using hp), ih (k + 1) (by omega)]
            simp [hp]

theorem updateK_mem (p : Row → Bool) (f : Row → Row) :
    ∀ (rows : List Row) (k : ℕ) (r' : Row), r' ∈ updateK k p f rows →
      r' ∈ rows ∨ ∃ r, r ∈ rows ∧ p r = true ∧ r' = f r := by
  intro rows
  induction rows with
  | nil => intro k r' h; rw [updateK_nil] at h; simp at h
  | cons r rs ih =>
      intro k r' h
      cases k with
      | zero => rw [updateK_zero] at h; exact Or.inl h
      | succ k =>
          by_cases hp : p r = true
          · rw [updateK_cons_pos hp] at h
            rcases List.mem_cons.mp h with h | h
            · exact Or.inr ⟨r, by simp, hp, h⟩
            · rcases ih k r' h with h2 | ⟨r0, h3, h4, h5⟩
              · exact Or.inl (by simp [h2])
              · exact Or.inr ⟨r0, by simp [h3], h4, h5⟩
          · rw [updateK_cons_neg (by simpa using hp)] at h
            rcases List.mem_cons.mp h with h | h
            · exact Or.inl (by simp [h])
            · rcases ih (k + 1) r' h with h2 | ⟨r0, h3, h4, h5⟩
              · exact Or.inl (by simp [h2])
              · exact Or.inr ⟨r0, by simp [h3], h4, h5⟩

theorem updateK_getElem? (p : Row → Bool) (f : Row → Row) :
    ∀ (rows : List Row) (k i : ℕ),
      (updateK k p f rows)[i]? = (rows[i]?).map
        (fun r => if p r ∧ (rows.take i).countP p < k then f r else r) := by
  intro rows
  induction rows with
  | nil => intro k i; rw [updateK_nil]; simp
  | cons r rs ih =>
      intro k i
      cases k with
      | zero =>
          rw [updateK_zero]
          cases h : (r :: rs)[i]? <;> simp
      | succ k =>
          by_cases hp : p r = true
          · rw [updateK_cons_pos hp]
            cases i with
            | zero => simp [hp]
            | succ i =>
                rw [List.getElem?_cons_succ, List.getElem?_cons_succ,
                  ih k i, List.take_succ_cons]
                cases h : rs[i]? with
                | none => simp
                | some r0 =>
                    by_cases hpr : p r0 = true <;>
                      by_cases hc : (rs.take i).countP p < k <;>
                        simp [hpr, hc, List.countP_cons, hp]
          · rw [updateK_cons_neg (by simpa using hp)]
            cases i with
            | zero => simp [hp]
            | succ i =>
                rw [List.getElem?_cons_succ, List.getElem?_cons_succ,
                  ih (k + 1) i, List.take_succ_cons]
                cases h : rs[i]? with
                | none => simp
                | some r0 =>
                    by_cases hpr : p r0 = true <;>
                      by_cases hc : (rs.take i).countP p < k + 1 <;>
                        simp [hpr, hc, List.countP_cons, hp]

theorem updateAfterK_getElem? (p : Row → Bool) (f : Row → Row) :
    ∀ (rows : List Row) (k i : ℕ),
      (updateAfterK k p f rows)[i]? = (rows[i]?).map
        (fun r => if p r ∧ k ≤ (rows.take i).countP p then f r else r) := by
  intro rows
  induction rows with
  | nil => intro k i; rw [updateAfterK_nil]; simp
  | cons r rs ih =>
      intro k i
      cases k with
      | zero =>
          by_cases hp : p r = true
          · rw [updateAfterK_cons_zero_pos hp]
            cases i with
            | zero => simp [hp]
            | succ i =>
                rw [List.getElem?_cons_succ, List.getElem?_cons_succ,
                  ih 0 i, List.take_succ_cons]
                cases h : rs[i]? with
                | none => simp
                | some r0 => by_cases hpr : p r0 = true <;> simp [hpr]
          · rw [updateAfterK_cons_zero_neg (by simpa using hp)]
            cases i with
            | zero => simp [hp]
            | succ i =>
                rw [List.getElem?_cons_succ, List.getElem?_cons_succ,
                  ih 0 i, List.take_succ_cons]
                cases h : rs[i]? with
                | none => simp
                | some r0 => by_cases hpr : p r0 = true <;> simp [hpr]
      | succ k =>
          by_cases hp : p r = true
          · rw [updateAfterK_cons_succ_pos hp]
            cases i with
            | zero => simp [hp]
            | succ i =>
                rw [List.getElem?_cons_succ, List.getElem?_cons_succ,
                  ih k i, List.take_succ_cons]
                cases h : rs[i]? with
                | none => simp
                | some r0 =>
                    by_cases hpr : p r0 = true <;>
                      by_cases hc : k ≤ (rs.take i).countP p <;>
                        simp [hpr, hc, List.countP_cons, hp]
          · rw [updateAfterK_cons_succ_neg (by simpa using hp)]
            cases i with
            | zero => simp [hp]
            | succ i =>
                rw [List.getElem?_cons_succ, List.getElem?_cons_succ,
                  ih (k + 1) i, List.take_succ_cons]
                cases h : rs[i]? with
                | none => simp
                | some r0 =>
                    by_cases hpr : p r0 = true <;>
                      by_cases hc : k + 1 ≤ (rs.take i).countP p <;>
                        simp [hpr, hc, List.countP_cons, hp]

/-! ### Rounding lemmas -/

theorem pyRound_intCast (n : ℤ) : pyRound (n : ℚ) = n := by
  unfold pyRound
  simp [Int.floor_intCast]

theorem pyRound_nonneg {q : ℚ} (h : 0 ≤ q) : 0 ≤ pyRound q := by
  have h0 : 0 ≤ ⌊q⌋ := Int.floor_nonneg.mpr h
  unfold pyRound
  dsimp only
  split_ifs <;> omega

theorem pyRound_le_intCast {q : ℚ} {n : ℤ} (h : q ≤ (n : ℚ)) :
    pyRound q ≤ n := by
  have hf : ⌊q⌋ ≤ n := by
    have := Int.floor_le_floor h
    simpa using this
  unfold pyRound
  dsimp only
  split_ifs with h1 h2
  · exact hf
  · by_cases he : ⌊q⌋ = n
    · exfalso
      have hq : q - ⌊q⌋ ≤ 0 := by
        rw [he]
        linarith
      linarith
    · omega
  all_goals
    by_cases he : ⌊q⌋ = n
    · exfalso
      have hle : (⌊q⌋ : ℚ) + 1/2 ≤ q := by linarith
      rw [he] at hle
      linarith
    · omega

theorem pyTrunc_intCast (z : ℤ) : pyTrunc (z : ℚ) = z := by
  unfold pyTrunc
  simp [Rat.num_intCast, Rat.den_intCast]

/-! ### distAux lemmas -/

theorem distAux_length : ∀ (ws : List ℚ) (tw a : ℚ),
    (distAux ws tw a).length = ws.length
  | [], _, _ => rfl
  | _ :: ws, tw, a => by
      simp [distAux, distAux_length ws]

theorem distAux_sum : ∀ (ws : List ℚ), ws ≠ [] → (∀ w ∈ ws, 0 < w) →
    ∀ n : ℤ, (distAux ws ws.sum ((n : ℤ) : ℚ)).sum = n
  | [], h, _, _ => absurd rfl h
  | [w], _, hpos, n => by
      have hw : w ≠ 0 := ne_of_gt (hpos w (by simp))
      simp [distAux, div_self hw, pyRound_intCast]
  | w :: w2 :: ws, _, hpos, n => by
      have htw : (w :: w2 :: ws).sum - w = (w2 :: ws).sum := by
        simp [List.sum_cons]
      have hb : ((n : ℚ)) - ((pyRound (w / (w :: w2 :: ws).sum * n) : ℤ) : ℚ)
          = (((n - pyRound (w / (w :: w2 :: ws).sum * n) : ℤ)) : ℚ) := by
        push_cast
        ring
      show (pyRound (w / (w :: w2 :: ws).sum * n) : ℤ)
          + (distAux (w2 :: ws) ((w :: w2 :: ws).sum - w)
              ((n : ℚ) - ((pyRound (w / (w :: w2 :: ws).sum * n) : ℤ) : ℚ))).sum
          = n
      rw [htw, hb,
        distAux_sum (w2 :: ws) (by simp)
          (fun x hx => hpos x (by simp [List.mem_cons] at hx ⊢; tauto))]
      ring

theorem distAux_nonneg : ∀ (ws : List ℚ), (∀ w ∈ ws, 0 < w) →
    ∀ n : ℤ, 0 ≤ n → ∀ b ∈ distAux ws ws.sum ((n : ℤ) : ℚ), 0 ≤ b
  | [], _, _, _, b, hb => by simp [distAux] at hb
  | w :: ws, hpos, n, hn, b, hb => by
      have hw : 0 < w := hpos w (by simp)
      have hws : 0 ≤ ws.sum :=
        List.sum_nonneg (fun x hx => le_of_lt (hpos x (by simp [hx])))
      have hsum : 0 < (w :: ws).sum := by
        simp only [List.sum_cons]
        linarith
      have hge : 0 ≤ pyRound (w / (w :: ws).sum * n) := by
        apply pyRound_nonneg
        have hnq : (0 : ℚ) ≤ (n : ℚ) := by exact_mod_cast hn
        positivity
      have hle : pyRound (w / (w :: ws).sum * n) ≤ n := by
        apply pyRound_le_intCast
        have hr1 : w / (w :: ws).sum ≤ 1 := by
          rw [div_le_one hsum]
          simp only [List.sum_cons]
          linarith
        have hnq : (0 : ℚ) ≤ (n : ℚ) := by exact_mod_cast hn
        calc w / (w :: ws).sum * n ≤ 1 * n :=
              mul_le_mul_of_nonneg_right hr1 hnq
          _ = (n : ℚ) := one_mul _
      simp only [distAux, List.mem_cons] at hb
      rcases hb with h | h
      · rw [h]; exact hge
      · have htw : (w :: ws).sum - w = ws.sum := by
          simp [List.sum_cons]
        have hcast : ((n : ℤ) : ℚ) - ((pyRound (w / (w :: ws).sum * n) : ℤ) : ℚ)
            = (((n - pyRound (w / (w :: ws).sum * n) : ℤ)) : ℚ) := by
          push_cast
          ring
        rw [htw, hcast] at h
        exact distAux_nonneg ws (fun x hx => hpos x (by simp [hx]))
          (n - pyRound (w / (w :: ws).sum * n)) (by omega) b h

theorem zipWith_sub_sum : ∀ (a b : List ℤ), a.length = b.length →
    (List.zipWith (fun x y => x - y) a b).sum = a.sum - b.sum
  | [], [], _ => by simp
  | [], _ :: _, h => by simp at h
  | _ :: _, [], h => by simp at h
  | x :: a, y :: b, h => by
      simp only [List.zipWith_cons_cons, List.sum_cons,
        zipWith_sub_sum a b (by simpa using h)]
      ring

theorem exists_pos_of_sum_pos : ∀ l : List ℤ, 0 < l.sum → ∃ a ∈ l, 0 < a
  | [], h => by simp at h
  | x :: l, h => by
      by_cases hx : 0 < x
      · exact ⟨x, by simp, hx⟩
      · have : 0 < l.sum := by
          simp only [List.sum_cons] at h
          omega
        obtain ⟨a, ha, hpa⟩ := exists_pos_of_sum_pos l this
        exact ⟨a, by simp [ha], hpa⟩

theorem placeAt_sum : ∀ (mask : List Bool) (vs : List ℤ),
    mask.countP (fun b => b) = vs.length →
    (placeAt mask vs).sum = vs.sum
  | [], vs, h => by
      simp only [List.countP_nil] at h
      rw [placeAt]
      simp [List.length_eq_zero.mp h.symm]
  | true :: ms, v :: vs, h => by
      have hm : ms.countP (fun b => b) = vs.length := by
        simp [List.countP_cons] at h
        omega
      simp [placeAt, placeAt_sum ms vs hm]
  | true :: ms, [], h => by
      simp [List.countP_cons] at h
  | false :: ms, vs, h => by
      have hm : ms.countP (fun b => b) = vs.length := by
        simpa [List.countP_cons] using h
      simp [placeAt, placeAt_sum ms vs hm]

theorem placeAt_mem : ∀ (mask : List Bool) (vs : List ℤ) (b : ℤ),
    b ∈ placeAt mask vs → b = 0 ∨ b ∈ vs
  | [], _, b, h => by simp [placeAt] at h
  | true :: ms, v :: vs, b, h => by
      rcases List.mem_cons.mp (by simpa [placeAt] using h) with h1 | h1
      · exact Or.inr (by simp [h1])
      · rcases placeAt_mem ms vs b h1 with h2 | h2
        · exact Or.inl h2
        · exact Or.inr (by simp [h2])
  | true :: ms, [], b, h => by
      rcases List.mem_cons.mp (by simpa [placeAt] using h) with h1 | h1
      · exact Or.inl h1
      · rcases placeAt_mem ms [] b h1 with h2 | h2
        · exact Or.inl h2
        · simp at h2
  | false :: ms, vs, b, h => by
      rcases List.mem_cons.mp (by simpa [placeAt] using h) with h1 | h1
      · exact Or.inl h1
      · exact placeAt_mem ms vs b h1

theorem zip_filterMap_pos_length :
    ∀ (ws : List ℚ) (as : List ℤ), ws.length = as.length →
      ((List.zip ws as).filterMap
        (fun wa => if 0 < wa.2 then some ((pyTrunc wa.1 : ℚ)) else none)).length
        = as.countP (fun a => decide (0 < a))
  | [], [], _ => by simp
  | [], _ :: _, h => by simp at h
  | _ :: _, [], h => by simp at h
  | w :: ws, a :: as, h => by
      by_cases ha : 0 < a <;>
        simp [List.zip_cons_cons, List.filterMap_cons, ha,
          List.countP_cons, zip_filterMap_pos_length ws as (by simpa using h)]

theorem zip_filterMap_pos_mem :
    ∀ (ws : List ℚ) (as : List ℤ) (x : ℚ),
      x ∈ (List.zip ws as).filterMap
        (fun wa => if 0 < wa.2 then some ((pyTrunc wa.1 : ℚ)) else none) →
      ∃ w ∈ ws, x = ((pyTrunc w : ℤ) : ℚ) := by
  intro ws as x hx
  rw [List.mem_filterMap] at hx
  obtain ⟨wa, hmem, hval⟩ := hx
  by_cases h2 : 0 < wa.2
  · refine ⟨wa.1, (List.of_mem_zip hmem).1, ?_⟩
    simp [h2] at hval
    exact hval.symm
  · simp [h2] at hval

/-- C10: for every call of distribute_vacancies_by_weights with positive
integer weights matching the (non-empty) group-count list, when the
vacancies available minus the sum of the counts are positive, every
entry of the returned array is non-negative and the entries sum to
exactly the vacancies, including when the redistribution branch over
the still-positive slots is taken. -/
theorem claim_C10 (available : ℤ)
    (egCounts : List ℤ) (weights : List ℚ)
    (hlen : weights.length = egCounts.length) (hne : egCounts ≠ [])
    (hw : ∀ w ∈ weights, ∃ z : ℤ, 0 < z ∧ w = (z : ℚ))
    (hvac : 0 < available - egCounts.sum) :
    (∀ b ∈ distributeVacanciesByWeights available egCounts weights, 0 ≤ b) ∧
      (distributeVacanciesByWeights available egCounts weights).sum =
        available - egCounts.sum := by
  have hwpos : ∀ w ∈ weights, 0 < w := by
    intro w hmem
    obtain ⟨z, hz, hzw⟩ := hw w hmem
    rw [hzw]
    exact_mod_cast hz
  have hwne : weights ≠ [] := by
    intro hc
    rw [hc] at hlen
    simp at hlen
    exact hne (List.length_eq_zero.mp hlen.symm)
  have hbinsum : (distAux weights weights.sum ((available : ℤ) : ℚ)).sum
      = available := distAux_sum weights hwne hwpos available
  have hbinlen : (distAux weights weights.sum ((available : ℤ) : ℚ)).length
      = egCounts.length := by rw [distAux_length]; exact hlen
  have haddsum : (List.zipWith (fun x y => x - y)
      (distAux weights weights.sum ((available : ℤ) : ℚ)) egCounts).sum
      = available - egCounts.sum := by
    rw [zipWith_sub_sum _ _ hbinlen, hbinsum]
  unfold distributeVacanciesByWeights
  rw [if_neg (by omega)]
  by_cases hany : (List.zipWith (fun x y => x - y)
      (distAux weights weights.sum ((available : ℤ) : ℚ)) egCounts).any
      (fun a => decide (a < 0)) = true
  · rw [if_pos hany]
    set additives := List.zipWith (fun x y => x - y)
      (distAux weights weights.sum ((available : ℤ) : ℚ)) egCounts with hadd
    set posWeights := (List.zip weights additives).filterMap
      (fun wa => if 0 < wa.2 then some ((pyTrunc wa.1 : ℚ)) else none)
      with hposw
    have haddlen : weights.length = additives.length := by
      rw [hadd, List.length_zipWith, distAux_length]
      omega
    have hposlen : posWeights.length
        = additives.countP (fun a => decide (0 < a)) :=
      zip_filterMap_pos_length weights additives haddlen
    have hpospos : ∀ w ∈ posWeights, 0 < w := by
      intro x hx
      obtain ⟨w, hwmem, hxw⟩ := zip_filterMap_pos_mem weights additives x hx
      obtain ⟨z, hz, hzw⟩ := hw w hwmem
      rw [hxw, hzw, pyTrunc_intCast]
      exact_mod_cast hz
    have hcntpos : 0 < additives.countP (fun a => decide (0 < a)) := by
      obtain ⟨a, ha, hpa⟩ := exists_pos_of_sum_pos additives (by omega)
      calc 0 < 1 := one_pos
        _ ≤ additives.countP (fun a => decide (0 < a)) :=
          List.one_le_countP_iff.mpr ⟨a, ha, by simpa using hpa⟩
    have hposne : posWeights ≠ [] := by
      intro hc
      rw [hc] at hposlen
      simp at hposlen
      omega
    have hmaskcnt : (additives.map (fun a => decide (0 < a))).countP
        (fun b => b) = (distAux posWeights posWeights.sum
          ((available - egCounts.sum : ℤ) : ℚ)).length := by
      rw [distAux_length, hposlen, List.countP_map]
      rfl
    constructor
    · intro b hb
      rcases placeAt_mem _ _ b hb with h0 | hmem
      · omega
      · exact distAux_nonneg posWeights hpospos (available - egCounts.sum)
          (by omega) b hmem
    · rw [placeAt_sum _ _ hmaskcnt,
        distAux_sum posWeights hposne hpospos (available - egCounts.sum)]
  · rw [if_neg hany]
    constructor
    · intro b hb
      have hnot := List.any_eq_false.mp (Bool.not_eq_true _ |>.mp hany) b hb
      simpa using hnot
    · exact haddsum

/-- Witness for C10 at a concrete input that takes the redistribution
branch: one group already exceeds its weighted target. -/
theorem claim_C10_witness :
    (∀ b ∈ distributeVacanciesByWeights 10 [9, 0] [1, 1], 0 ≤ b) ∧
      (distributeVacanciesByWeights 10 [9, 0] [1, 1]).sum =
        10 - ([9, 0] : List ℤ).sum :=
  claim_C10 10 [9, 0] [1, 1] rfl (by decide)
    (by
      intro w hw
      rcases List.mem_cons.mp hw with h | h
      · exact ⟨1, one_pos, by rw [h]; norm_num⟩
      · rcases List.mem_cons.mp h with h1 | h1
        · exact ⟨1, one_pos, by rw [h1]; norm_num⟩
        · simp at h1)
    (by decide)

/-! ### job_gain_loss_table lemmas (C4) -/

theorem mapIdx_getElem? {α β : Type} (f : ℕ → α → β) (l : List α)
    (i : ℕ) : (l.mapIdx f)[i]? = (l[i]?).map (f i) := by
  have hlen : (l.mapIdx f).length = l.length := List.length_mapIdx
  by_cases h : i < l.length
  · rw [List.getElem?_eq_getElem h,
      List.getElem?_eq_getElem (show i < (l.mapIdx f).length by omega)]
    simp only [Option.map_some']
    congr 1
    have := List.get_mapIdx l f i h
    simp only [List.get_eq_getElem] at this
    exact this
  · rw [List.getElem?_eq_none (show l.length ≤ i by omega),
      List.getElem?_eq_none (show (l.mapIdx f).length ≤ i by omega)]
    rfl

theorem applyChange_length (t : List (List ℤ)) (c : JobChange) :
    (applyChange t c).length = t.length := by
  simp [applyChange]

theorem applyChange_row_length (t : List (List ℤ)) (c : JobChange)
    (m : ℕ) :
    (((applyChange t c)[m]?).getD []).length = ((t[m]?).getD []).length := by
  unfold applyChange
  rw [mapIdx_getElem?]
  cases h : t[m]? with
  | none => simp
  | some row => simp

theorem tableEntry_applyChange (t : List (List ℤ)) (c : JobChange)
    (m k : ℕ) (hm : m < t.length) (hk : k < ((t[m]?).getD []).length) :
    tableEntry (applyChange t c) m k =
      tableEntry t m k +
        (if k = c.level - 1 then changeAdditive c m else 0) := by
  have hrow : t[m]? = some t[m] := List.getElem?_eq_getElem hm
  rw [hrow] at hk
  simp only [Option.getD_some] at hk
  have hx : (t[m])[k]? = some (t[m])[k] := List.getElem?_eq_getElem hk
  unfold tableEntry applyChange
  rw [mapIdx_getElem?, hrow]
  simp only [Option.map_some', Option.getD_some]
  rw [mapIdx_getElem?, hx]
  simp only [Option.map_some', Option.getD_some]
  by_cases hkc : k = c.level - 1 <;> simp [hkc]

theorem foldl_applyChange_length : ∀ (cs : List JobChange)
    (t : List (List ℤ)), (cs.foldl applyChange t).length = t.length
  | [], _ => rfl
  | c :: cs, t => by
      rw [List.foldl_cons, foldl_applyChange_length cs, applyChange_length]

theorem foldl_tableEntry : ∀ (cs : List JobChange) (t : List (List ℤ))
    (m k : ℕ), m < t.length → k < ((t[m]?).getD []).length →
    tableEntry (cs.foldl applyChange t) m k =
      tableEntry t m k +
        (cs.map (fun c => if k = c.level - 1 then changeAdditive c m
          else 0)).sum
  | [], t, m, k, _, _ => by simp
  | c :: cs, t, m, k, hm, hk => by
      rw [List.foldl_cons,
        foldl_tableEntry cs (applyChange t c) m k
          (by rw [applyChange_length]; exact hm)
          (by rw [applyChange_row_length]; exact hk),
        tableEntry_applyChange t c m k hm hk]
      simp only [List.map_cons, List.sum_cons]
      ring

/-- C4 (amended): the expanded-table builder never fails.  For every
input it returns the full table of months rows, whose entry (m, k) is
the initial count plus the summed linear-ramp additives of all
schedules, even when that entry is negative; the source's only signal
is a printed diagnostic that tests each schedule's delta against the
month-0 count alone, so negative expanded entries can be produced with
no diagnostic at all. -/
theorem claim_C4_amended (months : ℕ) (init : List ℤ)
    (changes : List JobChange) :
    (jobGainLossTable months init changes).1.length = months ∧
    (∀ m k, m < months → k < init.length →
      tableEntry (jobGainLossTable months init changes).1 m k =
        init.getD k 0 +
          (changes.map (fun c => if k = c.level - 1 then changeAdditive c m
            else 0)).sum) ∧
    (∀ c, c ∈ jobScheduleWarnings init changes ↔
      c ∈ changes ∧ init.getD (c.level - 1) 0 + c.delta < 0) := by
  refine ⟨?_, ?_, ?_⟩
  · show (changes.foldl applyChange (List.replicate months init)).length = _
    rw [foldl_applyChange_length, List.length_replicate]
  · intro m k hm hk
    show tableEntry (changes.foldl applyChange
      (List.replicate months init)) m k = _
    rw [foldl_tableEntry changes (List.replicate months init) m k
      (by rw [List.length_replicate]; exact hm)
      (by rw [List.getElem?_replicate]; simp [hm]; exact hk)]
    congr 1
    unfold tableEntry
    rw [List.getElem?_replicate]
    simp only [hm, if_true, Option.getD_some]
    rw [List.getD_eq_getElem?_getD]
  · intro c
    unfold jobScheduleWarnings
    rw [List.mem_filter]
    simp

/-- Witness for C4's amended statement at a concrete input. -/
theorem claim_C4_amended_witness :
    tableEntry (jobGainLossTable 5 [5]
      [⟨1, 0, 2, -3, []⟩]).1 1 0 =
      ([5] : List ℤ).getD 0 0 +
        (([⟨1, 0, 2, -3, []⟩] : List JobChange).map
          (fun c => if 0 = c.level - 1 then changeAdditive c 1 else 0)).sum :=
  (claim_C4_amended 5 [5] [⟨1, 0, 2, -3, []⟩]).2.1 1 0 (by decide) (by decide)

/-- C4 counterexample: two reduction schedules on the same level, each
individually consistent with the month-0 count, drive the expanded
count negative; the builder still returns the complete table (no
exception exists in the source) and the printed-diagnostic predicate is
silent, refuting the claim that a negative expanded entry is rejected
before the assignment loop. -/
theorem claim_C4_cex :
    jobScheduleWarnings [5]
      [⟨1, 0, 2, -3, []⟩, ⟨1, 2, 4, -3, []⟩] = [] ∧
    tableEntry (jobGainLossTable 5 [5]
      [⟨1, 0, 2, -3, []⟩, ⟨1, 2, 4, -3, []⟩]).1 3 0 = -1 ∧
    (jobGainLossTable 5 [5]
      [⟨1, 0, 2, -3, []⟩, ⟨1, 2, 4, -3, []⟩]).1.length = 5 := by
  decide

/-! ### mark_for_furlough (C6) and mark_for_recall (C7, C8) lemmas -/

theorem updateAfterK_countP_flip (q p : Row → Bool) (f : Row → Row)
    (hf : ∀ r, p r = true → q (f r) = true ∧ q r = false) :
    ∀ (rows : List Row) (k : ℕ),
      (updateAfterK k p f rows).countP q =
        rows.countP q + (rows.countP p - k) := by
  intro rows
  induction rows with
  | nil => intro k; rw [updateAfterK_nil]; simp
  | cons r rs ih =>
      intro k
      cases k with
      | zero =>
          by_cases hp : p r = true
          · rw [updateAfterK_cons_zero_pos hp, List.countP_cons,
              List.countP_cons, List.countP_cons, ih]
            simp [(hf r hp).1, (hf r hp).2, hp]
            omega
          · rw [updateAfterK_cons_zero_neg (by simpa using hp),
              List.countP_cons, List.countP_cons, List.countP_cons, ih]
            simp [hp]
            omega
      | succ k =>
          by_cases hp : p r = true
          · rw [updateAfterK_cons_succ_pos hp, List.countP_cons,
              List.countP_cons, List.countP_cons, ih]
            simp [(hf r hp).2, hp]
          · rw [updateAfterK_cons_succ_neg (by simpa using hp),
              List.countP_cons, List.countP_cons, List.countP_cons, ih]
            simp [hp]
            omega

theorem countP_take_mono (p : Row → Bool) (l : List Row) {i j : ℕ}
    (h : i ≤ j) : (l.take i).countP p ≤ (l.take j).countP p := by
  have h1 : l.take i = (l.take j).take i := by
    rw [List.take_take, min_eq_left h]
  rw [h1]
  exact List.Sublist.countP_le p (List.take_sublist i (l.take j))

/-- C6: in every reduction month with total job count T below the non-
furloughed count, mark_for_furlough furloughs precisely the most junior
non-furloughed rows - those with at least T non-furloughed rows before
them - in number active - T, setting their held job to the furlough
level K + 1; with T at or above the non-furloughed count, nothing
changes. -/
theorem claim_C6 (K : ℕ) (T : ℤ) (rows : List Row) (hT : 0 ≤ T) :
    (((rows.countP (fun r => r.fur == 0) : ℤ) ≤ T →
        markForFurlough K T rows = rows)) ∧
    (T < (rows.countP (fun r => r.fur == 0) : ℤ) →
      ((markForFurlough K T rows).countP (fun r => r.fur == 1) =
          rows.countP (fun r => r.fur == 1) +
            (rows.countP (fun r => r.fur == 0) - T.toNat)) ∧
      (∀ i : ℕ, (markForFurlough K T rows)[i]? = (rows[i]?).map
        (fun r =>
          if r.fur == 0 ∧ T.toNat ≤ (rows.take i).countP (fun r => r.fur == 0)
          then { r with fur := 1, orig := K + 1 } else r))) := by
  constructor
  · intro hge
    unfold markForFurlough
    rw [if_pos (by omega)]
  · intro hlt
    have hneg : ¬ (0 ≤ T - (rows.countP (fun r => r.fur == 0) : ℤ)) := by
      omega
    have hrw : markForFurlough K T rows =
        updateAfterK T.toNat (fun r => r.fur == 0)
          (fun r => { r with fur := 1, orig := K + 1 }) rows := by
      unfold markForFurlough
      rw [if_neg hneg, updateSuffix_eq_updateAfterK]
      congr 1
      unfold pySuffixCount
      omega
    constructor
    · rw [hrw]
      exact updateAfterK_countP_flip _ _ _ (by intro r hp; simp_all) rows
        T.toNat
    · intro i
      rw [hrw]
      exact updateAfterK_getElem? _ _ rows T.toNat i

/-- Witness for C6: two actives, one job; the junior row is furloughed. -/
theorem claim_C6_witness :
    (markForFurlough 2 1
      [⟨0, 1, 0, 1, 0, 0⟩, ⟨1, 1, 0, 1, 0, 0⟩]).countP
        (fun r => r.fur == 1) =
      ([⟨0, 1, 0, 1, 0, 0⟩, ⟨1, 1, 0, 1, 0, 0⟩] :
        List Row).countP (fun r => r.fur == 1) +
        (([⟨0, 1, 0, 1, 0, 0⟩, ⟨1, 1, 0, 1, 0, 0⟩] :
          List Row).countP (fun r => r.fur == 0) - (1 : ℤ).toNat) :=
  ((claim_C6 2 1 [⟨0, 1, 0, 1, 0, 0⟩, ⟨1, 1, 0, 1, 0, 0⟩]
    (by decide)).2 (by decide)).1

theorem pyTakeCount_le_toNat {n : ℤ} (len : ℕ) (h : 0 ≤ n) :
    pyTakeCount n len ≤ n.toNat := by
  unfold pyTakeCount
  rw [if_pos h]
  omega

theorem recallLoop_skip (K month egIndex strideN : ℕ)
    (oracle : List ℕ → List ℕ) (method : RecallMethod) (s : RecallSched)
    (rest : List RecallSched) (rows : List Row) (ex : ℤ)
    (h : month < s.startM ∨ s.endM ≤ month) :
    recallLoop K month false egIndex method strideN oracle (s :: rest)
        rows ex =
      recallLoop K month false egIndex method strideN oracle rest rows
        ex := by
  unfold recallLoop
  rw [if_pos h]
  cases rest <;> rfl

theorem recallLoop_act (K month egIndex strideN : ℕ)
    (oracle : List ℕ → List ℕ) (method : RecallMethod) (s : RecallSched)
    (rest : List RecallSched) (rows : List Row) (ex : ℤ)
    (h : ¬(month < s.startM ∨ s.endM ≤ month)) :
    recallLoop K month false egIndex method strideN oracle (s :: rest)
        rows ex =
      if ex - min s.amount ex = 0 then
        updateSel (fun r => r.fur == 1)
          (recallSelector method strideN oracle
            (rows.countP (fun r => r.fur == 1)) (min s.amount ex))
          (fun r => { r with fur := 0, orig := K + 1 }) rows 0
      else
        recallLoop K month false egIndex method strideN oracle rest
          (updateSel (fun r => r.fur == 1)
            (recallSelector method strideN oracle
              (rows.countP (fun r => r.fur == 1)) (min s.amount ex))
            (fun r => { r with fur := 0, orig := K + 1 }) rows 0)
          (ex - min s.amount ex) := by
  unfold recallLoop
  rw [if_neg h]
  simp only [Bool.false_eq_true, if_false, false_and]
  split_ifs with hz
  · rfl
  · cases rest <;> rfl

theorem recallStep_senOrder (K strideN : ℕ) (oracle : List ℕ → List ℕ)
    (rows : List Row) (recalls : ℤ) :
    updateSel (fun r => r.fur == 1)
      (recallSelector RecallMethod.senOrder strideN oracle
        (rows.countP (fun r => r.fur == 1)) recalls)
      (fun r => { r with fur := 0, orig := K + 1 }) rows 0 =
    updateK (pyTakeCount recalls (rows.countP (fun r => r.fur == 1)))
      (fun r => r.fur == 1)
      (fun r => { r with fur := 0, orig := K + 1 }) rows := by
  show updateSel _
    (fun j => j < pyTakeCount recalls (rows.countP (fun r => r.fur == 1)))
    _ rows 0 = _
  rw [updateSel_lt_eq_updateK, Nat.sub_zero]

theorem recallLoop_cap (K month egIndex strideN : ℕ)
    (oracle : List ℕ → List ℕ) :
    ∀ (scheds : List RecallSched) (rows : List Row) (ex : ℤ),
      (∀ s ∈ scheds, 0 ≤ s.amount) → 0 ≤ ex →
      ((recallLoop K month false egIndex RecallMethod.senOrder strideN
          oracle scheds rows ex).countP (fun r => r.fur == 0) : ℤ) ≤
        (rows.countP (fun r => r.fur == 0) : ℤ) + ex
  | [], rows, ex, _, hex => by
      unfold recallLoop
      omega
  | s :: rest, rows, ex, hamt, hex => by
      by_cases hmem : month < s.startM ∨ s.endM ≤ month
      · rw [recallLoop_skip _ _ _ _ _ _ _ _ _ _ hmem]
        exact recallLoop_cap K month egIndex strideN oracle rest rows ex
          (fun x hx => hamt x (by simp [hx])) hex
      · rw [recallLoop_act _ _ _ _ _ _ _ _ _ _ hmem,
          recallStep_senOrder]
        have hamtpos : 0 ≤ s.amount := hamt s (by simp)
        have hrec : 0 ≤ min s.amount ex := le_min hamtpos hex
        have hcnt : (updateK
            (pyTakeCount (min s.amount ex)
              (rows.countP (fun r => r.fur == 1)))
            (fun r => r.fur == 1)
            (fun r => { r with fur := 0, orig := K + 1 })
            rows).countP (fun r => r.fur == 0) =
            rows.countP (fun r => r.fur == 0) +
              min (pyTakeCount (min s.amount ex)
                (rows.countP (fun r => r.fur == 1)))
                (rows.countP (fun r => r.fur == 1)) := by
          apply updateK_countP_flip
          intro r hp
          constructor
          · simp
          · simp at hp
            simp [hp]
        have htake := pyTakeCount_le_toNat
          (rows.countP (fun r => r.fur == 1)) hrec
        by_cases hz : ex - min s.amount ex = 0
        · rw [if_pos hz, hcnt]
          omega
        · rw [if_neg hz]
          have := recallLoop_cap K month egIndex strideN oracle rest
            (updateK
              (pyTakeCount (min s.amount ex)
                (rows.countP (fun r => r.fur == 1)))
              (fun r => r.fur == 1)
              (fun r => { r with fur := 0, orig := K + 1 }) rows)
            (ex - min s.amount ex) (fun x hx => hamt x (by simp [hx]))
            (by omega)
          rw [hcnt] at this
          omega

theorem recallLoop_pointwise (K month egIndex strideN : ℕ)
    (oracle : List ℕ → List ℕ) :
    ∀ (scheds : List RecallSched) (rows : List Row) (ex : ℤ) (i : ℕ)
      (r r' : Row), rows[i]? = some r →
      (recallLoop K month false egIndex RecallMethod.senOrder strideN
        oracle scheds rows ex)[i]? = some r' →
      r' = r ∨ (r.fur = 1 ∧ r' = { r with fur := 0, orig := K + 1 })
  | [], rows, ex, i, r, r', hr, hres => by
      unfold recallLoop at hres
      rw [hr] at hres
      exact Or.inl (by injection hres with h; exact h.symm)
  | s :: rest, rows, ex, i, r, r', hr, hres => by
      by_cases hmem : month < s.startM ∨ s.endM ≤ month
      · rw [recallLoop_skip _ _ _ _ _ _ _ _ _ _ hmem] at hres
        exact recallLoop_pointwise K month egIndex strideN oracle rest
          rows ex i r r' hr hres
      · rw [recallLoop_act _ _ _ _ _ _ _ _ _ _ hmem,
          recallStep_senOrder] at hres
        have hchar := updateK_getElem? (fun r => r.fur == 1)
          (fun r => { r with fur := 0, orig := K + 1 }) rows
          (pyTakeCount (min s.amount ex)
            (rows.countP (fun r => r.fur == 1))) i
        rw [hr] at hchar
        by_cases hz : ex - min s.amount ex = 0
        · rw [if_pos hz] at hres
          rw [hres] at hchar
          simp only [Option.map_some'] at hchar
          injection hchar with hchar
          by_cases hcond : (r.fur == 1) = true ∧
              (rows.take i).countP (fun r => r.fur == 1) <
                pyTakeCount (min s.amount ex)
                  (rows.countP (fun r => r.fur == 1))
          · rw [if_pos hcond] at hchar
            exact Or.inr ⟨by simpa using hcond.1, hchar⟩
          · rw [if_neg hcond] at hchar
            exact Or.inl hchar
        · rw [if_neg hz] at hres
          simp only [Option.map_some'] at hchar
          have hnext := recallLoop_pointwise K month egIndex strideN
            oracle rest _ (ex - min s.amount ex) i _ r' hchar hres
          by_cases hcond : (r.fur == 1) = true ∧
              (rows.take i).countP (fun r => r.fur == 1) <
                pyTakeCount (min s.amount ex)
                  (rows.countP (fun r => r.fur == 1))
          · rw [if_pos hcond] at hnext
            rcases hnext with h1 | ⟨h1, h2⟩
            · exact Or.inr ⟨by simpa using hcond.1, h1⟩
            · simp at h1
          · rw [if_neg hcond] at hnext
            exact hnext

theorem recallLoop_seniority (K month egIndex strideN : ℕ)
    (oracle : List ℕ → List ℕ) :
    ∀ (scheds : List RecallSched) (rows : List Row) (ex : ℤ)
      (i j : ℕ) (r s r2 s2 : Row), i < j →
      rows[i]? = some r → rows[j]? = some s →
      (recallLoop K month false egIndex RecallMethod.senOrder strideN
        oracle scheds rows ex)[i]? = some r2 →
      (recallLoop K month false egIndex RecallMethod.senOrder strideN
        oracle scheds rows ex)[j]? = some s2 →
      r.fur = 1 → s.fur = 1 → s2.fur = 0 → r2.fur = 0
  | [], rows, ex, i, j, r, s, r2, s2, _, hr, hs, hr2, hs2, _, hsf, hs2f => by
      unfold recallLoop at hr2 hs2
      rw [hr] at hr2
      rw [hs] at hs2
      injection hs2 with hs2
      rw [← hs2] at hs2f
      omega
  | sch :: rest, rows, ex, i, j, r, s, r2, s2, hij, hr, hs, hr2, hs2,
      hrf, hsf, hs2f => by
      by_cases hmem : month < sch.startM ∨ sch.endM ≤ month
      · rw [recallLoop_skip _ _ _ _ _ _ _ _ _ _ hmem] at hr2 hs2
        exact recallLoop_seniority K month egIndex strideN oracle rest
          rows ex i j r s r2 s2 hij hr hs hr2 hs2 hrf hsf hs2f
      · rw [recallLoop_act _ _ _ _ _ _ _ _ _ _ hmem,
          recallStep_senOrder] at hr2 hs2
        have hchari := updateK_getElem? (fun r => r.fur == 1)
          (fun r => { r with fur := 0, orig := K + 1 }) rows
          (pyTakeCount (min sch.amount ex)
            (rows.countP (fun r => r.fur == 1))) i
        have hcharj := updateK_getElem? (fun r => r.fur == 1)
          (fun r => { r with fur := 0, orig := K + 1 }) rows
          (pyTakeCount (min sch.amount ex)
            (rows.countP (fun r => r.fur == 1))) j
        rw [hr] at hchari
        rw [hs] at hcharj
        simp only [Option.map_some'] at hchari hcharj
        by_cases hcond : (rows.take i).countP (fun r => r.fur == 1) <
            pyTakeCount (min sch.amount ex)
              (rows.countP (fun r => r.fur == 1))
        · have hcondi : ((r.fur == 1) = true ∧
              (rows.take i).countP (fun r => r.fur == 1) <
                pyTakeCount (min sch.amount ex)
                  (rows.countP (fun r => r.fur == 1))) := by
            constructor
            · simp [hrf]
            · exact hcond
          rw [if_pos hcondi] at hchari
          by_cases hz : ex - min sch.amount ex = 0
          · rw [if_pos hz] at hr2
            rw [hr2] at hchari
            injection hchari with hchari
            rw [hchari]
          · rw [if_neg hz] at hr2
            have := recallLoop_pointwise K month egIndex strideN oracle
              rest _ (ex - min sch.amount ex) i _ r2 hchari hr2
            rcases this with h1 | ⟨h1, _⟩
            · rw [h1]
            · simp at h1
        · have hcondj : ¬ ((s.fur == 1) = true ∧
              (rows.take j).countP (fun r => r.fur == 1) <
                pyTakeCount (min sch.amount ex)
                  (rows.countP (fun r => r.fur == 1))) := by
            rintro ⟨_, hlt⟩
            have hmono := countP_take_mono (fun r => r.fur == 1) rows
              (le_of_lt hij)
            omega
          have hcondi : ¬ ((r.fur == 1) = true ∧
              (rows.take i).countP (fun r => r.fur == 1) <
                pyTakeCount (min sch.amount ex)
                  (rows.countP (fun r => r.fur == 1))) := by
            rintro ⟨_, hlt⟩
            exact hcond hlt
          rw [if_neg hcondj] at hcharj
          rw [if_neg hcondi] at hchari
          by_cases hz : ex - min sch.amount ex = 0
          · rw [if_pos hz] at hr2 hs2
            rw [hs2] at hcharj
            injection hcharj with hcharj
            rw [hcharj] at hs2f
            omega
          · rw [if_neg hz] at hr2 hs2
            exact recallLoop_seniority K month egIndex strideN oracle
              rest _ (ex - min sch.amount ex) i j r s r2 s2 hij hchari
              hcharj hr2 hs2 hrf hsf hs2f

/-- C7: for the engine's recall step (integrated call, sen_order
method), recall happens only when the month's total job count exceeds
the non-furloughed count; cleared rows were furloughed and get their
held job set to the furlough level K+1; the recalled set never exceeds
the job surplus; and whenever a junior furloughee is recalled, every
more senior furloughee is recalled too. -/
theorem claim_C7 (K month strideN : ℕ) (oracle : List ℕ → List ℕ)
    (scheds : List RecallSched) (T : ℤ) (rows : List Row)
    (hamt : ∀ s ∈ scheds, 0 ≤ s.amount) (res : List Row)
    (hres : res = markForRecall K month scheds T false 0
      RecallMethod.senOrder strideN oracle rows) :
    (T ≤ (rows.countP (fun r => r.fur == 0) : ℤ) → res = rows) ∧
    ((res.countP (fun r => r.fur == 0) : ℤ) ≤
      max ((rows.countP (fun r => r.fur == 0) : ℤ)) T) ∧
    (∀ (i : ℕ) (r r' : Row), rows[i]? = some r → res[i]? = some r' →
      r' = r ∨ (r.fur = 1 ∧ r' = { r with fur := 0, orig := K + 1 })) ∧
    (∀ (i j : ℕ) (r s r2 s2 : Row), i < j →
      rows[i]? = some r → rows[j]? = some s →
      res[i]? = some r2 → res[j]? = some s2 →
      r.fur = 1 → s.fur = 1 → s2.fur = 0 → r2.fur = 0) := by
  by_cases hpos : 0 < T - (rows.countP (fun r => r.fur == 0) : ℤ)
  · have hloop : res = recallLoop K month false 0 RecallMethod.senOrder
        strideN oracle scheds rows
        (T - (rows.countP (fun r => r.fur == 0) : ℤ)) := by
      rw [hres]
      unfold markForRecall
      rw [if_pos hpos]
    refine ⟨fun hle => absurd hpos (by omega), ?_, ?_, ?_⟩
    · rw [hloop]
      have := recallLoop_cap K month 0 strideN oracle scheds rows
        (T - (rows.countP (fun r => r.fur == 0) : ℤ)) hamt (by omega)
      omega
    · intro i r r' hr hr2
      rw [hloop] at hr2
      exact recallLoop_pointwise K month 0 strideN oracle scheds rows _
        i r r' hr hr2
    · intro i j r s r2 s2 hij hr hs hr2 hs2 hrf hsf hs2f
      rw [hloop] at hr2 hs2
      exact recallLoop_seniority K month 0 strideN oracle scheds rows _
        i j r s r2 s2 hij hr hs hr2 hs2 hrf hsf hs2f
  · have hsame : res = rows := by
      rw [hres]
      unfold markForRecall
      rw [if_neg hpos]
    refine ⟨fun _ => hsame, by rw [hsame]; omega, ?_, ?_⟩
    · intro i r r' hr hr2
      rw [hsame, hr] at hr2
      exact Or.inl (by injection hr2 with h; exact h.symm)
    · intro i j r s r2 s2 hij hr hs hr2 hs2 hrf hsf hs2f
      rw [hsame] at hr2 hs2
      rw [hs] at hs2
      injection hs2 with hs2
      rw [← hs2] at hs2f
      omega

/-- Witness for C7: one schedule, surplus of two jobs, the most senior
of two furloughees is recalled. -/
theorem claim_C7_witness :
    ((1 : ℤ) ≤ (([⟨0, 1, 0, 3, 0, 1⟩, ⟨1, 1, 0, 1, 1, 0⟩,
        ⟨2, 1, 0, 3, 0, 1⟩] : List Row).countP (fun r => r.fur == 0) : ℤ) →
      markForRecall 2 3 [⟨1, [], 3, 4⟩] 1 false 0 RecallMethod.senOrder 2
        id [⟨0, 1, 0, 3, 0, 1⟩, ⟨1, 1, 0, 1, 1, 0⟩, ⟨2, 1, 0, 3, 0, 1⟩]
        = [⟨0, 1, 0, 3, 0, 1⟩, ⟨1, 1, 0, 1, 1, 0⟩, ⟨2, 1, 0, 3, 0, 1⟩]) ∧
    (((markForRecall 2 3 [⟨1, [], 3, 4⟩] 1 false 0 RecallMethod.senOrder
        2 id [⟨0, 1, 0, 3, 0, 1⟩, ⟨1, 1, 0, 1, 1, 0⟩,
          ⟨2, 1, 0, 3, 0, 1⟩]).countP (fun r => r.fur == 0) : ℤ) ≤
      max ((([⟨0, 1, 0, 3, 0, 1⟩, ⟨1, 1, 0, 1, 1, 0⟩,
        ⟨2, 1, 0, 3, 0, 1⟩] : List Row).countP
          (fun r => r.fur == 0) : ℤ)) 1) ∧
    (∀ (i : ℕ) (r r' : Row),
      ([⟨0, 1, 0, 3, 0, 1⟩, ⟨1, 1, 0, 1, 1, 0⟩,
        ⟨2, 1, 0, 3, 0, 1⟩] : List Row)[i]? = some r →
      (markForRecall 2 3 [⟨1, [], 3, 4⟩] 1 false 0 RecallMethod.senOrder
        2 id [⟨0, 1, 0, 3, 0, 1⟩, ⟨1, 1, 0, 1, 1, 0⟩,
          ⟨2, 1, 0, 3, 0, 1⟩])[i]? = some r' →
      r' = r ∨ (r.fur = 1 ∧ r' = { r with fur := 0, orig := 3 })) ∧
    (∀ (i j : ℕ) (r s r2 s2 : Row), i < j →
      ([⟨0, 1, 0, 3, 0, 1⟩, ⟨1, 1, 0, 1, 1, 0⟩,
        ⟨2, 1, 0, 3, 0, 1⟩] : List Row)[i]? = some r →
      ([⟨0, 1, 0, 3, 0, 1⟩, ⟨1, 1, 0, 1, 1, 0⟩,
        ⟨2, 1, 0, 3, 0, 1⟩] : List Row)[j]? = some s →
      (markForRecall 2 3 [⟨1, [], 3, 4⟩] 1 false 0 RecallMethod.senOrder
        2 id [⟨0, 1, 0, 3, 0, 1⟩, ⟨1, 1, 0, 1, 1, 0⟩,
          ⟨2, 1, 0, 3, 0, 1⟩])[i]? = some r2 →
      (markForRecall 2 3 [⟨1, [], 3, 4⟩] 1 false 0 RecallMethod.senOrder
        2 id [⟨0, 1, 0, 3, 0, 1⟩, ⟨1, 1, 0, 1, 1, 0⟩,
          ⟨2, 1, 0, 3, 0, 1⟩])[j]? = some s2 →
      r.fur = 1 → s.fur = 1 → s2.fur = 0 → r2.fur = 0) :=
  claim_C7 2 3 2 id [⟨1, [], 3, 4⟩] 1
    [⟨0, 1, 0, 3, 0, 1⟩, ⟨1, 1, 0, 1, 1, 0⟩, ⟨2, 1, 0, 3, 0, 1⟩]
    (by intro s hs; rcases List.mem_cons.mp hs with h | h
        · rw [h]; decide
        · simp at h) _ rfl

/-! ### Determinism and the random recall method (C8) -/

theorem recallSelector_indep (method : RecallMethod)
    (h : method ≠ RecallMethod.randomSel) (strideN : ℕ)
    (o1 o2 : List ℕ → List ℕ) (cnt : ℕ) (n : ℤ) :
    recallSelector method strideN o1 cnt n =
      recallSelector method strideN o2 cnt n := by
  cases method with
  | senOrder => rfl
  | strideSel => rfl
  | randomSel => exact absurd rfl h

theorem recallLoop_oracle_indep (K month egIndex strideN : ℕ)
    (method : RecallMethod) (h : method ≠ RecallMethod.randomSel)
    (o1 o2 : List ℕ → List ℕ) :
    ∀ (scheds : List RecallSched) (rows : List Row) (ex : ℤ),
      recallLoop K month false egIndex method strideN o1 scheds rows ex =
        recallLoop K month false egIndex method strideN o2 scheds rows ex
  | [], _, _ => rfl
  | s :: rest, rows, ex => by
      by_cases hmem : month < s.startM ∨ s.endM ≤ month
      · rw [recallLoop_skip K month egIndex strideN o1 method s rest rows
            ex hmem,
          recallLoop_skip K month egIndex strideN o2 method s rest rows
            ex hmem]
        exact recallLoop_oracle_indep K month egIndex strideN method h
          o1 o2 rest rows ex
      · rw [recallLoop_act K month egIndex strideN o1 method s rest rows
            ex hmem,
          recallLoop_act K month egIndex strideN o2 method s rest rows
            ex hmem,
          recallSelector_indep method h strideN o1 o2]
        split_ifs with hz
        · rfl
        · exact recallLoop_oracle_indep K month egIndex strideN method h
            o1 o2 rest _ _

theorem markForRecall_oracle_indep (K month egIndex strideN : ℕ)
    (method : RecallMethod) (h : method ≠ RecallMethod.randomSel)
    (o1 o2 : List ℕ → List ℕ) (scheds : List RecallSched) (T : ℤ)
    (rows : List Row) :
    markForRecall K month scheds T false egIndex method strideN o1 rows =
      markForRecall K month scheds T false egIndex method strideN o2
        rows := by
  unfold markForRecall
  dsimp only
  split_ifs with hpos
  · exact recallLoop_oracle_indep K month egIndex strideN method h o1 o2
      scheds rows _
  · rfl

theorem monthPrep_oracle_indep (cfg : EngCfg)
    (o1 o2 : List ℕ → List ℕ) (m : ℕ) (rows : List Row) :
    monthPrep cfg o1 m rows = monthPrep cfg o2 m rows := by
  unfold monthPrep
  dsimp only
  split_ifs <;>
    first
      | rfl
      | exact markForRecall_oracle_indep cfg.K m 0 2
          RecallMethod.senOrder (by decide) o1 o2 cfg.recalls _ _

theorem runAux_oracle_indep (cfg : EngCfg) (o1 o2 : List ℕ → List ℕ) :
    ∀ (n m : ℕ) (rows : List Row) (rd : Option (List (ℕ × ℚ))),
      runAux cfg o1 m n rows rd = runAux cfg o2 m n rows rd := by
  intro n
  induction n with
  | zero => intro m rows rd; rfl
  | succ n ih =>
      intro m rows rd
      have hprep : monthPrep cfg o1 m rows = monthPrep cfg o2 m rows :=
        monthPrep_oracle_indep cfg o1 o2 m rows
      cases n with
      | zero =>
          show [(⟨m, monthPrep cfg o1 m rows, rd, markFurRange cfg.K
              (jobLoop cfg m (monthPrep cfg o1 m rows, rd)).1⟩ : MonthRec)]
            = [(⟨m, monthPrep cfg o2 m rows, rd, markFurRange cfg.K
              (jobLoop cfg m (monthPrep cfg o2 m rows, rd)).1⟩ : MonthRec)]
          rw [hprep]
      | succ k =>
          show (⟨m, monthPrep cfg o1 m rows, rd, markFurRange cfg.K
              (jobLoop cfg m (monthPrep cfg o1 m rows, rd)).1⟩ : MonthRec)
              :: runAux cfg o1 (m + 1) (k + 1)
                (carryNext (cfg.roster (m + 1)) (markFurRange cfg.K
                  (jobLoop cfg m (monthPrep cfg o1 m rows, rd)).1))
                (jobLoop cfg m (monthPrep cfg o1 m rows, rd)).2
            = (⟨m, monthPrep cfg o2 m rows, rd, markFurRange cfg.K
              (jobLoop cfg m (monthPrep cfg o2 m rows, rd)).1⟩ : MonthRec)
              :: runAux cfg o2 (m + 1) (k + 1)
                (carryNext (cfg.roster (m + 1)) (markFurRange cfg.K
                  (jobLoop cfg m (monthPrep cfg o2 m rows, rd)).1))
                (jobLoop cfg m (monthPrep cfg o2 m rows, rd)).2
          rw [hprep, ih]

/-- C8 (amended): the engine itself is a pure function of its declared
inputs: it always selects the sen_order recall method, and for the
non-random recall methods mark_for_recall does not depend on the
numpy global RNG state (modelled by the oracle), so two runs with
identical inputs agree.  The random method, by contrast, reads the
global RNG, for which the source accepts no seed. -/
theorem claim_C8_amended (K month strideN egIndex : ℕ)
    (scheds : List RecallSched) (T : ℤ) (rows : List Row) (cfg : EngCfg)
    (initRows : List Row) (method : RecallMethod)
    (hm : method ≠ RecallMethod.randomSel) (o1 o2 : List ℕ → List ℕ) :
    markForRecall K month scheds T false egIndex method strideN o1 rows =
      markForRecall K month scheds T false egIndex method strideN o2
        rows ∧
    engineRecs cfg o1 initRows = engineRecs cfg o2 initRows := by
  constructor
  · exact markForRecall_oracle_indep K month egIndex strideN method hm
      o1 o2 scheds T rows
  · unfold engineRecs
    exact runAux_oracle_indep cfg o1 o2 _ _ _ _

/-- Witness for C8's amended statement at concrete inputs. -/
theorem claim_C8_amended_witness :
    markForRecall 2 3 [⟨1, [], 3, 4⟩] 5 false 0 RecallMethod.senOrder 2
        id [⟨0, 1, 0, 3, 0, 1⟩] =
      markForRecall 2 3 [⟨1, [], 3, 4⟩] 5 false 0 RecallMethod.senOrder 2
        List.reverse [⟨0, 1, 0, 3, 0, 1⟩] ∧
    engineRecs ⟨1, 0, 1, [[1]], [1], [], [], false, false, false, [], [],
        [], [], false, false, false, [], fun _ => [0]⟩ id
        [⟨0, 1, 0, 1, 0, 0⟩] =
      engineRecs ⟨1, 0, 1, [[1]], [1], [], [], false, false, false, [],
        [], [], [], false, false, false, [], fun _ => [0]⟩ List.reverse
        [⟨0, 1, 0, 1, 0, 0⟩] :=
  claim_C8_amended 2 3 2 0 [⟨1, [], 3, 4⟩] 5 [⟨0, 1, 0, 3, 0, 1⟩]
    ⟨1, 0, 1, [[1]], [1], [], [], false, false, false, [], [], [], [],
      false, false, false, [], fun _ => [0]⟩ [⟨0, 1, 0, 1, 0, 0⟩]
    RecallMethod.senOrder (by decide) id List.reverse

/-- C8 counterexample: with the random recall method, two different
global-RNG states (oracles) and otherwise bit-identical inputs produce
different outputs; mark_for_recall has no seed parameter at all, so the
randomness is not driven by any caller-supplied seed. -/
theorem claim_C8_cex :
    markForRecall 2 3 [⟨1, [], 3, 4⟩] 5 false 0 RecallMethod.randomSel 2
        id [⟨0, 1, 0, 3, 0, 1⟩, ⟨1, 1, 0, 1, 1, 0⟩, ⟨2, 1, 0, 3, 0, 1⟩] ≠
      markForRecall 2 3 [⟨1, [], 3, 4⟩] 5 false 0 RecallMethod.randomSel
        2 List.reverse
        [⟨0, 1, 0, 3, 0, 1⟩, ⟨1, 1, 0, 1, 1, 0⟩, ⟨2, 1, 0, 3, 0, 1⟩] := by
  decide

/-! ### Value-preservation lemmas through the engine (C3) -/

theorem updateSel_mem (p : Row → Bool) (sel : ℕ → Bool) (f : Row → Row) :
    ∀ (rows : List Row) (j : ℕ) (r2 : Row),
      r2 ∈ updateSel p sel f rows j →
      r2 ∈ rows ∨ ∃ r, r ∈ rows ∧ r2 = f r
  | [], _, r2, h => by simp [updateSel] at h
  | r :: rs, j, r2, h => by
      unfold updateSel at h
      by_cases hp : p r = true
      · rw [if_pos hp] at h
        rcases List.mem_cons.mp h with h1 | h1
        · by_cases hsel : sel j = true
          · rw [if_pos hsel] at h1
            exact Or.inr ⟨r, by simp, h1⟩
          · rw [if_neg hsel] at h1
            exact Or.inl (by simp [h1])
        · rcases updateSel_mem p sel f rs (j + 1) r2 h1 with h2 | ⟨r0, h3, h4⟩
          · exact Or.inl (by simp [h2])
          · exact Or.inr ⟨r0, by simp [h3], h4⟩
      · rw [if_neg hp] at h
        rcases List.mem_cons.mp h with h1 | h1
        · exact Or.inl (by simp [h1])
        · rcases updateSel_mem p sel f rs j r2 h1 with h2 | ⟨r0, h3, h4⟩
          · exact Or.inl (by simp [h2])
          · exact Or.inr ⟨r0, by simp [h3], h4⟩

/-- Preservation of a row predicate through updateSel. -/
theorem updateSel_preserve {P : Row → Prop} {f : Row → Row}
    (p : Row → Bool) (sel : ℕ → Bool) (hf : ∀ r, P r → P (f r))
    {rows : List Row} (h : ∀ r ∈ rows, P r) :
    ∀ r2 ∈ updateSel p sel f rows 0, P r2 := by
  intro r2 h2
  rcases updateSel_mem p sel f rows 0 r2 h2 with h3 | ⟨r0, h3, h4⟩
  · exact h r2 h3
  · rw [h4]
    exact hf r0 (h r0 h3)

theorem putJob_assign_le {K job : ℕ} (hjob : job ≤ K) (n : ℤ)
    (p : Row → Bool) {rows : List Row}
    (h : ∀ r ∈ rows, r.assign ≤ K) :
    ∀ r2 ∈ putJob n p job rows, r2.assign ≤ K := by
  unfold putJob updateFirst
  exact updateSel_preserve _ _ (fun r _ => hjob) h

theorem assignCondRatio_assign_le {K job : ℕ} (hjob : job ≤ K)
    (tjc : ℤ) (egNum : ℕ) (d : List (ℕ × ℚ)) {rows : List Row}
    (h : ∀ r ∈ rows, r.assign ≤ K) :
    ∀ r2 ∈ assignCondRatio job tjc egNum d rows, r2.assign ≤ K := by
  unfold assignCondRatio
  intro r2 h2
  exact putJob_assign_le hjob _ _
    (putJob_assign_le hjob _ _ (putJob_assign_le hjob _ _ h)) r2 h2

theorem acrcExclude_assign_le {K job : ℕ} (hjob : job ≤ K)
    {rows : List Row} (h : ∀ r ∈ rows, r.assign ≤ K) :
    ∀ r2 ∈ acrcExclude job rows, r2.assign ≤ K := by
  intro r2 h2
  rw [acrcExclude, List.mem_map] at h2
  obtain ⟨r0, hr0, hrr⟩ := h2
  rw [← hrr]
  by_cases hj : ((0 : ℕ) == job) = true <;> simp [hj, hjob, h r0 hr0]

theorem acrcNbnf_assign_le {K job : ℕ} (hjob : job ≤ K) (tjc : ℤ)
    (eg1 eg2 : ℕ) {rows : List Row} (h : ∀ r ∈ rows, r.assign ≤ K) :
    ∀ r2 ∈ acrcNbnf job tjc eg1 eg2 rows, r2.assign ≤ K := by
  rw [acrcNbnf]
  exact putJob_assign_le hjob _ _ (acrcExclude_assign_le hjob h)

theorem acrcQuotaFill_assign_le {K job : ℕ} (hjob : job ≤ K)
    (q1 q2 : ℤ) (eg1 eg2 : ℕ) {rows1 : List Row}
    (h : ∀ r ∈ rows1, r.assign ≤ K) :
    ∀ r2 ∈ acrcQuotaFill job q1 q2 eg1 eg2 rows1, r2.assign ≤ K := by
  rw [acrcQuotaFill]
  split_ifs <;>
    first
      | exact h
      | exact putJob_assign_le hjob _ _ h
      | exact putJob_assign_le hjob _ _ (putJob_assign_le hjob _ _ h)

theorem acrcShortfallFill_assign_le {K job : ℕ} (hjob : job ≤ K)
    (sf1 sf2 openJobs : ℤ) (eg1 eg2 : ℕ) {rows1 : List Row}
    (h : ∀ r ∈ rows1, r.assign ≤ K) :
    ∀ r2 ∈ acrcShortfallFill job sf1 sf2 openJobs eg1 eg2 rows1,
      r2.assign ≤ K := by
  rw [acrcShortfallFill]
  split_ifs <;>
    first
      | exact h
      | exact putJob_assign_le hjob _ _ h
      | exact putJob_assign_le hjob _ _ (putJob_assign_le hjob _ _ h)

theorem assignCondRatioCapped_assign_le {K job : ℕ} (hjob : job ≤ K)
    (tjc : ℤ) (eg1 eg2 : ℕ) (quota : List QuotaEntry) (enh : Bool)
    {rows : List Row} (h : ∀ r ∈ rows, r.assign ≤ K) :
    ∀ r2 ∈ assignCondRatioCapped job tjc eg1 eg2 quota enh rows,
      r2.assign ≤ K := by
  rw [assignCondRatioCapped]
  split_ifs <;>
    first
      | exact acrcQuotaFill_assign_le hjob _ _ _ _
          (acrcNbnf_assign_le hjob _ _ _ h)
      | exact acrcShortfallFill_assign_le hjob _ _ _ _ _
          (acrcNbnf_assign_le hjob _ _ _ h)

theorem prexStep_assign_le (cfg : EngCfg) {m job : ℕ}
    (hjob : job ≤ cfg.K) (tjc : ℤ) {rows : List Row}
    (h : ∀ r ∈ rows, r.assign ≤ cfg.K) :
    ∀ r2 ∈ prexStep cfg m job tjc rows, r2.assign ≤ cfg.K := by
  rw [prexStep]
  split_ifs
  · exact putJob_assign_le hjob _ _ h
  · exact h

theorem ratioStep_assign_le (cfg : EngCfg) {m job : ℕ}
    (hjob : job ≤ cfg.K) (tjc : ℤ) (rd : Option (List (ℕ × ℚ)))
    {rows : List Row} (h : ∀ r ∈ rows, r.assign ≤ cfg.K) :
    ∀ r2 ∈ ratioStep cfg m job tjc rd rows, r2.assign ≤ cfg.K := by
  rw [ratioStep.eq_def]
  split_ifs
  · cases rd with
    | none => exact h
    | some d => exact assignCondRatio_assign_le hjob _ _ _ h
  · exact h

theorem countStep_assign_le (cfg : EngCfg) {m job : ℕ}
    (hjob : job ≤ cfg.K) (tjc : ℤ) {rows : List Row}
    (h : ∀ r ∈ rows, r.assign ≤ cfg.K) :
    ∀ r2 ∈ countStep cfg m job tjc rows, r2.assign ≤ cfg.K := by
  rw [countStep]
  split_ifs
  · exact assignCondRatioCapped_assign_le hjob _ _ _ _ _ h
  · exact h

theorem condStep_assign_le (cfg : EngCfg) {m job : ℕ}
    (hjob : job ≤ cfg.K) (tjc : ℤ)
    {st : List Row × Option (List (ℕ × ℚ))}
    (h : ∀ r ∈ st.1, r.assign ≤ cfg.K) :
    ∀ r2 ∈ (condStep cfg m job tjc st).1, r2.assign ≤ cfg.K := by
  rw [condStep]
  exact countStep_assign_le cfg hjob _
    (ratioStep_assign_le cfg hjob _ _ (prexStep_assign_le cfg hjob _ h))

theorem baselineStep_assign_le {K job : ℕ} (hjob : job ≤ K) (tjc : ℤ)
    {rows : List Row} (h : ∀ r ∈ rows, r.assign ≤ K) :
    ∀ r2 ∈ baselineStep job tjc rows, r2.assign ≤ K := by
  unfold baselineStep
  exact putJob_assign_le hjob _ _ (putJob_assign_le hjob _ _ h)

theorem jobStep_assign_le (cfg : EngCfg) {m job : ℕ}
    (hjob : job ≤ cfg.K) {st : List Row × Option (List (ℕ × ℚ))}
    (h : ∀ r ∈ st.1, r.assign ≤ cfg.K) :
    ∀ r2 ∈ (jobStep cfg m st job).1, r2.assign ≤ cfg.K := by
  unfold jobStep
  dsimp only
  by_cases hc : inJobChangeMonths cfg m = true
  · rw [if_pos hc]
    exact baselineStep_assign_le hjob _ (condStep_assign_le cfg hjob _ h)
  · rw [if_neg hc]
    exact baselineStep_assign_le hjob _ h

theorem jobLoop_assign_le (cfg : EngCfg) (m : ℕ)
    (st : List Row × Option (List (ℕ × ℚ)))
    (h : ∀ r ∈ st.1, r.assign ≤ cfg.K) :
    ∀ r2 ∈ (jobLoop cfg m st).1, r2.assign ≤ cfg.K := by
  unfold jobLoop
  have hgen : ∀ (js : List ℕ), (∀ j ∈ js, j + 1 ≤ cfg.K) →
      ∀ (st : List Row × Option (List (ℕ × ℚ))),
        (∀ r ∈ st.1, r.assign ≤ cfg.K) →
        ∀ r2 ∈ (js.foldl (fun s i => jobStep cfg m s (i + 1)) st).1,
          r2.assign ≤ cfg.K := by
    intro js
    induction js with
    | nil => intro _ st hst r2 h2; exact hst r2 h2
    | cons j js ih =>
        intro hjs st hst
        rw [List.foldl_cons]
        exact ih (fun x hx => hjs x (by simp [hx]))
          (jobStep cfg m st (j + 1))
          (jobStep_assign_le cfg (hjs j (by simp)) hst)
  exact hgen (List.range cfg.K)
    (fun j hj => by rw [List.mem_range] at hj; omega) st h

theorem markFurRange_spec (K : ℕ) (rows : List Row)
    (h : ∀ r ∈ rows, r.assign ≤ K) :
    ∀ r2 ∈ markFurRange K rows,
      (1 ≤ r2.assign ∧ r2.assign ≤ K ∧ r2.fur = 0) ∨
        (r2.assign = 0 ∧ r2.fur = 1) := by
  unfold markFurRange
  intro r2 h2
  rw [List.mem_map] at h2
  obtain ⟨r1, h1, hr1⟩ := h2
  rw [List.mem_map] at h1
  obtain ⟨r0, h0, hr0⟩ := h1
  have hle := h r0 h0
  by_cases hz : r0.assign = 0
  · right
    rw [← hr1, ← hr0]
    simp [hz]
  · left
    have hpos : 0 < r0.assign := Nat.pos_of_ne_zero hz
    have e1 : (if (r0.assign == 0) = true then { r0 with fur := 1 }
        else r0) = r0 := by
      rw [if_neg (by simp [hz])]
    rw [← hr1, ← hr0, e1, if_pos (by simp [hpos, hle])]
    exact ⟨hpos, hle, rfl⟩

theorem markFurRange_assign (K : ℕ) (rows : List Row) :
    ∀ i : ℕ, ((markFurRange K rows)[i]?).map (fun r => r.assign) =
      (rows[i]?).map (fun r => r.assign) := by
  intro i
  unfold markFurRange
  rw [List.getElem?_map, List.getElem?_map]
  cases h : rows[i]? with
  | none => rfl
  | some r =>
      simp only [Option.map_some']
      by_cases hz : (r.assign == 0) = true <;>
        by_cases hc : (0 < r.assign && r.assign ≤ K) = true <;>
          simp [hz, hc]

theorem markForFurlough_assign_le (K2 numJobLevels : ℕ) (T : ℤ)
    {rows : List Row} (h : ∀ r ∈ rows, r.assign ≤ K2) :
    ∀ r2 ∈ markForFurlough numJobLevels T rows, r2.assign ≤ K2 := by
  unfold markForFurlough
  dsimp only
  split_ifs with hex
  · exact h
  · unfold updateSuffix
    refine updateSel_preserve _ _ (fun r hr => ?_) h
    exact hr

theorem recallLoop_assign_le (K2 numJobLevels month egIndex strideN : ℕ)
    (method : RecallMethod) (oracle : List ℕ → List ℕ) :
    ∀ (scheds : List RecallSched) (rows : List Row) (ex : ℤ),
      (∀ r ∈ rows, r.assign ≤ K2) →
      ∀ r2 ∈ recallLoop numJobLevels month false egIndex method strideN
          oracle scheds rows ex, r2.assign ≤ K2
  | [], rows, ex, h => fun r2 h2 => h r2 h2
  | s :: rest, rows, ex, h => by
      by_cases hskip : month < s.startM ∨ s.endM ≤ month
      · rw [recallLoop_skip numJobLevels month egIndex strideN oracle
          method s rest rows ex hskip]
        exact recallLoop_assign_le K2 numJobLevels month egIndex strideN
          method oracle rest rows ex h
      · rw [recallLoop_act numJobLevels month egIndex strideN oracle
          method s rest rows ex hskip]
        split_ifs with hz
        · refine updateSel_preserve _ _ (fun r hr => ?_) h
          exact hr
        · refine recallLoop_assign_le K2 numJobLevels month egIndex strideN
            method oracle rest _ _ ?_
          refine updateSel_preserve _ _ (fun r hr => ?_) h
          exact hr

theorem markForRecall_assign_le (K2 numJobLevels month egIndex strideN : ℕ)
    (method : RecallMethod) (oracle : List ℕ → List ℕ)
    (recallSched : List RecallSched) (T : ℤ) {rows : List Row}
    (h : ∀ r ∈ rows, r.assign ≤ K2) :
    ∀ r2 ∈ markForRecall numJobLevels month recallSched T false egIndex
        method strideN oracle rows, r2.assign ≤ K2 := by
  unfold markForRecall
  dsimp only
  split_ifs with hex
  · exact recallLoop_assign_le K2 numJobLevels month egIndex strideN
      method oracle recallSched rows _ h
  · exact h

theorem monthPrep_assign_le (cfg : EngCfg) (oracle : List ℕ → List ℕ)
    (m : ℕ) {rows : List Row} (h : ∀ r ∈ rows, r.assign ≤ cfg.K) :
    ∀ r2 ∈ monthPrep cfg oracle m rows, r2.assign ≤ cfg.K := by
  unfold monthPrep
  dsimp only
  split_ifs with h1 h2 h3
  · exact markForRecall_assign_le cfg.K cfg.K m 0 2 RecallMethod.senOrder
      oracle cfg.recalls _ (markForFurlough_assign_le cfg.K cfg.K _ h)
  · exact markForRecall_assign_le cfg.K cfg.K m 0 2 RecallMethod.senOrder
      oracle cfg.recalls _ h
  · exact markForFurlough_assign_le cfg.K cfg.K _ h
  · exact h

theorem carryNext_assign (idxs : List ℕ) (rows : List Row) :
    ∀ r ∈ carryNext idxs rows, r.assign = 0 := by
  intro r h
  unfold carryNext at h
  rw [List.mem_map] at h
  obtain ⟨r0, _, hr⟩ := h
  rw [← hr]

theorem runAux_zero (cfg : EngCfg) (oracle : List ℕ → List ℕ) (m : ℕ)
    (rows : List Row) (rd : Option (List (ℕ × ℚ))) :
    runAux cfg oracle m 0 rows rd = [] := rfl

theorem runAux_one (cfg : EngCfg) (oracle : List ℕ → List ℕ) (m : ℕ)
    (rows : List Row) (rd : Option (List (ℕ × ℚ))) :
    runAux cfg oracle m 1 rows rd =
      [⟨m, monthPrep cfg oracle m rows, rd,
        markFurRange cfg.K
          (jobLoop cfg m (monthPrep cfg oracle m rows, rd)).1⟩] := rfl

theorem runAux_succ_succ (cfg : EngCfg) (oracle : List ℕ → List ℕ)
    (m k : ℕ) (rows : List Row) (rd : Option (List (ℕ × ℚ))) :
    runAux cfg oracle m (k + 2) rows rd =
      ⟨m, monthPrep cfg oracle m rows, rd,
        markFurRange cfg.K
          (jobLoop cfg m (monthPrep cfg oracle m rows, rd)).1⟩ ::
      runAux cfg oracle (m + 1) (k + 1)
        (carryNext (cfg.roster (m + 1))
          (markFurRange cfg.K
            (jobLoop cfg m (monthPrep cfg oracle m rows, rd)).1))
        (jobLoop cfg m (monthPrep cfg oracle m rows, rd)).2 := rfl

theorem runAux_post_dichotomy (cfg : EngCfg) (oracle : List ℕ → List ℕ) :
    ∀ (n m : ℕ) (rows : List Row) (rd : Option (List (ℕ × ℚ))),
      (∀ r ∈ rows, r.assign ≤ cfg.K) →
      ∀ rec ∈ runAux cfg oracle m n rows rd, ∀ r ∈ rec.post,
        (1 ≤ r.assign ∧ r.assign ≤ cfg.K ∧ r.fur = 0) ∨
          (r.assign = 0 ∧ r.fur = 1) := by
  intro n
  induction n with
  | zero =>
      intro m rows rd _ rec hrec
      rw [runAux_zero] at hrec
      exact absurd hrec (List.not_mem_nil rec)
  | succ k ih =>
      intro m rows rd h rec hrec
      have hpost : ∀ r2 ∈ markFurRange cfg.K
          (jobLoop cfg m (monthPrep cfg oracle m rows, rd)).1,
          (1 ≤ r2.assign ∧ r2.assign ≤ cfg.K ∧ r2.fur = 0) ∨
            (r2.assign = 0 ∧ r2.fur = 1) :=
        markFurRange_spec cfg.K _
          (jobLoop_assign_le cfg m _ (monthPrep_assign_le cfg oracle m h))
      cases k with
      | zero =>
          rw [runAux_one] at hrec
          rcases List.mem_singleton.mp hrec with rfl
          exact hpost
      | succ k2 =>
          rw [runAux_succ_succ] at hrec
          rcases List.mem_cons.mp hrec with rfl | htl
          · exact hpost
          · exact ih (m + 1) _ _
              (fun r hr => by
                rw [carryNext_assign _ _ r hr]; exact Nat.zero_le _)
              rec htl

theorem sum_indicator_assign (a : ℕ) :
    ∀ K : ℕ,
      ((Finset.range K).sum fun k =>
          if a == k + 1 then (1 : ℕ) else 0) =
        if 1 ≤ a ∧ a ≤ K then 1 else 0 := by
  intro K
  induction K with
  | zero =>
      rw [Finset.range_zero, Finset.sum_empty,
        if_neg (show ¬(1 ≤ a ∧ a ≤ 0) by omega)]
  | succ K ih =>
      rw [Finset.sum_range_succ, ih]
      by_cases h1 : a = K + 1
      · subst h1
        rw [if_neg (show ¬(1 ≤ K + 1 ∧ K + 1 ≤ K) by omega),
          if_pos (show (K + 1 == K + 1) = true by simp),
          if_pos (show 1 ≤ K + 1 ∧ K + 1 ≤ K + 1 by omega)]
      · rw [if_neg (show ¬((a == K + 1) = true) by simp [h1])]
        by_cases h2 : 1 ≤ a ∧ a ≤ K
        · rw [if_pos h2, if_pos (show 1 ≤ a ∧ a ≤ K + 1 by omega)]
        · rw [if_neg h2, if_neg (show ¬(1 ≤ a ∧ a ≤ K + 1) by omega)]

theorem sum_cntAssign (K : ℕ) :
    ∀ rows : List Row,
      ((Finset.range K).sum fun k => cntAssign rows (k + 1)) =
        rows.countP fun r =>
          decide (1 ≤ r.assign) && decide (r.assign ≤ K)
  | [] => by simp [cntAssign]
  | r :: rs => by
      have ih := sum_cntAssign K rs
      simp only [cntAssign] at ih ⊢
      simp only [List.countP_cons]
      rw [Finset.sum_add_distrib, ih, sum_indicator_assign r.assign K]
      by_cases h : 1 ≤ r.assign ∧ r.assign ≤ K
      · rw [if_pos h, if_pos (show (decide (1 ≤ r.assign) &&
          decide (r.assign ≤ K)) = true by
            simp only [Bool.and_eq_true, decide_eq_true_eq]; exact h)]
      · rw [if_neg h, if_neg (show ¬((decide (1 ≤ r.assign) &&
          decide (r.assign ≤ K)) = true) by
            simp only [Bool.and_eq_true, decide_eq_true_eq]; exact h)]

theorem dichotomy_conservation {K : ℕ} {rows : List Row}
    (h : ∀ r ∈ rows,
      (1 ≤ r.assign ∧ r.assign ≤ K ∧ r.fur = 0) ∨
        (r.assign = 0 ∧ r.fur = 1)) :
    ((Finset.range K).sum fun k => cntAssign rows (k + 1)) +
      rows.countP (fun r => r.fur == 1) = rows.length := by
  rw [sum_cntAssign]
  have hcong : rows.countP (fun r => r.fur == 1) =
      rows.countP (fun r =>
        decide ¬((decide (1 ≤ r.assign) && decide (r.assign ≤ K))
          = true)) := by
    apply List.countP_congr
    intro r hr
    rcases h r hr with ⟨h1, h2, h3⟩ | ⟨h1, h2⟩
    · simp [h1, h2, h3]
    · simp [h1, h2]
  rw [hcong]
  exact (List.length_eq_countP_add_countP _ rows).symm

theorem finalizeOut_mem :
    ∀ (recs : List MonthRec) (ms : List Row), ms ∈ finalizeOut recs →
      ∃ rec ∈ recs, ms = rec.post ∨
        ms = rec.post.map fun r => { r with orig := r.assign }
  | [], ms, h => by simp [finalizeOut] at h
  | [r0], ms, h => by
      simp only [finalizeOut, List.mem_singleton] at h
      exact ⟨r0, by simp, Or.inr h⟩
  | r0 :: r1 :: rest, ms, h => by
      rw [show finalizeOut (r0 :: r1 :: rest) =
        r0.post :: finalizeOut (r1 :: rest) from rfl] at h
      rcases List.mem_cons.mp h with h1 | h1
      · exact ⟨r0, by simp, Or.inl h1⟩
      · obtain ⟨rec, hmem, hor⟩ := finalizeOut_mem (r1 :: rest) ms h1
        exact ⟨rec, List.mem_cons_of_mem _ hmem, hor⟩

theorem relabelRow_fur_iff (K : ℕ) (r : Row)
    (h : (1 ≤ r.assign ∧ r.assign ≤ K ∧ r.fur = 0) ∨
      (r.assign = 0 ∧ r.fur = 1)) :
    ((relabelRow K r).assign = K + 1 ↔ (relabelRow K r).fur = 1) := by
  unfold relabelRow
  rcases h with ⟨h1, h2, h3⟩ | ⟨h1, h2⟩
  · dsimp only
    rw [if_neg (show ¬(r.assign = 0) by omega)]
    constructor <;> intro hx <;> omega
  · dsimp only
    rw [if_pos h1]
    simp [h2]

/-- C3 (amended): with the delayed-implementation prefill off, in every
processed month of the integrated engine each employee row is either
assigned a genuine job level (between 1 and num_of_job_levels) with its
fur flag 0, or left unassigned with its fur flag 1; consequently the
per-level assignment counts together with the furlough count partition
the month's population exactly, and in the stored output, after the
closing relabels, the furlough placeholder level num_of_job_levels + 1
in the jnum column marks precisely the rows whose fur flag is 1.  With
the prefill on, a furloughed row keeps the prefilled level K + 1 with
fur 1 through the start month, breaking the claimed dichotomy (see the
counterexample). -/
theorem claim_C3_amended (cfg : EngCfg) (oracle : List ℕ → List ℕ)
    (initRows : List Row) (hdel : cfg.delayed = false) :
    (∀ rec ∈ engineRecs cfg oracle initRows,
      (∀ r ∈ rec.post,
        (1 ≤ r.assign ∧ r.assign ≤ cfg.K ∧ r.fur = 0) ∨
          (r.assign = 0 ∧ r.fur = 1)) ∧
      ((Finset.range cfg.K).sum fun k => cntAssign rec.post (k + 1)) +
          rec.post.countP (fun r => r.fur == 1) = rec.post.length) ∧
    ∀ ms ∈ engineOut cfg oracle initRows, ∀ r ∈ ms,
      (r.assign = cfg.K + 1 ↔ r.fur = 1) := by
  have hinit : ∀ r ∈ initRows.map (fun r =>
      { r with assign := if cfg.delayed then r.orig else 0 }),
      r.assign ≤ cfg.K := by
    intro r hr
    rw [List.mem_map] at hr
    obtain ⟨r0, _, hr0⟩ := hr
    rw [← hr0]
    simp [hdel]
  have hdich : ∀ rec ∈ engineRecs cfg oracle initRows, ∀ r ∈ rec.post,
      (1 ≤ r.assign ∧ r.assign ≤ cfg.K ∧ r.fur = 0) ∨
        (r.assign = 0 ∧ r.fur = 1) := by
    intro rec hrec
    unfold engineRecs at hrec
    exact runAux_post_dichotomy cfg oracle _ _ _ _ hinit rec hrec
  constructor
  · intro rec hrec
    exact ⟨hdich rec hrec, dichotomy_conservation (hdich rec hrec)⟩
  · intro ms hms r hr
    unfold engineOut at hms
    rw [List.mem_map] at hms
    obtain ⟨ms0, hms0, hmseq⟩ := hms
    subst hmseq
    rw [List.mem_map] at hr
    obtain ⟨r0, hr0, hreq⟩ := hr
    subst hreq
    obtain ⟨rec, hrecmem, hor⟩ := finalizeOut_mem _ ms0 hms0
    rcases hor with rfl | rfl
    · exact relabelRow_fur_iff cfg.K r0 (hdich rec hrecmem r0 hr0)
    · rw [List.mem_map] at hr0
      obtain ⟨r1, hr1, hr1eq⟩ := hr0
      subst hr1eq
      exact relabelRow_fur_iff cfg.K _ (hdich rec hrecmem r1 hr1)

theorem claim_C3_amended_witness :
    ((Row.mk 0 1 0 1 1 0).assign = cfgW.K + 1 ↔
      (Row.mk 0 1 0 1 1 0).fur = 1) :=
  (claim_C3_amended cfgW (fun l => l) rowsW (by decide)).2
    [⟨0, 1, 0, 1, 1, 0⟩] (by decide) ⟨0, 1, 0, 1, 1, 0⟩ (by decide)

/-- C3 counterexample: with delayed implementation, the standalone-
furloughed employee enters the start month with the prefilled furlough
level K + 1 = 2 in the assignment column; no put touches it (they
require assign = 0) and mark_fur_range changes neither column, so the
month ends with assign = 2 and fur = 1 — neither a genuine level with
fur 0 nor unassigned with fur 1. -/
theorem claim_C3_cex :
    ∃ rec ∈ engineRecs cfgC3 (fun l => l) rowsC3, ∃ r ∈ rec.post,
      ¬((1 ≤ r.assign ∧ r.assign ≤ cfgC3.K ∧ r.fur = 0) ∨
        (r.assign = 0 ∧ r.fur = 1)) := by
  decide

theorem updateK_countP_le (q p : Row → Bool) (f : Row → Row) :
    ∀ (rows : List Row) (k : ℕ),
      (updateK k p f rows).countP q ≤ rows.countP q + k := by
  intro rows
  induction rows with
  | nil => intro k; rw [updateK_nil]; simp
  | cons r rs ih =>
      intro k
      cases k with
      | zero => rw [updateK_zero]; omega
      | succ k =>
          by_cases hp : p r = true
          · rw [updateK_cons_pos hp, List.countP_cons, List.countP_cons]
            have := ih k
            by_cases hq : q (f r) = true <;>
              by_cases hq2 : q r = true <;> simp [hq, hq2] <;> omega
          · rw [updateK_cons_neg (by simpa using hp), List.countP_cons,
              List.countP_cons]
            have := ih (k + 1)
            by_cases hq2 : q r = true <;> simp [hq2] <;> omega

theorem cntAssign_putJob_le (n : ℤ) (hn : 0 ≤ n) (p : Row → Bool)
    (job : ℕ) (rows : List Row) :
    cntAssign (putJob n p job rows) job ≤ cntAssign rows job + n.toNat := by
  unfold cntAssign
  rw [putJob_eq_updateK]
  have h1 := updateK_countP_le (fun r => r.assign == job) p
    (fun r => { r with assign := job }) rows
    (pyTakeCount n (rows.countP p))
  have h2 := pyTakeCount_le_toNat (rows.countP p) hn
  omega

theorem cntAssign_putJob_other {job k : ℕ} (hne : job ≠ k) (hk : k ≠ 0)
    (n : ℤ) (p : Row → Bool) (hp : ∀ r, p r = true → r.assign = 0)
    (rows : List Row) :
    cntAssign (putJob n p job rows) k = cntAssign rows k := by
  unfold cntAssign
  rw [putJob_eq_updateK]
  refine updateK_countP_indiff _ p _ (fun r hr => ?_) rows _
  show (job == k) = (r.assign == k)
  rw [hp r hr, beq_eq_false_iff_ne.mpr hne,
    beq_eq_false_iff_ne.mpr (show (0 : ℕ) ≠ k by omega)]

theorem cntAssign_baselineStep_le (job : ℕ) (tjc : ℤ)
    (rows : List Row) (hc : (cntAssign rows job : ℤ) ≤ tjc) :
    (cntAssign (baselineStep job tjc rows) job : ℤ) ≤ tjc := by
  unfold baselineStep
  dsimp only
  have h1 := cntAssign_putJob_le (tjc - (cntAssign rows job : ℤ))
    (by omega)
    (fun r => r.assign == 0 && decide (r.orig ≤ job) && r.fur == 0)
    job rows
  have h2 := cntAssign_putJob_le
    (tjc - (cntAssign (putJob (tjc - (cntAssign rows job : ℤ))
      (fun r => r.assign == 0 && decide (r.orig ≤ job) && r.fur == 0)
      job rows) job : ℤ))
    (by omega)
    (fun r => r.assign == 0 && r.fur == 0) job
    (putJob (tjc - (cntAssign rows job : ℤ))
      (fun r => r.assign == 0 && decide (r.orig ≤ job) && r.fur == 0)
      job rows)
  omega

theorem cntAssign_baselineStep_other {job k : ℕ} (hne : job ≠ k)
    (hk : k ≠ 0) (tjc : ℤ) (rows : List Row) :
    cntAssign (baselineStep job tjc rows) k = cntAssign rows k := by
  unfold baselineStep
  dsimp only
  rw [cntAssign_putJob_other hne hk _ _
      (fun r hr => by
        simp only [Bool.and_eq_true, beq_iff_eq] at hr
        exact hr.1),
    cntAssign_putJob_other hne hk _ _
      (fun r hr => by
        simp only [Bool.and_eq_true, beq_iff_eq] at hr
        exact hr.1.1)]

theorem cntAssign_eq_zero_of_lt {job : ℕ} {rows : List Row}
    (h : ∀ r ∈ rows, r.assign < job) : cntAssign rows job = 0 := by
  unfold cntAssign
  refine List.countP_eq_zero.mpr (fun r hr => ?_)
  have := h r hr
  simp only [beq_iff_eq]
  omega

theorem cntAssign_markFurRange (K : ℕ) (rows : List Row) (k : ℕ) :
    cntAssign (markFurRange K rows) k = cntAssign rows k := by
  unfold markFurRange cntAssign
  rw [List.countP_map, List.countP_map]
  apply List.countP_congr
  intro r _
  simp only [Function.comp_apply]
  by_cases h0 : r.assign = 0
  · simp [h0]
  · have hb : ¬((r.assign == 0) = true) := by simp [h0]
    rw [if_neg hb]
    split_ifs <;> exact Iff.rfl

theorem getD_int_nonneg {l : List ℤ} (h : ∀ x ∈ l, 0 ≤ x) :
    ∀ n : ℕ, 0 ≤ l.getD n 0 := by
  induction l with
  | nil => intro n; rw [List.getD_nil]
  | cons x xs ih =>
      intro n
      cases n with
      | zero => rw [List.getD_cons_zero]; exact h x (by simp)
      | succ n =>
          rw [List.getD_cons_succ]
          exact ih (fun y hy => h y (by simp [hy])) n

theorem getD_rows_nonneg {J : List (List ℤ)}
    (h : ∀ row ∈ J, ∀ x ∈ row, 0 ≤ x) :
    ∀ (m : ℕ), ∀ x ∈ J.getD m [], 0 ≤ x := by
  induction J with
  | nil => intro m x hx; rw [List.getD_nil] at hx; simp at hx
  | cons row rest ih =>
      intro m x hx
      cases m with
      | zero =>
          rw [List.getD_cons_zero] at hx
          exact h row (by simp) x hx
      | succ m =>
          rw [List.getD_cons_succ] at hx
          exact ih (fun row2 hr2 => h row2 (by simp [hr2])) m x hx

theorem condStep_id (cfg : EngCfg) (hp : cfg.condPrex = false)
    (hrc : cfg.condRatio = false) (hcc : cfg.condCount = false)
    (m job : ℕ) (tjc : ℤ) (st : List Row × Option (List (ℕ × ℚ))) :
    condStep cfg m job tjc st = st := by
  unfold condStep prexStep ratioStepRd ratioStep countStep
  simp [hp, hrc, hcc]

theorem jobStep_nocond (cfg : EngCfg) (hp : cfg.condPrex = false)
    (hrc : cfg.condRatio = false) (hcc : cfg.condCount = false)
    (m : ℕ) (st : List Row × Option (List (ℕ × ℚ))) (job : ℕ) :
    jobStep cfg m st job =
      (baselineStep job ((cfg.J.getD m []).getD (job - 1) 0) st.1,
        st.2) := by
  unfold jobStep
  dsimp only
  split_ifs with h
  · rw [condStep_id cfg hp hrc hcc]
  · rfl

theorem jobLoopAux_capacity (cfg : EngCfg) (m : ℕ)
    (hp : cfg.condPrex = false) (hrc : cfg.condRatio = false)
    (hcc : cfg.condCount = false)
    (hJ : ∀ x ∈ cfg.J.getD m [], 0 ≤ x) :
    ∀ (N : ℕ) (st : List Row × Option (List (ℕ × ℚ))),
      (∀ r ∈ st.1, r.assign = 0) →
      (∀ r ∈ ((List.range N).foldl
          (fun s i => jobStep cfg m s (i + 1)) st).1, r.assign ≤ N) ∧
      (∀ job, 1 ≤ job → job ≤ N →
        (cntAssign ((List.range N).foldl
            (fun s i => jobStep cfg m s (i + 1)) st).1 job : ℤ) ≤
          (cfg.J.getD m []).getD (job - 1) 0) := by
  intro N
  induction N with
  | zero =>
      intro st h0
      refine ⟨fun r hr => ?_, fun job h1 h2 => by omega⟩
      simp only [List.range_zero, List.foldl_nil] at hr
      rw [h0 r hr]
  | succ N ih =>
      intro st h0
      rw [List.range_succ, List.foldl_append, List.foldl_cons,
        List.foldl_nil]
      obtain ⟨ihA, ihB⟩ := ih st h0
      rw [jobStep_nocond cfg hp hrc hcc]
      constructor
      · exact baselineStep_assign_le (le_refl (N + 1)) _
          (fun r hr => Nat.le_succ_of_le (ihA r hr))
      · intro job h1 h2
        by_cases hj : job = N + 1
        · subst hj
          apply cntAssign_baselineStep_le
          rw [cntAssign_eq_zero_of_lt
            (fun r hr => Nat.lt_succ_of_le (ihA r hr))]
          exact_mod_cast getD_int_nonneg hJ N
        · rw [cntAssign_baselineStep_other (by omega) (by omega)]
          exact ihB job h1 (by omega)

theorem markForFurlough_assignP (P : ℕ → Prop) (numJobLevels : ℕ)
    (T : ℤ) {rows : List Row} (h : ∀ r ∈ rows, P r.assign) :
    ∀ r2 ∈ markForFurlough numJobLevels T rows, P r2.assign := by
  unfold markForFurlough
  dsimp only
  split_ifs with hex
  · exact h
  · unfold updateSuffix
    refine updateSel_preserve _ _ (fun r hr => ?_) h
    exact hr

theorem recallLoop_assignP (P : ℕ → Prop)
    (numJobLevels month egIndex strideN : ℕ) (method : RecallMethod)
    (oracle : List ℕ → List ℕ) :
    ∀ (scheds : List RecallSched) (rows : List Row) (ex : ℤ),
      (∀ r ∈ rows, P r.assign) →
      ∀ r2 ∈ recallLoop numJobLevels month false egIndex method strideN
          oracle scheds rows ex, P r2.assign
  | [], rows, ex, h => fun r2 h2 => h r2 h2
  | s :: rest, rows, ex, h => by
      by_cases hskip : month < s.startM ∨ s.endM ≤ month
      · rw [recallLoop_skip numJobLevels month egIndex strideN oracle
          method s rest rows ex hskip]
        exact recallLoop_assignP P numJobLevels month egIndex strideN
          method oracle rest rows ex h
      · rw [recallLoop_act numJobLevels month egIndex strideN oracle
          method s rest rows ex hskip]
        split_ifs with hz
        · refine updateSel_preserve _ _ (fun r hr => ?_) h
          exact hr
        · refine recallLoop_assignP P numJobLevels month egIndex strideN
            method oracle rest _ _ ?_
          refine updateSel_preserve _ _ (fun r hr => ?_) h
          exact hr

theorem markForRecall_assignP (P : ℕ → Prop)
    (numJobLevels month egIndex strideN : ℕ) (method : RecallMethod)
    (oracle : List ℕ → List ℕ) (recallSched : List RecallSched) (T : ℤ)
    {rows : List Row} (h : ∀ r ∈ rows, P r.assign) :
    ∀ r2 ∈ markForRecall numJobLevels month recallSched T false egIndex
        method strideN oracle rows, P r2.assign := by
  unfold markForRecall
  dsimp only
  split_ifs with hex
  · exact recallLoop_assignP P numJobLevels month egIndex strideN
      method oracle recallSched rows _ h
  · exact h

theorem monthPrep_assignP (P : ℕ → Prop) (cfg : EngCfg)
    (oracle : List ℕ → List ℕ) (m : ℕ) {rows : List Row}
    (h : ∀ r ∈ rows, P r.assign) :
    ∀ r2 ∈ monthPrep cfg oracle m rows, P r2.assign := by
  unfold monthPrep
  dsimp only
  split_ifs with h1 h2 h3
  · exact markForRecall_assignP P cfg.K m 0 2 RecallMethod.senOrder
      oracle cfg.recalls _ (markForFurlough_assignP P cfg.K _ h)
  · exact markForRecall_assignP P cfg.K m 0 2 RecallMethod.senOrder
      oracle cfg.recalls _ h
  · exact markForFurlough_assignP P cfg.K _ h
  · exact h

theorem runAux_capacity (cfg : EngCfg) (oracle : List ℕ → List ℕ)
    (hp : cfg.condPrex = false) (hrc : cfg.condRatio = false)
    (hcc : cfg.condCount = false)
    (hJ : ∀ row ∈ cfg.J, ∀ x ∈ row, 0 ≤ x) :
    ∀ (n m : ℕ) (rows : List Row) (rd : Option (List (ℕ × ℚ))),
      (∀ r ∈ rows, r.assign = 0) →
      ∀ rec ∈ runAux cfg oracle m n rows rd, ∀ job, 1 ≤ job →
        job ≤ cfg.K →
        (cntAssign rec.post job : ℤ) ≤
          (cfg.J.getD rec.month []).getD (job - 1) 0 := by
  intro n
  induction n with
  | zero =>
      intro m rows rd _ rec hrec
      rw [runAux_zero] at hrec
      exact absurd hrec (List.not_mem_nil rec)
  | succ k ih =>
      intro m rows rd h0 rec hrec
      have hhead : ∀ job, 1 ≤ job → job ≤ cfg.K →
          (cntAssign (markFurRange cfg.K
            (jobLoop cfg m (monthPrep cfg oracle m rows, rd)).1)
              job : ℤ) ≤ (cfg.J.getD m []).getD (job - 1) 0 := by
        intro job h1 h2
        rw [cntAssign_markFurRange]
        have hcap := (jobLoopAux_capacity cfg m hp hrc hcc
          (getD_rows_nonneg hJ m) cfg.K (monthPrep cfg oracle m rows, rd)
          (monthPrep_assignP (fun a => a = 0) cfg oracle m h0)).2
        exact hcap job h1 h2
      cases k with
      | zero =>
          rw [runAux_one] at hrec
          rcases List.mem_singleton.mp hrec with rfl
          exact hhead
      | succ k2 =>
          rw [runAux_succ_succ] at hrec
          rcases List.mem_cons.mp hrec with rfl | htl
          · exact hhead
          · exact ih (m + 1) _ _ (carryNext_assign _ _) rec htl

/-- C1 (amended): with no conditional quotas enabled, the
delayed-implementation prefill off, and a non-negative job-count table,
the engine never assigns more employees to a job level than the month's
table entry.  With the pre-existing-rights and ratio conditions both
active on an overlapping level, the capacity bound can be exceeded (see
the counterexample); with the delayed prefill on, the start month's
slice enters already populated from orig and can likewise exceed the
table. -/
theorem claim_C1_amended (cfg : EngCfg) (oracle : List ℕ → List ℕ)
    (initRows : List Row) (hp : cfg.condPrex = false)
    (hrc : cfg.condRatio = false) (hcc : cfg.condCount = false)
    (hdel : cfg.delayed = false)
    (hJ : ∀ row ∈ cfg.J, ∀ x ∈ row, 0 ≤ x) :
    ∀ rec ∈ engineRecs cfg oracle initRows, ∀ job, 1 ≤ job →
      job ≤ cfg.K →
      (cntAssign rec.post job : ℤ) ≤
        (cfg.J.getD rec.month []).getD (job - 1) 0 := by
  intro rec hrec
  unfold engineRecs at hrec
  refine runAux_capacity cfg oracle hp hrc hcc hJ _ _ _ _
    (fun r hr => ?_) rec hrec
  rw [List.mem_map] at hr
  obtain ⟨r0, _, hr0⟩ := hr
  rw [← hr0]
  simp [hdel]

theorem claim_C1_amended_witness :
    cfgW.condPrex = false ∧ cfgW.condRatio = false ∧
      cfgW.condCount = false ∧ cfgW.delayed = false ∧
      (∀ row ∈ cfgW.J, ∀ x ∈ row, 0 ≤ x) ∧
      ∀ rec ∈ engineRecs cfgW (fun l => l) rowsW, ∀ job, 1 ≤ job →
        job ≤ cfgW.K →
        (cntAssign rec.post job : ℤ) ≤
          (cfgW.J.getD rec.month []).getD (job - 1) 0 :=
  ⟨by decide, by decide, by decide, by decide, by decide,
    claim_C1_amended cfgW (fun l => l) rowsW (by decide) (by decide)
      (by decide) (by decide) (by decide)⟩

theorem monthPrep_id (cfg : EngCfg) (hred : cfg.reductionMonths = [])
    (hfr : cfg.furReturn = false) (oracle : List ℕ → List ℕ) (m : ℕ)
    (rows : List Row) : monthPrep cfg oracle m rows = rows := by
  unfold monthPrep
  dsimp only
  rw [hred, hfr]
  simp

theorem jobLoopAux_assign_le (cfg : EngCfg) (m : ℕ)
    (hp : cfg.condPrex = false) (hrc : cfg.condRatio = false)
    (hcc : cfg.condCount = false) :
    ∀ (N : ℕ) (st : List Row × Option (List (ℕ × ℚ))),
      (∀ r ∈ st.1, r.assign = 0) →
      ∀ r ∈ ((List.range N).foldl
          (fun s i => jobStep cfg m s (i + 1)) st).1, r.assign ≤ N := by
  intro N
  induction N with
  | zero =>
      intro st h0 r hr
      simp only [List.range_zero, List.foldl_nil] at hr
      rw [h0 r hr]
  | succ N ih =>
      intro st h0
      rw [List.range_succ, List.foldl_append, List.foldl_cons,
        List.foldl_nil, jobStep_nocond cfg hp hrc hcc]
      exact baselineStep_assign_le (le_refl (N + 1)) _
        (fun r hr => Nat.le_succ_of_le (ih st h0 r hr))

theorem countP_putJob_orig_fur (k job : ℕ) (n : ℤ) (p : Row → Bool)
    (rows : List Row) :
    (putJob n p job rows).countP (fun r => r.orig == k && r.fur == 0) =
      rows.countP (fun r => r.orig == k && r.fur == 0) := by
  rw [putJob_eq_updateK]
  refine updateK_countP_indiff _ p _ (fun r _ => ?_) rows _
  rfl

theorem countP_baselineStep_orig_fur (k job : ℕ) (tjc : ℤ)
    (rows : List Row) :
    (baselineStep job tjc rows).countP
        (fun r => r.orig == k && r.fur == 0) =
      rows.countP (fun r => r.orig == k && r.fur == 0) := by
  unfold baselineStep
  dsimp only
  rw [countP_putJob_orig_fur, countP_putJob_orig_fur]

theorem baselineStep_nbnf (job : ℕ) (hjob : 1 ≤ job) (tjc : ℤ)
    (rows : List Row)
    (hA : ∀ r ∈ rows, r.assign ≤ job - 1)
    (hInv : ∀ r ∈ rows,
      (r.fur = 0 → 1 ≤ r.orig ∧
        (r.orig ≤ job - 1 → 1 ≤ r.assign ∧ r.assign ≤ r.orig)) ∧
      (r.fur ≠ 0 → r.assign = 0))
    (hF : (rows.countP (fun r => r.orig == job && r.fur == 0) : ℤ) ≤
      tjc) :
    ∀ r2 ∈ baselineStep job tjc rows,
      (r2.fur = 0 → 1 ≤ r2.orig ∧
        (r2.orig ≤ job → 1 ≤ r2.assign ∧ r2.assign ≤ r2.orig)) ∧
      (r2.fur ≠ 0 → r2.assign = 0) := by
  have htjc : 0 ≤ tjc := le_trans (Int.natCast_nonneg _) hF
  have hcnt0 : cntAssign rows job = 0 :=
    cntAssign_eq_zero_of_lt (fun r hr => by have := hA r hr; omega)
  have hp1sub : rows.countP (fun r =>
      r.assign == 0 && decide (r.orig ≤ job) && r.fur == 0) ≤
      rows.countP (fun r => r.orig == job && r.fur == 0) := by
    refine List.countP_mono_left (fun r hr hp1 => ?_)
    simp only [Bool.and_eq_true, beq_iff_eq, decide_eq_true_eq] at hp1 ⊢
    obtain ⟨⟨hz, hle⟩, hf⟩ := hp1
    refine ⟨?_, hf⟩
    rcases (hInv r hr).1 hf with ⟨h1, h2⟩
    by_cases ho : r.orig ≤ job - 1
    · have := h2 ho; omega
    · omega
  have hptake : pyTakeCount tjc (rows.countP (fun r =>
      r.assign == 0 && decide (r.orig ≤ job) && r.fur == 0)) =
      rows.countP (fun r =>
        r.assign == 0 && decide (r.orig ≤ job) && r.fur == 0) := by
    unfold pyTakeCount
    rw [if_pos htjc]
    omega
  have hrows1 : putJob tjc (fun r =>
      r.assign == 0 && decide (r.orig ≤ job) && r.fur == 0) job rows =
      rows.map (fun r => if (r.assign == 0 && decide (r.orig ≤ job) &&
        r.fur == 0) = true then { r with assign := job } else r) := by
    rw [putJob_eq_updateK, hptake]
    exact updateK_all _ _ rows _ (le_refl _)
  have hInv1 : ∀ r1 ∈ rows.map (fun r =>
      if (r.assign == 0 && decide (r.orig ≤ job) && r.fur == 0) = true
      then { r with assign := job } else r),
      (r1.fur = 0 → 1 ≤ r1.orig ∧
        (r1.orig ≤ job → 1 ≤ r1.assign ∧ r1.assign ≤ r1.orig)) ∧
      (r1.fur ≠ 0 → r1.assign = 0) := by
    intro r1 h1
    rw [List.mem_map] at h1
    obtain ⟨r, hr, hg⟩ := h1
    by_cases hp1 : (r.assign == 0 && decide (r.orig ≤ job) &&
        r.fur == 0) = true
    · rw [if_pos hp1] at hg
      subst hg
      dsimp only
      simp only [Bool.and_eq_true, beq_iff_eq, decide_eq_true_eq] at hp1
      obtain ⟨⟨hz, hle⟩, hf⟩ := hp1
      constructor
      · intro _
        rcases (hInv r hr).1 hf with ⟨h1, h2⟩
        refine ⟨h1, fun _ => ⟨hjob, ?_⟩⟩
        by_cases ho : r.orig ≤ job - 1
        · have := h2 ho; omega
        · omega
      · intro hne
        exact absurd hf hne
    · rw [if_neg hp1] at hg
      subst hg
      constructor
      · intro hf
        rcases (hInv r hr).1 hf with ⟨h1, h2⟩
        refine ⟨h1, fun ho => ?_⟩
        by_cases ho' : r.orig ≤ job - 1
        · exact h2 ho'
        · have hne : ¬(r.assign = 0) := by
            intro hz
            apply hp1
            simp only [Bool.and_eq_true, beq_iff_eq, decide_eq_true_eq]
            exact ⟨⟨hz, ho⟩, hf⟩
          have := hA r hr
          omega
      · exact (hInv r hr).2
  unfold baselineStep
  dsimp only
  rw [hcnt0]
  simp only [Nat.cast_zero, sub_zero]
  rw [hrows1]
  intro r2 h2
  rw [putJob_eq_updateK] at h2
  rcases updateK_mem _ _ _ _ r2 h2 with h3 | ⟨r1, h3, hp2, hr2⟩
  · exact hInv1 r2 h3
  · subst hr2
    dsimp only
    simp only [Bool.and_eq_true, beq_iff_eq] at hp2
    obtain ⟨hz1, hf1⟩ := hp2
    constructor
    · intro _
      rcases (hInv1 r1 h3).1 hf1 with ⟨h1, h2⟩
      refine ⟨h1, fun ho => ?_⟩
      have := h2 ho
      omega
    · intro hne
      exact absurd hf1 hne

theorem jobLoopAux_nbnf (cfg : EngCfg) (m : ℕ)
    (hp : cfg.condPrex = false) (hrc : cfg.condRatio = false)
    (hcc : cfg.condCount = false) :
    ∀ (N : ℕ) (st : List Row × Option (List (ℕ × ℚ))),
      (∀ r ∈ st.1, r.assign = 0) →
      (∀ r ∈ st.1, (r.fur = 0 → 1 ≤ r.orig) ∧
        (r.fur ≠ 0 → r.assign = 0)) →
      (∀ k : ℕ, 1 ≤ k →
        (st.1.countP (fun r => r.orig == k && r.fur == 0) : ℤ) ≤
          (cfg.J.getD m []).getD (k - 1) 0) →
      (∀ r ∈ ((List.range N).foldl
          (fun s i => jobStep cfg m s (i + 1)) st).1,
        (r.fur = 0 → 1 ≤ r.orig ∧
          (r.orig ≤ N → 1 ≤ r.assign ∧ r.assign ≤ r.orig)) ∧
        (r.fur ≠ 0 → r.assign = 0)) ∧
      (∀ k : ℕ, ((List.range N).foldl
          (fun s i => jobStep cfg m s (i + 1)) st).1.countP
            (fun r => r.orig == k && r.fur == 0) =
        st.1.countP (fun r => r.orig == k && r.fur == 0)) := by
  intro N
  induction N with
  | zero =>
      intro st h0 hE2 hF
      constructor
      · intro r hr
        simp only [List.range_zero, List.foldl_nil] at hr
        refine ⟨fun hf => ⟨(hE2 r hr).1 hf, fun ho => ?_⟩,
          (hE2 r hr).2⟩
        have := (hE2 r hr).1 hf
        omega
      · intro k
        simp only [List.range_zero, List.foldl_nil]
  | succ N ih =>
      intro st h0 hE2 hF
      obtain ⟨ih1, ih2⟩ := ih st h0 hE2 hF
      have hA := jobLoopAux_assign_le cfg m hp hrc hcc N st h0
      rw [List.range_succ, List.foldl_append, List.foldl_cons,
        List.foldl_nil, jobStep_nocond cfg hp hrc hcc]
      constructor
      · refine baselineStep_nbnf (N + 1) (by omega) _ _ hA ih1 ?_
        rw [ih2 (N + 1)]
        exact hF (N + 1) (by omega)
      · intro k
        rw [countP_baselineStep_orig_fur, ih2 k]

theorem markFurRange_mem (K : ℕ) (rows : List Row) :
    ∀ r2 ∈ markFurRange K rows, ∃ r ∈ rows,
      r2.assign = r.assign ∧ r2.orig = r.orig := by
  intro r2 h2
  unfold markFurRange at h2
  rw [List.mem_map] at h2
  obtain ⟨r1, h1, hr1⟩ := h2
  rw [List.mem_map] at h1
  obtain ⟨r0, h0, hr0⟩ := h1
  refine ⟨r0, h0, ?_⟩
  subst hr1
  subst hr0
  constructor <;> split_ifs <;> rfl

theorem carryNext_mem (idxs : List ℕ) (rows : List Row) :
    ∀ r2 ∈ carryNext idxs rows, ∃ r ∈ rows,
      r2 = { r with orig := r.assign, assign := 0 } := by
  intro r2 h2
  unfold carryNext at h2
  rw [List.mem_map] at h2
  obtain ⟨r, hr, he⟩ := h2
  exact ⟨r, List.mem_of_mem_filter hr, he.symm⟩

theorem month_nbnf (cfg : EngCfg) (oracle : List ℕ → List ℕ)
    (hp : cfg.condPrex = false) (hrc : cfg.condRatio = false)
    (hcc : cfg.condCount = false) (hred : cfg.reductionMonths = [])
    (hfr : cfg.furReturn = false) (m : ℕ) (rows : List Row)
    (rd : Option (List (ℕ × ℚ)))
    (h0 : ∀ r ∈ rows, r.assign = 0)
    (hE2 : ∀ r ∈ rows, (r.fur = 0 → 1 ≤ r.orig) ∧
      (r.fur ≠ 0 → r.assign = 0))
    (hF : ∀ k : ℕ, 1 ≤ k →
      (rows.countP (fun r => r.orig == k && r.fur == 0) : ℤ) ≤
        (cfg.J.getD m []).getD (k - 1) 0) :
    ∀ r2 ∈ markFurRange cfg.K
        (jobLoop cfg m (monthPrep cfg oracle m rows, rd)).1,
      r2.fur = 0 → 1 ≤ r2.assign ∧ r2.assign ≤ r2.orig := by
  rw [monthPrep_id cfg hred hfr]
  have hentry : ∀ r ∈ ((rows, rd) :
      List Row × Option (List (ℕ × ℚ))).1, r.assign ≤ cfg.K :=
    fun r hr => by rw [h0 r hr]; exact Nat.zero_le _
  intro r2 h2 hf2
  rcases markFurRange_spec cfg.K _ (jobLoop_assign_le cfg m _ hentry)
      r2 h2 with ⟨h1, h2k, _⟩ | ⟨hz, hf1⟩
  · obtain ⟨r0, hmem0, ha0, ho0⟩ := markFurRange_mem cfg.K _ r2 h2
    have hinv := (jobLoopAux_nbnf cfg m hp hrc hcc cfg.K (rows, rd)
      h0 hE2 hF).1 r0 hmem0
    have hfur0 : r0.fur = 0 := by
      by_contra hne
      have := hinv.2 hne
      omega
    rcases hinv.1 hfur0 with ⟨ho1, himp⟩
    by_cases hoK : r0.orig ≤ cfg.K
    · have := himp hoK
      omega
    · omega
  · omega

theorem carryNext_post_entry (cfg : EngCfg) (oracle : List ℕ → List ℕ)
    (hp : cfg.condPrex = false) (hrc : cfg.condRatio = false)
    (hcc : cfg.condCount = false)
    (hJm : ∀ x ∈ cfg.J.getD m2 [], 0 ≤ x)
    (hJm1 : ∀ x ∈ cfg.J.getD (m2 + 1) [], 0 ≤ x)
    (hmono : ∀ j : ℕ, (cfg.J.getD m2 []).getD j 0 ≤
      (cfg.J.getD (m2 + 1) []).getD j 0)
    (rows : List Row) (rd : Option (List (ℕ × ℚ)))
    (h0 : ∀ r ∈ rows, r.assign = 0) :
    (∀ r ∈ carryNext (cfg.roster (m2 + 1)) (markFurRange cfg.K
        (jobLoop cfg m2 (monthPrep cfg oracle m2 rows, rd)).1),
      (r.fur = 0 → 1 ≤ r.orig) ∧ (r.fur ≠ 0 → r.assign = 0)) ∧
    (∀ k : ℕ, 1 ≤ k →
      ((carryNext (cfg.roster (m2 + 1)) (markFurRange cfg.K
          (jobLoop cfg m2 (monthPrep cfg oracle m2 rows, rd)).1)).countP
            (fun r => r.orig == k && r.fur == 0) : ℤ) ≤
        (cfg.J.getD (m2 + 1) []).getD (k - 1) 0) := by
  have hprep0 : ∀ r ∈ monthPrep cfg oracle m2 rows, r.assign = 0 :=
    monthPrep_assignP (fun a => a = 0) cfg oracle m2 h0
  have hloopK : ∀ r ∈ (jobLoop cfg m2
      (monthPrep cfg oracle m2 rows, rd)).1, r.assign ≤ cfg.K :=
    jobLoop_assign_le cfg m2 _
      (fun r hr => by rw [hprep0 r hr]; exact Nat.zero_le _)
  have hdich := markFurRange_spec cfg.K _ hloopK
  constructor
  · intro r2 h2
    obtain ⟨r, hr, he⟩ := carryNext_mem _ _ r2 h2
    subst he
    dsimp only
    constructor
    · intro hf
      rcases hdich r hr with ⟨h1, _, _⟩ | ⟨_, hf1⟩
      · exact h1
      · omega
    · intro _
      rfl
  · intro k hk
    have hmap : (carryNext (cfg.roster (m2 + 1)) (markFurRange cfg.K
        (jobLoop cfg m2 (monthPrep cfg oracle m2 rows, rd)).1)).countP
          (fun r => r.orig == k && r.fur == 0) =
        ((markFurRange cfg.K (jobLoop cfg m2
          (monthPrep cfg oracle m2 rows, rd)).1).filter
            (fun r => (cfg.roster (m2 + 1)).contains r.idx)).countP
          (fun r => r.assign == k && r.fur == 0) := by
      unfold carryNext
      rw [List.countP_map]
      exact List.countP_congr (fun r _ => Iff.rfl)
    have hsub : ((markFurRange cfg.K (jobLoop cfg m2
        (monthPrep cfg oracle m2 rows, rd)).1).filter
          (fun r => (cfg.roster (m2 + 1)).contains r.idx)).countP
        (fun r => r.assign == k && r.fur == 0) ≤
        (markFurRange cfg.K (jobLoop cfg m2
          (monthPrep cfg oracle m2 rows, rd)).1).countP
          (fun r => r.assign == k && r.fur == 0) :=
      List.Sublist.countP_le _ (List.filter_sublist _)
    have hdrop : (markFurRange cfg.K (jobLoop cfg m2
        (monthPrep cfg oracle m2 rows, rd)).1).countP
          (fun r => r.assign == k && r.fur == 0) ≤
        cntAssign (markFurRange cfg.K (jobLoop cfg m2
          (monthPrep cfg oracle m2 rows, rd)).1) k :=
      List.countP_mono_left (fun r _ hp2 => by
        simp only [Bool.and_eq_true] at hp2
        exact hp2.1)
    by_cases hkK : k ≤ cfg.K
    · have hcap : (cntAssign (markFurRange cfg.K (jobLoop cfg m2
          (monthPrep cfg oracle m2 rows, rd)).1) k : ℤ) ≤
          (cfg.J.getD m2 []).getD (k - 1) 0 := by
        rw [cntAssign_markFurRange]
        exact (jobLoopAux_capacity cfg m2 hp hrc hcc hJm cfg.K
          (monthPrep cfg oracle m2 rows, rd) hprep0).2 k hk hkK
      have := hmono (k - 1)
      rw [hmap]
      omega
    · have hzero : cntAssign (markFurRange cfg.K (jobLoop cfg m2
          (monthPrep cfg oracle m2 rows, rd)).1) k = 0 :=
        cntAssign_eq_zero_of_lt (fun r hr => by
          rcases hdich r hr with ⟨_, h2, _⟩ | ⟨hz, _⟩ <;> omega)
      have := getD_int_nonneg hJm1 (k - 1)
      rw [hmap]
      omega

theorem runAux_nbnf_strong (cfg : EngCfg) (oracle : List ℕ → List ℕ)
    (hp : cfg.condPrex = false) (hrc : cfg.condRatio = false)
    (hcc : cfg.condCount = false) (hred : cfg.reductionMonths = [])
    (hfr : cfg.furReturn = false)
    (hJ : ∀ row ∈ cfg.J, ∀ x ∈ row, 0 ≤ x)
    (hmono : ∀ m k : ℕ, m + 1 < cfg.numMonths →
      (cfg.J.getD m []).getD k 0 ≤ (cfg.J.getD (m + 1) []).getD k 0) :
    ∀ (n m : ℕ) (rows : List Row) (rd : Option (List (ℕ × ℚ))),
      m + n ≤ cfg.numMonths →
      (∀ r ∈ rows, r.assign = 0) →
      (∀ r ∈ rows, (r.fur = 0 → 1 ≤ r.orig) ∧
        (r.fur ≠ 0 → r.assign = 0)) →
      (∀ k : ℕ, 1 ≤ k →
        (rows.countP (fun r => r.orig == k && r.fur == 0) : ℤ) ≤
          (cfg.J.getD m []).getD (k - 1) 0) →
      ∀ rec ∈ runAux cfg oracle m n rows rd, ∀ r ∈ rec.post,
        r.fur = 0 → 1 ≤ r.assign ∧ r.assign ≤ r.orig := by
  intro n
  induction n with
  | zero =>
      intro m rows rd _ _ _ _ rec hrec
      rw [runAux_zero] at hrec
      exact absurd hrec (List.not_mem_nil rec)
  | succ k2 ih =>
      intro m rows rd hmn h0 hE2 hF rec hrec
      have hhead := month_nbnf cfg oracle hp hrc hcc hred hfr m rows rd
        h0 hE2 hF
      cases k2 with
      | zero =>
          rw [runAux_one] at hrec
          rcases List.mem_singleton.mp hrec with rfl
          exact hhead
      | succ k3 =>
          rw [runAux_succ_succ] at hrec
          rcases List.mem_cons.mp hrec with rfl | htl
          · exact hhead
          · obtain ⟨hE2', hF'⟩ := carryNext_post_entry cfg oracle
              hp hrc hcc (getD_rows_nonneg hJ m)
              (getD_rows_nonneg hJ (m + 1))
              (fun j => hmono m j (by omega)) rows rd h0
            exact ih (m + 1) _ _ (by omega) (carryNext_assign _ _)
              hE2' hF' rec htl

theorem runAux_nbnf (cfg : EngCfg) (oracle : List ℕ → List ℕ)
    (hp : cfg.condPrex = false) (hrc : cfg.condRatio = false)
    (hcc : cfg.condCount = false) (hred : cfg.reductionMonths = [])
    (hfr : cfg.furReturn = false)
    (hJ : ∀ row ∈ cfg.J, ∀ x ∈ row, 0 ≤ x)
    (hmono : ∀ m k : ℕ, m + 1 < cfg.numMonths →
      (cfg.J.getD m []).getD k 0 ≤ (cfg.J.getD (m + 1) []).getD k 0) :
    ∀ (n m : ℕ) (rows : List Row) (rd : Option (List (ℕ × ℚ))),
      m + n ≤ cfg.numMonths →
      (∀ r ∈ rows, r.assign = 0) →
      ∀ rec ∈ runAux cfg oracle m n rows rd, rec.month ≠ m →
        ∀ r ∈ rec.post, r.fur = 0 →
          1 ≤ r.assign ∧ r.assign ≤ r.orig := by
  intro n
  cases n with
  | zero =>
      intro m rows rd _ _ rec hrec
      rw [runAux_zero] at hrec
      exact absurd hrec (List.not_mem_nil rec)
  | succ k2 =>
      intro m rows rd hmn h0 rec hrec hne
      cases k2 with
      | zero =>
          rw [runAux_one] at hrec
          rcases List.mem_singleton.mp hrec with rfl
          exact absurd rfl hne
      | succ k3 =>
          rw [runAux_succ_succ] at hrec
          rcases List.mem_cons.mp hrec with rfl | htl
          · exact absurd rfl hne
          · obtain ⟨hE2', hF'⟩ := carryNext_post_entry cfg oracle
              hp hrc hcc (getD_rows_nonneg hJ m)
              (getD_rows_nonneg hJ (m + 1))
              (fun j => hmono m j (by omega)) rows rd h0
            exact runAux_nbnf_strong cfg oracle hp hrc hcc hred hfr
              hJ hmono (k3 + 1) (m + 1) _ _ (by omega)
              (carryNext_assign _ _) hE2' hF' rec htl

/-- C2 (amended): in a run with no conditional quotas, no reduction
months, no recall, non-negative job counts that never shrink from one
month to the next, in every processed month after the first each
non-furloughed employee is assigned a job level no worse (no larger)
than the level recorded in the orig column, which align_next filled
with the employee's previous end-of-month assignment; the
delayed-implementation prefill must be off, for it seeds the start
month's assignments from orig and over-capacity prefilled holders are
then demoted in the next month even under a constant table; the claim's
original guard J[m][j] > 0 is not sufficient: a shrinking job level
forces some holders onto worse jobs even though J[m][j] > 0 (see the
counterexample). -/
theorem claim_C2_amended (cfg : EngCfg) (oracle : List ℕ → List ℕ)
    (initRows : List Row) (hp : cfg.condPrex = false)
    (hrc : cfg.condRatio = false) (hcc : cfg.condCount = false)
    (hred : cfg.reductionMonths = []) (hfr : cfg.furReturn = false)
    (hdel : cfg.delayed = false)
    (hJ : ∀ row ∈ cfg.J, ∀ x ∈ row, 0 ≤ x)
    (hmono : ∀ m k : ℕ, m + 1 < cfg.numMonths →
      (cfg.J.getD m []).getD k 0 ≤ (cfg.J.getD (m + 1) []).getD k 0) :
    ∀ rec ∈ engineRecs cfg oracle initRows,
      rec.month ≠ cfg.startMonth → ∀ r ∈ rec.post, r.fur = 0 →
        1 ≤ r.assign ∧ r.assign ≤ r.orig := by
  intro rec hrec
  unfold engineRecs at hrec
  by_cases hsm : cfg.startMonth ≤ cfg.numMonths
  · refine runAux_nbnf cfg oracle hp hrc hcc hred hfr hJ hmono _ _ _ _
      (by omega) (fun r hr => ?_) rec hrec
    rw [List.mem_map] at hr
    obtain ⟨r0, _, hr0⟩ := hr
    rw [← hr0]
    simp [hdel]
  · rw [show cfg.numMonths - cfg.startMonth = 0 by omega,
      runAux_zero] at hrec
    exact absurd hrec (List.not_mem_nil rec)

theorem claim_C2_amended_witness :
    cfgW2.reductionMonths = [] ∧ cfgW2.furReturn = false ∧
      cfgW2.delayed = false ∧
      (∀ row ∈ cfgW2.J, ∀ x ∈ row, 0 ≤ x) ∧
      (∀ m k : ℕ, m + 1 < cfgW2.numMonths →
        (cfgW2.J.getD m []).getD k 0 ≤
          (cfgW2.J.getD (m + 1) []).getD k 0) ∧
      ∀ rec ∈ engineRecs cfgW2 (fun l => l) rowsW,
        rec.month ≠ cfgW2.startMonth → ∀ r ∈ rec.post, r.fur = 0 →
          1 ≤ r.assign ∧ r.assign ≤ r.orig :=
  ⟨by decide, by decide, by decide, by decide,
    fun m k hm => by
      have hm2 : m + 1 < 2 := hm
      have hm0 : m = 0 := by omega
      subst hm0
      exact le_refl _,
    claim_C2_amended cfgW2 (fun l => l) rowsW (by decide) (by decide)
      (by decide) (by decide) (by decide) (by decide) (by decide)
      (fun m k hm => by
        have hm2 : m + 1 < 2 := hm
        have hm0 : m = 0 := by omega
        subst hm0
        exact le_refl _)⟩

/-- C2 counterexample: level 1 has two slots in month 0 and one in
month 1 (while level 2 opens), no conditions are active, and
J[1][1 as python j=1] = 1 > 0; the junior of the two level-1 holders is
assigned level 2 in month 1, strictly worse than the held level. -/
theorem claim_C2_cex :
    ∃ rec ∈ engineRecs cfgC2 (fun l => l) rowsC2,
      rec.month ≠ cfgC2.startMonth ∧
      0 < (cfgC2.J.getD rec.month []).getD 0 0 ∧
      ∃ r ∈ rec.post, r.fur = 0 ∧ r.orig = 1 ∧ r.orig < r.assign := by
  decide

theorem putJob_zero (p : Row → Bool) (job : ℕ) (rows : List Row) :
    putJob 0 p job rows = rows := by
  rw [putJob_eq_updateK]
  have h : pyTakeCount 0 (rows.countP p) = 0 := by
    unfold pyTakeCount
    rw [if_pos (le_refl (0 : ℤ))]
    omega
  rw [h, updateK_zero]

theorem ratioLookup_foldl (f : ℕ → ℚ) (j : ℕ) :
    ∀ (jobs : List ℕ) (acc : ℚ),
      (jobs.map (fun i => (i, f i))).foldl
          (fun acc p => if p.1 = j then p.2 else acc) acc =
        if j ∈ jobs then f j else acc := by
  intro jobs
  induction jobs with
  | nil => intro acc; simp
  | cons i is ih =>
      intro acc
      rw [List.map_cons, List.foldl_cons, ih]
      by_cases hmem : j ∈ is
      · rw [if_pos hmem, if_pos (by simp [hmem])]
      · rw [if_neg hmem]
        by_cases hij : i = j
        · subst hij
          rw [if_pos rfl, if_pos (by simp)]
        · rw [if_neg hij, if_neg (by simp [hmem]; omega)]

theorem ratioLookup_setRatioCondDict (egNum : ℕ) (jobs : List ℕ)
    (rows : List Row) (j : ℕ) (hj : j ∈ jobs) :
    ratioLookup (setRatioCondDict egNum jobs rows) j =
      round2 (((rows.countP (fun r =>
          r.orig == j && r.eg == egNum)) : ℚ) /
        ((rows.countP (fun r => r.orig == j)) : ℚ)) := by
  unfold ratioLookup setRatioCondDict
  rw [ratioLookup_foldl (fun i => round2 (((rows.countP (fun r =>
      r.orig == i && r.eg == egNum)) : ℚ) /
    ((rows.countP (fun r => r.orig == i)) : ℚ))) j jobs 0]
  rw [if_pos hj]

theorem jobStep_rd (cfg : EngCfg) (m : ℕ)
    (st : List Row × Option (List (ℕ × ℚ))) (i : ℕ)
    (h : ¬(cfg.condRatio = true ∧ m = ratioCondMonth cfg ∧
      i + 1 = 1)) :
    (jobStep cfg m st (i + 1)).2 = st.2 := by
  unfold jobStep
  dsimp only
  split_ifs with hjc
  · unfold condStep
    dsimp only
    unfold ratioStepRd
    rw [if_neg]
    intro hb
    simp only [Bool.and_eq_true, beq_iff_eq] at hb
    exact h ⟨hb.1.1, hb.1.2, hb.2⟩
  · rfl

theorem foldJobs_rd (cfg : EngCfg) (m : ℕ) :
    ∀ (js : List ℕ) (st : List Row × Option (List (ℕ × ℚ))),
      (∀ j ∈ js, ¬(cfg.condRatio = true ∧ m = ratioCondMonth cfg ∧
        j + 1 = 1)) →
      ((js.foldl (fun s i => jobStep cfg m s (i + 1)) st).2 = st.2) := by
  intro js
  induction js with
  | nil => intro st _; rfl
  | cons j js ih =>
      intro st h
      rw [List.foldl_cons, ih _ (fun j2 hj2 => h j2 (by simp [hj2])),
        jobStep_rd cfg m st j (h j (by simp))]

theorem jobLoop_rd_id (cfg : EngCfg) (m : ℕ)
    (hno : ¬(cfg.condRatio = true ∧ m = ratioCondMonth cfg))
    (st : List Row × Option (List (ℕ × ℚ))) :
    (jobLoop cfg m st).2 = st.2 := by
  unfold jobLoop
  exact foldJobs_rd cfg m _ st (fun j _ hcon => hno ⟨hcon.1, hcon.2.1⟩)

theorem jobLoop_rd_freeze (cfg : EngCfg) (m : ℕ)
    (hcr : cfg.condRatio = true) (hm : m = ratioCondMonth cfg)
    (hjcm : inJobChangeMonths cfg m = true) (hK : 1 ≤ cfg.K)
    (st : List Row × Option (List (ℕ × ℚ))) :
    (jobLoop cfg m st).2 = some (setRatioCondDict 1 (ratioJobs cfg)
      (prexStep cfg m 1 ((cfg.J.getD m []).getD 0 0) st.1)) := by
  unfold jobLoop
  obtain ⟨K2, hK2⟩ : ∃ K2, cfg.K = K2 + 1 := ⟨cfg.K - 1, by omega⟩
  rw [hK2, List.range_succ_eq_map, List.foldl_cons,
    foldJobs_rd cfg m _ _ (fun j hj => by
      rw [List.mem_map] at hj
      obtain ⟨i, _, hi⟩ := hj
      omega)]
  unfold jobStep
  dsimp only
  rw [if_pos hjcm]
  unfold condStep
  dsimp only
  unfold ratioStepRd
  rw [if_pos (by simp [hcr, hm])]

theorem runAux_month_ge (cfg : EngCfg) (oracle : List ℕ → List ℕ) :
    ∀ (n m : ℕ) (rows : List Row) (rd : Option (List (ℕ × ℚ))),
      ∀ rec ∈ runAux cfg oracle m n rows rd, m ≤ rec.month := by
  intro n
  induction n with
  | zero =>
      intro m rows rd rec hrec
      rw [runAux_zero] at hrec
      exact absurd hrec (List.not_mem_nil rec)
  | succ k ih =>
      intro m rows rd rec hrec
      cases k with
      | zero =>
          rw [runAux_one] at hrec
          rcases List.mem_singleton.mp hrec with rfl
          exact le_refl m
      | succ k2 =>
          rw [runAux_succ_succ] at hrec
          rcases List.mem_cons.mp hrec with rfl | htl
          · exact le_refl m
          · exact le_trans (by omega) (ih (m + 1) _ _ rec htl)

theorem runAux_rd_const (cfg : EngCfg) (oracle : List ℕ → List ℕ) :
    ∀ (n m : ℕ) (rows : List Row) (d : List (ℕ × ℚ)),
      ratioCondMonth cfg < m →
      ∀ rec ∈ runAux cfg oracle m n rows (some d),
        rec.rdIn = some d := by
  intro n
  induction n with
  | zero =>
      intro m rows d _ rec hrec
      rw [runAux_zero] at hrec
      exact absurd hrec (List.not_mem_nil rec)
  | succ k ih =>
      intro m rows d hm rec hrec
      cases k with
      | zero =>
          rw [runAux_one] at hrec
          rcases List.mem_singleton.mp hrec with rfl
          rfl
      | succ k2 =>
          rw [runAux_succ_succ] at hrec
          rcases List.mem_cons.mp hrec with rfl | htl
          · rfl
          · rw [jobLoop_rd_id cfg m (fun hcon => by omega)] at htl
            exact ih (m + 1) _ d (by omega) rec htl

theorem runAux_rd_pre (cfg : EngCfg) (oracle : List ℕ → List ℕ)
    (hcr : cfg.condRatio = true) (hK : 1 ≤ cfg.K)
    (hjcm : inJobChangeMonths cfg (ratioCondMonth cfg) = true) :
    ∀ (n m : ℕ) (rows : List Row), m ≤ ratioCondMonth cfg →
      ∀ rec ∈ runAux cfg oracle m n rows none,
        (rec.month ≤ ratioCondMonth cfg → rec.rdIn = none) ∧
        (ratioCondMonth cfg < rec.month →
          ∃ rec0 ∈ runAux cfg oracle m n rows none,
            rec0.month = ratioCondMonth cfg ∧
            rec.rdIn = some (setRatioCondDict 1 (ratioJobs cfg)
              (prexStep cfg (ratioCondMonth cfg) 1
                ((cfg.J.getD (ratioCondMonth cfg) []).getD 0 0)
                rec0.prep))) := by
  intro n
  induction n with
  | zero =>
      intro m rows _ rec hrec
      rw [runAux_zero] at hrec
      exact absurd hrec (List.not_mem_nil rec)
  | succ k ih =>
      intro m rows hm rec hrec
      cases k with
      | zero =>
          rw [runAux_one] at hrec
          rcases List.mem_singleton.mp hrec with rfl
          refine ⟨fun _ => rfl, fun hlt => ?_⟩
          exfalso
          dsimp only at hlt
          omega
      | succ k2 =>
          rw [runAux_succ_succ] at hrec
          by_cases hmc : m = ratioCondMonth cfg
          · subst hmc
            have hrd := jobLoop_rd_freeze cfg (ratioCondMonth cfg) hcr
              rfl hjcm hK
              (monthPrep cfg oracle (ratioCondMonth cfg) rows, none)
            rcases List.mem_cons.mp hrec with rfl | htl
            · refine ⟨fun _ => rfl, fun hlt => ?_⟩
              exfalso
              dsimp only at hlt
              omega
            · rw [hrd] at htl
              have hge := runAux_month_ge cfg oracle _ _ _ _ rec htl
              have hval := runAux_rd_const cfg oracle _ _ _ _
                (by omega) rec htl
              refine ⟨fun hle => absurd hle (by omega),
                fun _ => ?_⟩
              rw [runAux_succ_succ, hrd]
              exact ⟨_, List.mem_cons_self _ _, rfl, hval⟩
          · have hrd := jobLoop_rd_id cfg m
              (fun hcon => hmc hcon.2)
              (monthPrep cfg oracle m rows, none)
            rcases List.mem_cons.mp hrec with rfl | htl
            · refine ⟨fun _ => rfl, fun hlt => ?_⟩
              exfalso
              dsimp only at hlt
              omega
            · rw [hrd] at htl
              obtain ⟨h1, h2⟩ := ih (m + 1) _ (by omega) rec htl
              refine ⟨h1, fun hlt => ?_⟩
              obtain ⟨rec0, hrec0, hmon0, hv⟩ := h2 hlt
              rw [runAux_succ_succ, hrd]
              exact ⟨rec0, List.mem_cons_of_mem _ hrec0, hmon0, hv⟩

theorem assignCondRatio_counts (job : ℕ) (tjc egCnt : ℤ)
    (d : List (ℕ × ℚ)) (rows : List Row)
    (hE : pyRound (ratioLookup d job * (tjc : ℚ)) = egCnt)
    (hjob : 1 ≤ job) (heg : ∀ r ∈ rows, 1 ≤ r.eg)
    (h0 : cntAssign rows job = 0) (hE0 : 0 ≤ egCnt)
    (hEle : egCnt ≤ (rows.countP (fun r =>
      r.assign == 0 && r.eg == 1 && r.fur == 0) : ℤ))
    (hN0 : 0 ≤ tjc - egCnt)
    (hNle : tjc - egCnt ≤ (rows.countP (fun r => r.assign == 0 &&
      !(r.eg == 1) && r.fur == 0 && decide (r.orig ≤ job)) : ℤ)) :
    ((assignCondRatio job tjc 1 d rows).countP
        (fun r => r.assign == job && r.eg == 1) : ℤ) = egCnt ∧
    (cntAssign (assignCondRatio job tjc 1 d rows) job : ℤ) = tjc := by
  have hjz : (job == 0) = false := by
    simp only [beq_eq_false_iff_ne]
    omega
  have h0' : rows.countP (fun r => r.assign == job) = 0 := h0
  unfold assignCondRatio
  dsimp only
  rw [hE]
  set R1 := putJob egCnt
    (fun r => r.assign == 0 && r.eg == 1 && r.fur == 0) job rows
    with hR1def
  set R2 := putJob (tjc - egCnt)
    (fun r => r.assign == 0 && !(r.eg == 1) && r.fur == 0 &&
      decide (r.orig ≤ job)) job R1 with hR2def
  have h_t1 : pyTakeCount egCnt (rows.countP (fun r =>
      r.assign == 0 && r.eg == 1 && r.fur == 0)) =
      egCnt.toNat := by
    unfold pyTakeCount
    rw [if_pos hE0]
    omega
  have hR1K : R1 = updateK egCnt.toNat
      (fun r => r.assign == 0 && r.eg == 1 && r.fur == 0)
      (fun r => { r with assign := job }) rows := by
    rw [hR1def, putJob_eq_updateK, h_t1]
  have hfQj : ∀ r : Row,
      (r.assign == 0 && r.eg == 1 && r.fur == 0) = true →
      ((({ r with assign := job } : Row).assign == job) = true) ∧
      ((r.assign == job) = false) := by
    intro r hp
    simp only [Bool.and_eq_true, beq_iff_eq] at hp
    exact ⟨by simp, by
      simp only [beq_eq_false_iff_ne]
      omega⟩
  have c1j : R1.countP (fun r => r.assign == job) =
      rows.countP (fun r => r.assign == job) +
        min egCnt.toNat (rows.countP (fun r =>
          r.assign == 0 && r.eg == 1 && r.fur == 0)) := by
    rw [hR1K]
    exact updateK_countP_flip _ _ _ hfQj rows _
  have hfQr : ∀ r : Row,
      (r.assign == 0 && r.eg == 1 && r.fur == 0) = true →
      ((({ r with assign := job } : Row).assign == job &&
        ({ r with assign := job } : Row).eg == 1) = true) ∧
      ((r.assign == job && r.eg == 1) = false) := by
    intro r hp
    simp only [Bool.and_eq_true, beq_iff_eq] at hp
    constructor
    · simp only [Bool.and_eq_true, beq_iff_eq]
      exact ⟨by trivial, hp.1.2⟩
    · have : (r.assign == job) = false := by
        simp only [beq_eq_false_iff_ne]
        omega
      simp [this]
  have c1r : R1.countP (fun r => r.assign == job && r.eg == 1) =
      rows.countP (fun r => r.assign == job && r.eg == 1) +
        min egCnt.toNat (rows.countP (fun r =>
          r.assign == 0 && r.eg == 1 && r.fur == 0)) := by
    rw [hR1K]
    exact updateK_countP_flip _ _ _ hfQr rows _
  have hbase_r : rows.countP (fun r => r.assign == job && r.eg == 1)
      = 0 := by
    have hle := List.countP_mono_left (l := rows)
      (p := fun r => r.assign == job && r.eg == 1)
      (q := fun r => r.assign == job)
      (fun r _ hp => by
        simp only [Bool.and_eq_true] at hp
        exact hp.1)
    omega
  have c1p2 : R1.countP (fun r => r.assign == 0 && !(r.eg == 1) &&
      r.fur == 0 && decide (r.orig ≤ job)) =
      rows.countP (fun r => r.assign == 0 && !(r.eg == 1) &&
        r.fur == 0 && decide (r.orig ≤ job)) := by
    rw [hR1K]
    refine updateK_countP_indiff _ _ _ (fun r hp => ?_) rows _
    simp only [Bool.and_eq_true, beq_iff_eq] at hp
    have he1 : (r.eg == 1) = true := by
      simp only [beq_iff_eq]
      exact hp.1.2
    have hz : (({ r with assign := job } : Row).assign == 0) =
        false := hjz
    simp [he1, hz]
  have hegR1 : ∀ r2 ∈ R1, 1 ≤ r2.eg := by
    rw [hR1def]
    unfold putJob updateFirst
    refine updateSel_preserve _ _ (fun r hr => ?_) heg
    exact hr
  have h_t2 : pyTakeCount (tjc - egCnt) (R1.countP (fun r =>
      r.assign == 0 && !(r.eg == 1) && r.fur == 0 &&
        decide (r.orig ≤ job))) = (tjc - egCnt).toNat := by
    unfold pyTakeCount
    rw [if_pos hN0, c1p2]
    omega
  have hR2K : R2 = updateK (tjc - egCnt).toNat
      (fun r => r.assign == 0 && !(r.eg == 1) && r.fur == 0 &&
        decide (r.orig ≤ job))
      (fun r => { r with assign := job }) R1 := by
    rw [hR2def, putJob_eq_updateK, h_t2]
  have hfQj2 : ∀ r : Row,
      (r.assign == 0 && !(r.eg == 1) && r.fur == 0 &&
        decide (r.orig ≤ job)) = true →
      ((({ r with assign := job } : Row).assign == job) = true) ∧
      ((r.assign == job) = false) := by
    intro r hp
    simp only [Bool.and_eq_true, beq_iff_eq] at hp
    exact ⟨by simp, by
      simp only [beq_eq_false_iff_ne]
      omega⟩
  have c2j : R2.countP (fun r => r.assign == job) =
      R1.countP (fun r => r.assign == job) +
        min (tjc - egCnt).toNat (R1.countP (fun r =>
          r.assign == 0 && !(r.eg == 1) && r.fur == 0 &&
            decide (r.orig ≤ job))) := by
    rw [hR2K]
    exact updateK_countP_flip _ _ _ hfQj2 R1 _
  have c2r : R2.countP (fun r => r.assign == job && r.eg == 1) =
      R1.countP (fun r => r.assign == job && r.eg == 1) := by
    rw [hR2K]
    refine updateK_countP_indiff _ _ _ (fun r hp => ?_) R1 _
    simp only [Bool.and_eq_true, beq_iff_eq, Bool.not_eq_true',
      beq_eq_false_iff_ne] at hp
    have hne : (r.eg == 1) = false := by
      simp only [beq_eq_false_iff_ne]
      exact hp.1.1.2
    have hz : (r.assign == job) = false := by
      simp only [beq_eq_false_iff_ne]
      omega
    simp [hne, hz]
  have hfQn : ∀ r : Row,
      (r.assign == 0 && !(r.eg == 1) && r.fur == 0 &&
        decide (r.orig ≤ job)) = true →
      ((({ r with assign := job } : Row).assign == job &&
        !(({ r with assign := job } : Row).eg == 1)) = true) ∧
      ((r.assign == job && !(r.eg == 1)) = false) := by
    intro r hp
    simp only [Bool.and_eq_true, beq_iff_eq, Bool.not_eq_true',
      beq_eq_false_iff_ne] at hp
    constructor
    · simp only [Bool.and_eq_true, beq_iff_eq, Bool.not_eq_true',
        beq_eq_false_iff_ne]
      exact ⟨by trivial, hp.1.1.2⟩
    · have hz : (r.assign == job) = false := by
        simp only [beq_eq_false_iff_ne]
        omega
      simp [hz]
  have hbase_n : rows.countP (fun r =>
      r.assign == job && !(r.eg == 1)) = 0 := by
    have hle := List.countP_mono_left (l := rows)
      (p := fun r => r.assign == job && !(r.eg == 1))
      (q := fun r => r.assign == job)
      (fun r _ hp => by
        simp only [Bool.and_eq_true] at hp
        exact hp.1)
    omega
  have c1n : R1.countP (fun r => r.assign == job && !(r.eg == 1)) =
      rows.countP (fun r => r.assign == job && !(r.eg == 1)) := by
    rw [hR1K]
    refine updateK_countP_indiff _ _ _ (fun r hp => ?_) rows _
    simp only [Bool.and_eq_true, beq_iff_eq] at hp
    have he1 : (({ r with assign := job } : Row).eg == 1) = true := by
      simp only [beq_iff_eq]
      exact hp.1.2
    have hz : (r.assign == job) = false := by
      simp only [beq_eq_false_iff_ne]
      omega
    simp [he1, hz]
  have c2n : R2.countP (fun r => r.assign == job && !(r.eg == 1)) =
      R1.countP (fun r => r.assign == job && !(r.eg == 1)) +
        min (tjc - egCnt).toNat (R1.countP (fun r =>
          r.assign == 0 && !(r.eg == 1) && r.fur == 0 &&
            decide (r.orig ≤ job))) := by
    rw [hR2K]
    exact updateK_countP_flip _ _ _ hfQn R1 _
  have hegR2 : ∀ r2 ∈ R2, 1 ≤ r2.eg := by
    rw [hR2def]
    unfold putJob updateFirst
    refine updateSel_preserve _ _ (fun r hr => ?_) hegR1
    exact hr
  have hused : R2.countP (fun r => r.assign == job && 1 < r.eg) =
      R2.countP (fun r => r.assign == job && !(r.eg == 1)) := by
    refine List.countP_congr (fun r hr => ?_)
    simp only [Bool.and_eq_true, beq_iff_eq, decide_eq_true_eq,
      Bool.not_eq_true', beq_eq_false_iff_ne]
    have := hegR2 r hr
    constructor
    · rintro ⟨ha, hb⟩
      exact ⟨ha, by omega⟩
    · rintro ⟨ha, hb⟩
      exact ⟨ha, by omega⟩
  have husedval : (R2.countP (fun r =>
      r.assign == job && 1 < r.eg) : ℤ) = tjc - egCnt := by
    rw [hused, c2n, c1n, hbase_n, c1p2]
    omega
  have hamount : tjc - egCnt - (R2.countP (fun r =>
      r.assign == job && 1 < r.eg) : ℤ) = 0 := by
    omega
  rw [hamount, putJob_zero]
  unfold cntAssign
  constructor
  · rw [c2r, c1r, hbase_r]
    omega
  · rw [c2j, c1j, h0', c1p2]
    omega

/-- C5: the per-level ratio is computed by the set_ratio_cond_dict
formula (the two-decimal rounding of the reference group's share of the
level's holders); in the integrated engine the ratio dictionary is
absent in every month up to the ratio condition month and is set
exactly once, at that month, from the state after the pre-existing-
rights put at level 1, remaining that same frozen dictionary in every
later month; and assign_cond_ratio assigns exactly
round(r[k] * J[m][k]) of the level's slots to unassigned non-furloughed
reference-group employees and all remaining slots of the level to the
other groups, whenever the rounded share is within range and enough
candidates of each kind exist. -/
theorem claim_C5 (cfg : EngCfg) (oracle : List ℕ → List ℕ)
    (initRows : List Row) (hcr : cfg.condRatio = true)
    (hK : 1 ≤ cfg.K)
    (hjcm : inJobChangeMonths cfg (ratioCondMonth cfg) = true)
    (hstart : cfg.startMonth ≤ ratioCondMonth cfg) :
    (∀ (egNum : ℕ) (jobs : List ℕ) (rows : List Row), ∀ j ∈ jobs,
      ratioLookup (setRatioCondDict egNum jobs rows) j =
        round2 (((rows.countP (fun r =>
            r.orig == j && r.eg == egNum)) : ℚ) /
          ((rows.countP (fun r => r.orig == j)) : ℚ))) ∧
    (∀ rec ∈ engineRecs cfg oracle initRows,
      rec.month ≤ ratioCondMonth cfg → rec.rdIn = none) ∧
    (∀ rec ∈ engineRecs cfg oracle initRows,
      ratioCondMonth cfg < rec.month →
      ∃ rec0 ∈ engineRecs cfg oracle initRows,
        rec0.month = ratioCondMonth cfg ∧
        rec.rdIn = some (setRatioCondDict 1 (ratioJobs cfg)
          (prexStep cfg (ratioCondMonth cfg) 1
            ((cfg.J.getD (ratioCondMonth cfg) []).getD 0 0)
            rec0.prep))) ∧
    (∀ (job : ℕ) (tjc egCnt : ℤ) (d : List (ℕ × ℚ))
        (rows : List Row),
      pyRound (ratioLookup d job * (tjc : ℚ)) = egCnt → 1 ≤ job →
      (∀ r ∈ rows, 1 ≤ r.eg) → cntAssign rows job = 0 →
      0 ≤ egCnt →
      egCnt ≤ (rows.countP (fun r =>
        r.assign == 0 && r.eg == 1 && r.fur == 0) : ℤ) →
      0 ≤ tjc - egCnt →
      tjc - egCnt ≤ (rows.countP (fun r => r.assign == 0 &&
        !(r.eg == 1) && r.fur == 0 && decide (r.orig ≤ job)) : ℤ) →
      ((assignCondRatio job tjc 1 d rows).countP
          (fun r => r.assign == job && r.eg == 1) : ℤ) = egCnt ∧
      (cntAssign (assignCondRatio job tjc 1 d rows) job : ℤ) =
        tjc) := by
  refine ⟨?_, ?_, ?_, ?_⟩
  · exact fun egNum jobs rows j hj =>
      ratioLookup_setRatioCondDict egNum jobs rows j hj
  · intro rec hrec hle
    unfold engineRecs at hrec
    exact (runAux_rd_pre cfg oracle hcr hK hjcm _ _ _ hstart
      rec hrec).1 hle
  · intro rec hrec hlt
    unfold engineRecs at hrec
    obtain ⟨rec0, h0, hm0, hv⟩ := (runAux_rd_pre cfg oracle hcr hK
      hjcm _ _ _ hstart rec hrec).2 hlt
    refine ⟨rec0, ?_, hm0, hv⟩
    unfold engineRecs
    exact h0
  · exact fun job tjc egCnt d rows hE hjob heg h0 hE0 hEle hN0
      hNle => assignCondRatio_counts job tjc egCnt d rows hE hjob
        heg h0 hE0 hEle hN0 hNle

unseal Rat.add Rat.mul Rat.sub Rat.inv in
theorem claim_C5_witness :
    (⟨0, rowsC1, none,
      [⟨0, 1, 0, 1, 1, 0⟩, ⟨1, 1, 0, 1, 1, 0⟩,
       ⟨2, 1, 1, 1, 1, 0⟩, ⟨3, 1, 1, 1, 1, 0⟩]⟩ : MonthRec).rdIn =
      none :=
  (claim_C5 cfgC1 (fun l => l) rowsC1 (by decide) (by decide)
      (by decide) (by decide)).2.1
    ⟨0, rowsC1, none,
      [⟨0, 1, 0, 1, 1, 0⟩, ⟨1, 1, 0, 1, 1, 0⟩,
       ⟨2, 1, 1, 1, 1, 0⟩, ⟨3, 1, 1, 1, 1, 0⟩]⟩
    (by decide) (by decide)

theorem baselineStep_ifoP (P : ℕ → ℕ → ℕ → Prop) (job : ℕ) (tjc : ℤ)
    (rows : List Row) (h : ∀ r ∈ rows, P r.idx r.fur r.orig) :
    ∀ r2 ∈ baselineStep job tjc rows, P r2.idx r2.fur r2.orig := by
  unfold baselineStep putJob updateFirst
  dsimp only
  refine updateSel_preserve _ _ (fun r hr => ?_)
    (updateSel_preserve _ _ (fun r hr => ?_) h) <;> exact hr

theorem jobLoopAux_ifoP (cfg : EngCfg) (m : ℕ)
    (hp : cfg.condPrex = false) (hrc : cfg.condRatio = false)
    (hcc : cfg.condCount = false) (P : ℕ → ℕ → ℕ → Prop) :
    ∀ (N : ℕ) (st : List Row × Option (List (ℕ × ℚ))),
      (∀ r ∈ st.1, P r.idx r.fur r.orig) →
      ∀ r ∈ ((List.range N).foldl
          (fun s i => jobStep cfg m s (i + 1)) st).1,
        P r.idx r.fur r.orig := by
  intro N
  induction N with
  | zero =>
      intro st h r hr
      simp only [List.range_zero, List.foldl_nil] at hr
      exact h r hr
  | succ N ih =>
      intro st h
      rw [List.range_succ, List.foldl_append, List.foldl_cons,
        List.foldl_nil, jobStep_nocond cfg hp hrc hcc]
      exact baselineStep_ifoP P _ _ _ (ih st h)

theorem markFurRange_ioaP (P : ℕ → ℕ → ℕ → Prop) (K : ℕ)
    (rows : List Row) (h : ∀ r ∈ rows, P r.idx r.orig r.assign) :
    ∀ r2 ∈ markFurRange K rows, P r2.idx r2.orig r2.assign := by
  intro r2 h2
  unfold markFurRange at h2
  rw [List.mem_map] at h2
  obtain ⟨r1, h1, hr1⟩ := h2
  rw [List.mem_map] at h1
  obtain ⟨r0, h0, hr0⟩ := h1
  subst hr1
  subst hr0
  have := h r0 h0
  split_ifs <;> exact this

theorem carryNext_all (idxs : List ℕ) (rows : List Row)
    (h : ∀ r ∈ rows, (idxs.contains r.idx) = true) :
    carryNext idxs rows =
      rows.map (fun r => { r with orig := r.assign, assign := 0 }) := by
  unfold carryNext
  rw [List.filter_eq_self.mpr h]

theorem countP_putJob_orig (k job : ℕ) (n : ℤ) (p : Row → Bool)
    (rows : List Row) :
    (putJob n p job rows).countP (fun r => r.orig == k) =
      rows.countP (fun r => r.orig == k) := by
  rw [putJob_eq_updateK]
  refine updateK_countP_indiff _ p _ (fun r _ => ?_) rows _
  rfl

theorem countP_baselineStep_orig (k job : ℕ) (tjc : ℤ)
    (rows : List Row) :
    (baselineStep job tjc rows).countP (fun r => r.orig == k) =
      rows.countP (fun r => r.orig == k) := by
  unfold baselineStep
  dsimp only
  rw [countP_putJob_orig, countP_putJob_orig]

theorem countP_markFurRange_orig (K k : ℕ) (rows : List Row) :
    (markFurRange K rows).countP (fun r => r.orig == k) =
      rows.countP (fun r => r.orig == k) := by
  unfold markFurRange
  rw [List.countP_map, List.countP_map]
  refine List.countP_congr (fun r _ => ?_)
  simp only [Function.comp_apply]
  split_ifs <;> exact Iff.rfl

theorem relabelRow_eq (K : ℕ) (r : Row) (h1 : r.assign = r.orig)
    (h2 : 1 ≤ r.assign) (h3 : r.assign ≤ K) :
    (relabelRow K r).assign = (relabelRow K r).orig := by
  unfold relabelRow
  dsimp only
  rw [if_neg (by omega), if_neg (by omega)]
  exact h1

theorem baselineStep_stovepipe (job : ℕ) (hjob : 1 ≤ job) (tjc : ℤ)
    (rows : List Row)
    (hS1 : ∀ r ∈ rows, r.fur = 0 ∧ 1 ≤ r.orig)
    (hS2 : ∀ r ∈ rows, (r.orig ≤ job - 1 → r.assign = r.orig) ∧
      (job - 1 < r.orig → r.assign = 0))
    (hexact : (rows.countP (fun r => r.orig == job) : ℤ) = tjc) :
    ∀ r2 ∈ baselineStep job tjc rows,
      (r2.fur = 0 ∧ 1 ≤ r2.orig) ∧
      (r2.orig ≤ job → r2.assign = r2.orig) ∧
      (job < r2.orig → r2.assign = 0) := by
  have htjc : 0 ≤ tjc := hexact ▸ Int.natCast_nonneg _
  have hassign : ∀ r ∈ rows, r.assign ≠ job := by
    intro r hr
    rcases hS2 r hr with ⟨h1, h2⟩
    by_cases ho : r.orig ≤ job - 1
    · have := h1 ho
      have := (hS1 r hr).2
      omega
    · have := h2 (by omega)
      omega
  have hcnt0 : cntAssign rows job = 0 := by
    unfold cntAssign
    refine List.countP_eq_zero.mpr (fun r hr => ?_)
    simp only [beq_iff_eq]
    exact hassign r hr
  have hp1cong : ∀ r ∈ rows,
      ((r.assign == 0 && decide (r.orig ≤ job) && r.fur == 0) = true) ↔
      ((r.orig == job) = true) := by
    intro r hr
    simp only [Bool.and_eq_true, beq_iff_eq, decide_eq_true_eq]
    constructor
    · rintro ⟨⟨hz, hle⟩, _⟩
      rcases hS2 r hr with ⟨h1, _⟩
      by_cases ho : r.orig ≤ job - 1
      · have := h1 ho
        have := (hS1 r hr).2
        omega
      · omega
    · intro ho
      rcases hS2 r hr with ⟨_, h2⟩
      exact ⟨⟨h2 (by omega), by omega⟩, (hS1 r hr).1⟩
  have hcntp1 : rows.countP (fun r =>
      r.assign == 0 && decide (r.orig ≤ job) && r.fur == 0) =
      rows.countP (fun r => r.orig == job) :=
    List.countP_congr hp1cong
  have hptake : pyTakeCount tjc (rows.countP (fun r =>
      r.assign == 0 && decide (r.orig ≤ job) && r.fur == 0)) =
      rows.countP (fun r =>
        r.assign == 0 && decide (r.orig ≤ job) && r.fur == 0) := by
    unfold pyTakeCount
    rw [if_pos htjc]
    omega
  have hrows1 : putJob tjc (fun r =>
      r.assign == 0 && decide (r.orig ≤ job) && r.fur == 0) job rows =
      rows.map (fun r => if (r.assign == 0 && decide (r.orig ≤ job) &&
        r.fur == 0) = true then { r with assign := job } else r) := by
    rw [putJob_eq_updateK, hptake]
    exact updateK_all _ _ rows _ (le_refl _)
  have hmapcnt : cntAssign (rows.map (fun r =>
      if (r.assign == 0 && decide (r.orig ≤ job) && r.fur == 0) = true
      then { r with assign := job } else r)) job =
      rows.countP (fun r =>
        r.assign == 0 && decide (r.orig ≤ job) && r.fur == 0) := by
    unfold cntAssign
    rw [List.countP_map]
    refine List.countP_congr (fun r hr => ?_)
    by_cases hp1 : (r.assign == 0 && decide (r.orig ≤ job) &&
        r.fur == 0) = true
    · rw [Function.comp_apply, if_pos hp1, hp1]
      simp
    · have hb : (r.assign == 0 && decide (r.orig ≤ job) &&
          r.fur == 0) = false := by simpa using hp1
      rw [Function.comp_apply, hb]
      simp only [Bool.false_eq_true, if_false, beq_iff_eq, iff_false]
      exact hassign r hr
  unfold baselineStep
  dsimp only
  rw [hcnt0]
  simp only [Nat.cast_zero, sub_zero]
  rw [hrows1]
  have hn2 : tjc - (cntAssign (rows.map (fun r =>
      if (r.assign == 0 && decide (r.orig ≤ job) && r.fur == 0) = true
      then { r with assign := job } else r)) job : ℤ) = 0 := by
    rw [hmapcnt, hcntp1]
    omega
  rw [hn2, putJob_zero]
  intro r2 h2
  rw [List.mem_map] at h2
  obtain ⟨r, hr, hg⟩ := h2
  by_cases hp1 : (r.assign == 0 && decide (r.orig ≤ job) &&
      r.fur == 0) = true
  · rw [if_pos hp1] at hg
    subst hg
    dsimp only
    have ho : r.orig = job := by
      have := (hp1cong r hr).mp hp1
      simpa using this
    exact ⟨⟨(hS1 r hr).1, (hS1 r hr).2⟩, fun _ => ho.symm,
      fun hlt => by omega⟩
  · rw [if_neg hp1] at hg
    subst hg
    refine ⟨hS1 r hr, fun ho => ?_, fun hlt => ?_⟩
    · by_cases ho' : r.orig ≤ job - 1
      · exact (hS2 r hr).1 ho'
      · exfalso
        apply hp1
        simp only [Bool.and_eq_true, beq_iff_eq, decide_eq_true_eq]
        exact ⟨⟨(hS2 r hr).2 (by omega), ho⟩, (hS1 r hr).1⟩
    · exact (hS2 r hr).2 (by omega)

theorem jobLoopAux_stovepipe (cfg : EngCfg) (m : ℕ)
    (hp : cfg.condPrex = false) (hrc : cfg.condRatio = false)
    (hcc : cfg.condCount = false) :
    ∀ (N : ℕ) (st : List Row × Option (List (ℕ × ℚ))),
      (∀ r ∈ st.1, r.assign = 0) →
      (∀ r ∈ st.1, r.fur = 0 ∧ 1 ≤ r.orig) →
      (∀ k : ℕ, 1 ≤ k →
        (st.1.countP (fun r => r.orig == k) : ℤ) =
          (cfg.J.getD m []).getD (k - 1) 0) →
      (∀ r ∈ ((List.range N).foldl
          (fun s i => jobStep cfg m s (i + 1)) st).1,
        (r.fur = 0 ∧ 1 ≤ r.orig) ∧ (r.orig ≤ N → r.assign = r.orig) ∧
        (N < r.orig → r.assign = 0)) ∧
      (∀ k : ℕ, ((List.range N).foldl
          (fun s i => jobStep cfg m s (i + 1)) st).1.countP
            (fun r => r.orig == k) =
        st.1.countP (fun r => r.orig == k)) := by
  intro N
  induction N with
  | zero =>
      intro st h0 hS1 hF
      constructor
      · intro r hr
        simp only [List.range_zero, List.foldl_nil] at hr
        refine ⟨hS1 r hr, fun ho => ?_, fun _ => h0 r hr⟩
        have := (hS1 r hr).2
        have := h0 r hr
        omega
      · intro k
        simp only [List.range_zero, List.foldl_nil]
  | succ N ih =>
      intro st h0 hS1 hF
      obtain ⟨ih1, ih2⟩ := ih st h0 hS1 hF
      rw [List.range_succ, List.foldl_append, List.foldl_cons,
        List.foldl_nil, jobStep_nocond cfg hp hrc hcc]
      constructor
      · refine baselineStep_stovepipe (N + 1) (by omega) _ _
          (fun r hr => (ih1 r hr).1)
          (fun r hr => ⟨(ih1 r hr).2.1, (ih1 r hr).2.2⟩) ?_
        rw [ih2 (N + 1)]
        exact hF (N + 1) (by omega)
      · intro k
        rw [countP_baselineStep_orig, ih2 k]

theorem month_stovepipe (cfg : EngCfg) (oracle : List ℕ → List ℕ)
    (hp : cfg.condPrex = false) (hrc : cfg.condRatio = false)
    (hcc : cfg.condCount = false) (hred : cfg.reductionMonths = [])
    (hfr : cfg.furReturn = false) (m : ℕ) (rows : List Row)
    (rd : Option (List (ℕ × ℚ)))
    (h0 : ∀ r ∈ rows, r.assign = 0)
    (hS1 : ∀ r ∈ rows, r.fur = 0 ∧ 1 ≤ r.orig ∧ r.orig ≤ cfg.K)
    (hF : ∀ k : ℕ, 1 ≤ k →
      (rows.countP (fun r => r.orig == k) : ℤ) =
        (cfg.J.getD m []).getD (k - 1) 0) :
    (∀ r2 ∈ markFurRange cfg.K
        (jobLoop cfg m (monthPrep cfg oracle m rows, rd)).1,
      r2.assign = r2.orig ∧ 1 ≤ r2.orig ∧ r2.orig ≤ cfg.K ∧
        r2.fur = 0) ∧
    (∀ k : ℕ, (markFurRange cfg.K
        (jobLoop cfg m (monthPrep cfg oracle m rows, rd)).1).countP
          (fun r => r.orig == k) =
      rows.countP (fun r => r.orig == k)) := by
  rw [monthPrep_id cfg hred hfr]
  unfold jobLoop
  have hfold := jobLoopAux_stovepipe cfg m hp hrc hcc cfg.K (rows, rd)
    h0 (fun r hr => ⟨(hS1 r hr).1, (hS1 r hr).2.1⟩) hF
  have horigK : ∀ r ∈ ((List.range cfg.K).foldl
      (fun s i => jobStep cfg m s (i + 1)) (rows, rd)).1,
      r.orig ≤ cfg.K :=
    jobLoopAux_ifoP cfg m hp hrc hcc (fun _ _ o => o ≤ cfg.K) cfg.K
      (rows, rd) (fun r hr => (hS1 r hr).2.2)
  have hloople : ∀ r ∈ ((List.range cfg.K).foldl
      (fun s i => jobStep cfg m s (i + 1)) (rows, rd)).1,
      r.assign ≤ cfg.K := by
    intro r hr
    rw [(hfold.1 r hr).2.1 (horigK r hr)]
    exact horigK r hr
  constructor
  · intro r2 h2
    obtain ⟨r, hmem, ha, ho⟩ := markFurRange_mem cfg.K _ r2 h2
    have hfr2 := hfold.1 r hmem
    have hoK := horigK r hmem
    have hao : r.assign = r.orig := hfr2.2.1 hoK
    rcases markFurRange_spec cfg.K _ hloople r2 h2 with
      ⟨h1, h2k, h3⟩ | ⟨hz, _⟩
    · exact ⟨by omega, by omega, by omega, h3⟩
    · have := hfr2.1.2
      omega
  · intro k
    rw [countP_markFurRange_orig]
    exact hfold.2 k

theorem updateSel_id_of_none (p : Row → Bool) (sel : ℕ → Bool)
    (f : Row → Row) :
    ∀ (rows : List Row) (j0 : ℕ), (∀ r ∈ rows, p r = false) →
      updateSel p sel f rows j0 = rows
  | [], _, _ => rfl
  | r :: rs, j0, h => by
      unfold updateSel
      have hp : p r = false := h r (List.mem_cons_self r rs)
      simp [hp, updateSel_id_of_none p sel f rs j0
        (fun r2 h2 => h r2 (List.mem_cons_of_mem r h2))]

theorem putJob_id_of_none (n : ℤ) (p : Row → Bool) (job : ℕ)
    (rows : List Row) (h : ∀ r ∈ rows, p r = false) :
    putJob n p job rows = rows := by
  unfold putJob updateFirst
  exact updateSel_id_of_none p _ _ rows 0 h

theorem baselineStep_id_of_filled (job : ℕ) (tjc : ℤ)
    (rows : List Row) (h : ∀ r ∈ rows, r.assign ≠ 0) :
    baselineStep job tjc rows = rows := by
  unfold baselineStep
  have h1 : putJob (tjc - (cntAssign rows job : ℤ))
      (fun r => r.assign == 0 && decide (r.orig ≤ job) && r.fur == 0)
      job rows = rows := by
    refine putJob_id_of_none _ _ _ _ (fun r hr => ?_)
    have hz : (r.assign == 0) = false := by
      simp only [beq_eq_false_iff_ne, ne_eq]
      exact h r hr
    rw [hz, Bool.false_and, Bool.false_and]
  dsimp only
  rw [h1]
  refine putJob_id_of_none _ _ _ _ (fun r hr => ?_)
  have hz : (r.assign == 0) = false := by
    simp only [beq_eq_false_iff_ne, ne_eq]
    exact h r hr
  rw [hz, Bool.false_and]

theorem jobLoopAux_id_of_filled (cfg : EngCfg) (m : ℕ)
    (hp : cfg.condPrex = false) (hrc : cfg.condRatio = false)
    (hcc : cfg.condCount = false) :
    ∀ (N : ℕ) (st : List Row × Option (List (ℕ × ℚ))),
      (∀ r ∈ st.1, r.assign ≠ 0) →
      ((List.range N).foldl
          (fun s i => jobStep cfg m s (i + 1)) st).1 = st.1 := by
  intro N
  induction N with
  | zero =>
      intro st _
      rw [List.range_zero, List.foldl_nil]
  | succ N ih =>
      intro st h
      rw [List.range_succ, List.foldl_append, List.foldl_cons,
        List.foldl_nil, jobStep_nocond cfg hp hrc hcc]
      dsimp only
      rw [ih st h]
      exact baselineStep_id_of_filled _ _ _ h

theorem month_stovepipe_delayed (cfg : EngCfg)
    (oracle : List ℕ → List ℕ) (hp : cfg.condPrex = false)
    (hrc : cfg.condRatio = false) (hcc : cfg.condCount = false)
    (hred : cfg.reductionMonths = []) (hfr : cfg.furReturn = false)
    (m : ℕ) (rows : List Row) (rd : Option (List (ℕ × ℚ)))
    (h0 : ∀ r ∈ rows, r.assign = r.orig)
    (hS1 : ∀ r ∈ rows, r.fur = 0 ∧ 1 ≤ r.orig ∧ r.orig ≤ cfg.K) :
    (∀ r2 ∈ markFurRange cfg.K
        (jobLoop cfg m (monthPrep cfg oracle m rows, rd)).1,
      r2.assign = r2.orig ∧ 1 ≤ r2.orig ∧ r2.orig ≤ cfg.K ∧
        r2.fur = 0) ∧
    (∀ k : ℕ, (markFurRange cfg.K
        (jobLoop cfg m (monthPrep cfg oracle m rows, rd)).1).countP
          (fun r => r.orig == k) =
      rows.countP (fun r => r.orig == k)) := by
  rw [monthPrep_id cfg hred hfr]
  unfold jobLoop
  have hne : ∀ r ∈ (((rows, rd) :
      List Row × Option (List (ℕ × ℚ)))).1, r.assign ≠ 0 := by
    intro r hr
    have ha := h0 r hr
    have h1 := (hS1 r hr).2.1
    omega
  rw [jobLoopAux_id_of_filled cfg m hp hrc hcc cfg.K (rows, rd) hne]
  constructor
  · intro r2 h2
    unfold markFurRange at h2
    rw [List.mem_map] at h2
    obtain ⟨r1, h1m, hr1⟩ := h2
    rw [List.mem_map] at h1m
    obtain ⟨r0, h0m, hr0⟩ := h1m
    have ha := h0 r0 h0m
    obtain ⟨hf, h1o, hKo⟩ := hS1 r0 h0m
    have hz : (r0.assign == 0) = false := by
      simp only [beq_eq_false_iff_ne, ne_eq]
      omega
    rw [hz] at hr0
    simp only [Bool.false_eq_true, if_false] at hr0
    subst hr0
    rw [if_pos (by
      simp only [Bool.and_eq_true, decide_eq_true_eq]
      omega)] at hr1
    rw [← hr1]
    exact ⟨ha, h1o, hKo, rfl⟩
  · intro k
    exact countP_markFurRange_orig cfg.K k rows

theorem runAux_stovepipe (cfg : EngCfg) (oracle : List ℕ → List ℕ)
    (hp : cfg.condPrex = false) (hrc : cfg.condRatio = false)
    (hcc : cfg.condCount = false) (hred : cfg.reductionMonths = [])
    (hfr : cfg.furReturn = false)
    (hJconst : ∀ m k : ℕ, m + 1 < cfg.numMonths →
      (cfg.J.getD (m + 1) []).getD k 0 = (cfg.J.getD m []).getD k 0) :
    ∀ (n m : ℕ) (rows : List Row) (rd : Option (List (ℕ × ℚ))),
      m + n ≤ cfg.numMonths →
      ((∀ r ∈ rows, r.assign = 0) ∨ (∀ r ∈ rows, r.assign = r.orig)) →
      (∀ r ∈ rows, r.fur = 0 ∧ 1 ≤ r.orig ∧ r.orig ≤ cfg.K) →
      (∀ k : ℕ, 1 ≤ k →
        (rows.countP (fun r => r.orig == k) : ℤ) =
          (cfg.J.getD m []).getD (k - 1) 0) →
      (∀ r ∈ rows, ∀ m' : ℕ, ((cfg.roster m').contains r.idx) = true) →
      ∀ rec ∈ runAux cfg oracle m n rows rd, ∀ r ∈ rec.post,
        r.assign = r.orig ∧ 1 ≤ r.orig ∧ r.orig ≤ cfg.K ∧
          r.fur = 0 := by
  intro n
  induction n with
  | zero =>
      intro m rows rd _ _ _ _ _ rec hrec
      rw [runAux_zero] at hrec
      exact absurd hrec (List.not_mem_nil rec)
  | succ k2 ih =>
      intro m rows rd hmn h0 hS1 hF hR rec hrec
      have hhead : ∀ r2 ∈ markFurRange cfg.K
          (jobLoop cfg m (monthPrep cfg oracle m rows, rd)).1,
          r2.assign = r2.orig ∧ 1 ≤ r2.orig ∧ r2.orig ≤ cfg.K ∧
            r2.fur = 0 := by
        rcases h0 with h0 | h0
        · exact (month_stovepipe cfg oracle hp hrc hcc hred hfr m
            rows rd h0 hS1 hF).1
        · exact (month_stovepipe_delayed cfg oracle hp hrc hcc hred
            hfr m rows rd h0 hS1).1
      cases k2 with
      | zero =>
          rw [runAux_one] at hrec
          rcases List.mem_singleton.mp hrec with rfl
          exact hhead
      | succ k3 =>
          rw [runAux_succ_succ] at hrec
          rcases List.mem_cons.mp hrec with rfl | htl
          · exact hhead
          · have hcountpost : ∀ k : ℕ, (markFurRange cfg.K
                (jobLoop cfg m
                  (monthPrep cfg oracle m rows, rd)).1).countP
                  (fun r => r.orig == k) =
                rows.countP (fun r => r.orig == k) := by
              rcases h0 with h0 | h0
              · exact (month_stovepipe cfg oracle hp hrc hcc
                  hred hfr m rows rd h0 hS1 hF).2
              · exact (month_stovepipe_delayed cfg oracle hp hrc hcc
                  hred hfr m rows rd h0 hS1).2
            have hidxpost : ∀ r2 ∈ markFurRange cfg.K
                (jobLoop cfg m (monthPrep cfg oracle m rows, rd)).1,
                ∀ m' : ℕ, ((cfg.roster m').contains r2.idx) = true := by
              rw [monthPrep_id cfg hred hfr]
              unfold jobLoop
              exact markFurRange_ioaP (fun i _ _ => ∀ m' : ℕ,
                  ((cfg.roster m').contains i) = true) cfg.K _
                (jobLoopAux_ifoP cfg m hp hrc hcc (fun i _ _ =>
                  ∀ m' : ℕ, ((cfg.roster m').contains i) = true) cfg.K
                  (rows, rd) (fun r hr => hR r hr))
            have hcarry : carryNext (cfg.roster (m + 1)) (markFurRange
                cfg.K (jobLoop cfg m
                  (monthPrep cfg oracle m rows, rd)).1) =
                (markFurRange cfg.K (jobLoop cfg m
                  (monthPrep cfg oracle m rows, rd)).1).map
                  (fun r => { r with orig := r.assign, assign := 0 }) :=
              carryNext_all _ _ (fun r hr => hidxpost r hr (m + 1))
            refine ih (m + 1) _ _ (by omega)
              (Or.inl (carryNext_assign _ _))
              (fun r2 h2 => ?_) (fun k hk => ?_) (fun r2 h2 m' => ?_)
              rec htl
            · obtain ⟨r, hr, he⟩ := carryNext_mem _ _ r2 h2
              subst he
              dsimp only
              obtain ⟨hae, h1, hK, hf⟩ := hhead r hr
              exact ⟨hf, by omega, by omega⟩
            · rw [hcarry, List.countP_map]
              have hc1 : (markFurRange cfg.K (jobLoop cfg m
                  (monthPrep cfg oracle m rows, rd)).1).countP
                    ((fun r => r.orig == k) ∘ (fun r =>
                      { r with orig := r.assign, assign := 0 })) =
                  (markFurRange cfg.K (jobLoop cfg m
                    (monthPrep cfg oracle m rows, rd)).1).countP
                    (fun r => r.orig == k) := by
                refine List.countP_congr (fun r hr => ?_)
                simp only [Function.comp_apply, beq_iff_eq]
                rw [(hhead r hr).1]
              rw [hc1, hcountpost k, hF k hk,
                hJconst m (k - 1) (by omega)]
            · obtain ⟨r, hr, he⟩ := carryNext_mem _ _ r2 h2
              subst he
              exact hidxpost r hr m'

/-- C9 (amended): with no conditions, no reduction months, no recall, a
job-count table constant across the processed months, an initial
population that is entirely non-furloughed, holds genuine levels, and
exactly fills every level's count, and a roster that never drops an
employee, the engine's assignment equals the held job for every
employee in every processed month, both in the month states and in the
stored output; this holds whether or not the delayed-implementation
prefill is active, since under exact fill the prefilled start month
coincides with the computed assignment.  The original claim omits the
exact-fill and no-attrition
premises, and retirements that open a senior slot cause an upgrade that
breaks the round trip (see the counterexample). -/
theorem claim_C9_amended (cfg : EngCfg) (oracle : List ℕ → List ℕ)
    (initRows : List Row) (hp : cfg.condPrex = false)
    (hrc : cfg.condRatio = false) (hcc : cfg.condCount = false)
    (hred : cfg.reductionMonths = []) (hfr : cfg.furReturn = false)
    (hJconst : ∀ m k : ℕ, m + 1 < cfg.numMonths →
      (cfg.J.getD (m + 1) []).getD k 0 = (cfg.J.getD m []).getD k 0)
    (hS1 : ∀ r ∈ initRows, r.fur = 0 ∧ 1 ≤ r.orig ∧ r.orig ≤ cfg.K)
    (hexact : ∀ k : ℕ, 1 ≤ k →
      ((initRows.countP (fun r => r.orig == k)) : ℤ) =
        (cfg.J.getD cfg.startMonth []).getD (k - 1) 0)
    (hroster : ∀ (m' : ℕ), ∀ r ∈ initRows,
      ((cfg.roster m').contains r.idx) = true) :
    (∀ rec ∈ engineRecs cfg oracle initRows, ∀ r ∈ rec.post,
      r.assign = r.orig) ∧
    (∀ ms ∈ engineOut cfg oracle initRows, ∀ r ∈ ms,
      r.assign = r.orig) := by
  have hrecs : ∀ rec ∈ engineRecs cfg oracle initRows,
      ∀ r ∈ rec.post, r.assign = r.orig ∧ 1 ≤ r.orig ∧
        r.orig ≤ cfg.K ∧ r.fur = 0 := by
    intro rec hrec
    unfold engineRecs at hrec
    by_cases hsm : cfg.startMonth ≤ cfg.numMonths
    · refine runAux_stovepipe cfg oracle hp hrc hcc hred hfr hJconst
        _ _ _ _ (by omega) ?_ (fun r hr => ?_)
        (fun k hk => ?_) (fun r hr m' => ?_) rec hrec
      · by_cases hd : cfg.delayed = true
        · refine Or.inr (fun r hr => ?_)
          rw [List.mem_map] at hr
          obtain ⟨r0, _, hr0⟩ := hr
          rw [← hr0]
          simp [hd]
        · refine Or.inl (fun r hr => ?_)
          rw [List.mem_map] at hr
          obtain ⟨r0, _, hr0⟩ := hr
          rw [← hr0]
          simp [hd]
      · rw [List.mem_map] at hr
        obtain ⟨r0, h0, hr0⟩ := hr
        subst hr0
        exact hS1 r0 h0
      · rw [List.countP_map]
        have hcp : initRows.countP ((fun r => r.orig == k) ∘
            (fun r : Row => { r with
              assign := if cfg.delayed then r.orig else 0 })) =
            initRows.countP (fun r => r.orig == k) :=
          List.countP_congr (fun r _ => Iff.rfl)
        rw [hcp]
        exact hexact k hk
      · rw [List.mem_map] at hr
        obtain ⟨r0, h0, hr0⟩ := hr
        subst hr0
        exact hroster m' r0 h0
    · rw [show cfg.numMonths - cfg.startMonth = 0 by omega,
        runAux_zero] at hrec
      exact absurd hrec (List.not_mem_nil rec)
  constructor
  · exact fun rec hrec r hr => (hrecs rec hrec r hr).1
  · intro ms hms r hr
    unfold engineOut at hms
    rw [List.mem_map] at hms
    obtain ⟨ms0, hms0, hmseq⟩ := hms
    subst hmseq
    rw [List.mem_map] at hr
    obtain ⟨r0, hr0, hreq⟩ := hr
    subst hreq
    obtain ⟨rec, hrecm, hor⟩ := finalizeOut_mem _ ms0 hms0
    rcases hor with rfl | rfl
    · obtain ⟨ha, h1, hK, _⟩ := hrecs rec hrecm r0 hr0
      exact relabelRow_eq cfg.K r0 ha (by omega) (by omega)
    · rw [List.mem_map] at hr0
      obtain ⟨r1, hr1, hr1eq⟩ := hr0
      subst hr1eq
      obtain ⟨ha, h1, hK, _⟩ := hrecs rec hrecm r1 hr1
      exact relabelRow_eq cfg.K _ rfl (by dsimp only; omega)
        (by dsimp only; omega)

theorem claim_C9_amended_witness :
    (∀ r ∈ rowsW, r.fur = 0 ∧ 1 ≤ r.orig ∧ r.orig ≤ cfgW2.K) ∧
    (∀ k : ℕ, 1 ≤ k →
      ((rowsW.countP (fun r => r.orig == k)) : ℤ) =
        (cfgW2.J.getD cfgW2.startMonth []).getD (k - 1) 0) ∧
    (∀ rec ∈ engineRecs cfgW2 (fun l => l) rowsW, ∀ r ∈ rec.post,
      r.assign = r.orig) ∧
    (∀ ms ∈ engineOut cfgW2 (fun l => l) rowsW, ∀ r ∈ ms,
      r.assign = r.orig) := by
  have hexact : ∀ k : ℕ, 1 ≤ k →
      ((rowsW.countP (fun r => r.orig == k)) : ℤ) =
        (cfgW2.J.getD cfgW2.startMonth []).getD (k - 1) 0 := by
    intro k hk
    match k with
    | 1 => decide
    | (k + 2) =>
        have h1 : rowsW.countP (fun r => r.orig == k + 2) = 0 := by
          simp only [rowsW, List.countP_cons, List.countP_nil]
          rw [if_neg (by simp only [beq_iff_eq]; omega)]
        have h2 : (cfgW2.J.getD cfgW2.startMonth []).getD (k + 1) 0 =
            0 := by
          show (([1] : List ℤ)).getD (k + 1) 0 = 0
          rw [List.getD_cons_succ, List.getD_nil]
        rw [h1, show k + 2 - 1 = k + 1 from rfl, h2]
        rfl
  have hro : ∀ (m' : ℕ), ∀ r ∈ rowsW,
      ((cfgW2.roster m').contains r.idx) = true := by
    intro m' r hr
    rcases List.mem_singleton.mp hr with rfl
    rfl
  have hc := claim_C9_amended cfgW2 (fun l => l) rowsW (by decide)
    (by decide) (by decide) (by decide) (by decide)
    (fun m k hm => by
      have hm2 : m + 1 < 2 := hm
      have hm0 : m = 0 := by omega
      subst hm0
      rfl)
    (by decide) hexact hro
  exact ⟨by decide, hexact, hc.1, hc.2⟩

/-- C9 counterexample: no job changes (the table is constant), no
conditions, no furloughs, start month 0, every level exactly filled;
yet when the senior (level-1) holder leaves the roster after month 0,
the remaining level-2 holder is assigned level 1 in month 1, so
assigned_job differs from the held orig_job. -/
theorem claim_C9_cex :
    cfgC9.condPrex = false ∧ cfgC9.reductionMonths = [] ∧
    cfgC9.startMonth = 0 ∧ (∀ r ∈ rowsC9, r.fur = 0) ∧
    ∃ rec ∈ engineRecs cfgC9 (fun l => l) rowsC9,
      ∃ r ∈ rec.post, r.assign ≠ r.orig := by
  decide

unseal Rat.add Rat.mul Rat.sub Rat.inv in
/-- C1 counterexample: with the pre-existing-rights condition and the
ratio condition both active on job level 1 (two slots), the engine
assigns the level to all four employees, exceeding the table entry. -/
theorem claim_C1_cex :
    ∃ rec ∈ engineRecs cfgC1 (fun l => l) rowsC1,
      (cfgC1.J.getD rec.month []).getD 0 0 <
        (cntAssign rec.post 1 : ℤ) := by
  decide

end SenList
